import Mathlib

/-!
# SymSpell (Go port): shallow embedding and verification

The development follows `symspell.go`.  Go strings are byte sequences, Go maps are
association lists read through `GoMap.get?`, and the unspecified iteration order of a Go
map is supplied by an `Oracle`, a stream of numbers consumed from left to right, so that
every statement quantified over all oracles covers every iteration order.

`uint` counters and distances are modelled as natural numbers: a counter would need
2^64 increments before it wraps, and distances never exceed the length of a string.
-/

namespace Symspell

/-! ## Data model -/

/-- A Go string: an arbitrary sequence of bytes (not necessarily valid UTF-8). -/
abbrev GoString := List (Fin 256)

/-- A Go rune: a Unicode code point. -/
abbrev Rune := Nat

/-- Bytes of an ASCII literal (used to write examples). -/
def str (s : String) : GoString := s.toList.map (fun c => Fin.ofNat c.toNat)

/-- A Go map, as an association list; the order of the list carries no meaning. -/
abbrev GoMap (κ : Type) (ν : Type) := List (κ × ν)

namespace GoMap
variable {κ ν : Type} [DecidableEq κ]

/-- Go `v, ok := m[k]`. -/
def get? : GoMap κ ν → κ → Option ν
  | [], _ => none
  | (k', v) :: m, k => if k = k' then some v else get? m k

/-- Go `delete(m, k)`. -/
def del (m : GoMap κ ν) (k : κ) : GoMap κ ν := m.filter (fun p => decide (p.1 ≠ k))

/-- Go `m[k] = v`. -/
def set (m : GoMap κ ν) (k : κ) (v : ν) : GoMap κ ν := (k, v) :: del m k

end GoMap

/-- Source of the choices Go leaves unspecified (map iteration order). -/
abbrev Oracle := List Nat

/-- Go `for k, v := range m`: the entries of `m` in an order chosen by the oracle
(each entry is inserted at an oracle-chosen position of the order built so far). -/
def rangeOrder {α : Type} (l : List α) (o : Oracle) : List α × Oracle :=
  l.foldl (fun acc x => (acc.1.insertIdx (acc.2.headD 0 % (acc.1.length + 1)) x, acc.2.tail))
    ([], o)

/-- The constant `EDIT_DISTANCE`. -/
def EDIT_DISTANCE : Nat := 2

/-! ## Definition store -/

/-- Go `hash/fnv` `New64` (FNV-1, 64 bit) applied to the bytes of a string. -/
def fnv64 (data : GoString) : Nat :=
  data.foldl (fun h b => Nat.xor ((h * 1099511628211) % 2 ^ 64) b.val) 14695981039346656037

/-- The type `DefinitionOrdinals`; the hasher is reset before every use and so carries no
state between calls. -/
structure DefinitionOrdinals where
  definitions : GoMap Nat (List GoString)
deriving DecidableEq

/-- The function `NewDefinitionOrdinals`. -/
def NewDefinitionOrdinals : DefinitionOrdinals := { definitions := [] }

/-- The method `DefinitionOrdinals.Add`. -/
def DefinitionOrdinals.Add (self : DefinitionOrdinals) (definition : GoString) :
    DefinitionOrdinals × Nat :=
  let sum := fnv64 definition
  ({ definitions :=
      self.definitions.set sum ((self.definitions.get? sum).getD [] ++ [definition]) }, sum)

/-- The method `DefinitionOrdinals.Get`. -/
def DefinitionOrdinals.Get (self : DefinitionOrdinals) (hash : Nat) : List GoString :=
  match self.definitions.get? hash with
  | some data => data
  | none => []

/-! ## Dictionary -/

/-- The type `DictItem`. -/
structure DictItem where
  Term : GoString
  Count : Nat
  Suggestions : GoMap GoString Nat
  Definitions : GoMap Nat Bool
deriving DecidableEq

/-- The type `SuggestItem`. -/
structure SuggestItem where
  Term : GoString
  Distance : Nat
  Count : Nat
  Definitions : List GoString
deriving DecidableEq

/-- The type `SymSpell` (the locks are not modelled: every call runs alone). -/
structure SymSpell where
  Dictionary : GoMap GoString DictItem
  Ordinals : DefinitionOrdinals
deriving DecidableEq

/-- The function `NewSymSpell`. -/
def NewSymSpell : SymSpell := { Dictionary := [], Ordinals := NewDefinitionOrdinals }

/-- Go `new(DictItem)` followed by the two `make` calls. -/
def newDictItem : DictItem := { Term := [], Count := 0, Suggestions := [], Definitions := [] }

/-! ## Delete-variant generator -/

/-- Go `term[:i] + term[i+1:]`. -/
def deleteAt (term : GoString) (i : Nat) : GoString := term.take i ++ term.drop (i + 1)

/-- The method `Edits`, with the recursion depth as fuel: every recursive call is on a
string one byte shorter, so `len(term)` levels are enough. -/
def EditsAux : Nat → GoString → Nat → GoMap GoString Nat → Bool → GoMap GoString Nat
  | 0, _, _, edits, _ => edits
  | fuel + 1, term, distance, edits, recursive =>
    let distance := distance + 1
    if term.length > 1 then
      (List.range term.length).foldl (fun edits i =>
        let delete := deleteAt term i
        if (edits.get? delete).isNone then
          let edits := edits.set delete distance
          if recursive && decide (distance < EDIT_DISTANCE) then
            EditsAux fuel delete distance edits recursive
          else edits
        else edits) edits
    else edits

/-- Body of the loop of `Edits` at index `i`, with `distance` already incremented. -/
def editsStep (fuel : Nat) (term : GoString) (distance : Nat) (recursive : Bool)
    (edits : GoMap GoString Nat) (i : Nat) : GoMap GoString Nat :=
  if (edits.get? (deleteAt term i)).isNone then
    if recursive && decide (distance < EDIT_DISTANCE) then
      EditsAux fuel (deleteAt term i) distance (edits.set (deleteAt term i) distance) recursive
    else edits.set (deleteAt term i) distance
  else edits

/-- The method `Edits`; `none` stands for a `nil` map. -/
def Edits (term : GoString) (distance : Nat) (edits : Option (GoMap GoString Nat))
    (recursive : Bool) : GoMap GoString Nat :=
  EditsAux term.length term distance (edits.getD []) recursive

/-- What a binding added by `Edits(t, d, edits, r)` looks like. -/
def EditsNew (t : GoString) (d : Nat) (r : Bool) (v : GoString) (n : Nat) : Prop :=
  v.Sublist t ∧ v ≠ [] ∧ v.length < t.length ∧ n = d + (t.length - v.length) ∧
    (n = d + 1 ∨ (r = true ∧ n ≤ EDIT_DISTANCE))

/-! ## Dictionary builder -/

/-- Body of the loop over the delete variants in `AddEntry`. -/
def addSuggestion (term : GoString) (dict : GoMap GoString DictItem) (p : GoString × Nat) :
    GoMap GoString DictItem :=
  match dict.get? p.1 with
  | some entry2 =>
    if (entry2.Suggestions.get? term).isNone then
      dict.set p.1 { entry2 with Suggestions := entry2.Suggestions.set term p.2 }
    else dict
  | none =>
    dict.set p.1 { newDictItem with Suggestions := GoMap.set ([] : GoMap GoString Nat) term p.2 }

/-- Body of the loop over the definitions in `AddEntry`. -/
def addDefinition (st : DefinitionOrdinals × DictItem) (definition : GoString) :
    DefinitionOrdinals × DictItem :=
  let r := st.1.Add definition
  (r.1, { st.2 with Definitions := st.2.Definitions.set r.2 true })

/-- The method `AddEntry`.  The entry is a pointer into the dictionary in the source; here
it is written back before the loop over the delete variants starts.  The third component is
the error (`none` for `nil`). -/
def AddEntry (self : SymSpell) (term : GoString) (definitions : List GoString) (o : Oracle) :
    SymSpell × Bool × Option String :=
  if term = [] then (self, false, some "Empty string can't be the term")
  else
    let found := self.Dictionary.get? term
    let entry0 : DictItem := found.getD newDictItem
    let entry1 : DictItem := { entry0 with Count := entry0.Count + 1 }
    let st := definitions.foldl addDefinition (self.Ordinals, entry1)
    let entry2 := st.2
    if entry2.Term = [] then
      let entry3 : DictItem := { entry2 with Term := term }
      let dict1 := self.Dictionary.set term entry3
      let dict2 := (rangeOrder (Edits term 0 none true) o).1.foldl (addSuggestion term) dict1
      ({ Dictionary := dict2, Ordinals := st.1 }, true, none)
    else
      ({ Dictionary := self.Dictionary.set term entry2, Ordinals := st.1 }, false, none)

/-- The entry `addSuggestion` leaves under a delete variant whose entry was `o`. -/
def addSug1 (term : GoString) (o : Option DictItem) (n : Nat) : DictItem :=
  match o with
  | some entry2 =>
    if (entry2.Suggestions.get? term).isNone then
      { entry2 with Suggestions := entry2.Suggestions.set term n }
    else entry2
  | none => { newDictItem with Suggestions := GoMap.set ([] : GoMap GoString Nat) term n }

/-- The entry of `term` in `AddEntry` after the count and the definitions are updated. -/
def entryAfter (self : SymSpell) (term : GoString) (definitions : List GoString) : DictItem :=
  (definitions.foldl addDefinition (self.Ordinals,
    { (self.Dictionary.get? term).getD newDictItem with
      Count := ((self.Dictionary.get? term).getD newDictItem).Count + 1 })).2

/-- Children of every bound one-character deletion of `t` are bound. -/
def EditsClosed (t : GoString) (e : GoMap GoString Nat) : Prop :=
  ∀ u, (e.get? u).isSome = true → u.length + 1 = t.length →
    ∀ j, j < u.length → (e.get? (deleteAt u j)).isSome = true

/-- The invariant of the dictionary: entries are term entries or pure delete variants,
and the suggestions are exactly the delete index of the ingested terms. -/
structure DictInv (dict : GoMap GoString DictItem) : Prop where
  no_empty : dict.get? [] = none
  term_key : ∀ k e, dict.get? k = some e → e.Term = [] ∨ e.Term = k
  term_count : ∀ k e, dict.get? k = some e → (e.Term = k ↔ 0 < e.Count)
  sugg_nodup : ∀ k e, dict.get? k = some e → (e.Suggestions.map Prod.fst).Nodup
  sugg_sound : ∀ v e s n, dict.get? v = some e → e.Suggestions.get? s = some n →
    (∃ es, dict.get? s = some es ∧ es.Term = s) ∧ (Edits s 0 none true).get? v = some n
  sugg_complete : ∀ t et, dict.get? t = some et → et.Term = t →
    ∀ v n, (Edits t 0 none true).get? v = some n →
      ∃ e, dict.get? v = some e ∧ e.Suggestions.get? t = some n

/-! ## Edit distance -/

/-- The rune `utf8.RuneError`. -/
def RuneError : Rune := 0xFFFD

/-- A UTF-8 continuation byte. -/
def isCont (b : Fin 256) : Bool := 0x80 ≤ b.val && b.val ≤ 0xBF

/-- Go's decoding of the first rune of a non-empty string, with its width in bytes: an
invalid or incomplete encoding yields `RuneError` of width 1. -/
def decodeRune : GoString → Rune × Nat
  | [] => (RuneError, 1)
  | b0 :: rest =>
    if b0.val < 0x80 then (b0.val, 1)
    else if 0xC0 ≤ b0.val ∧ b0.val < 0xE0 then
      match rest with
      | b1 :: _ =>
        let r := (b0.val % 32) * 64 + b1.val % 64
        if isCont b1 ∧ 0x7F < r then (r, 2) else (RuneError, 1)
      | _ => (RuneError, 1)
    else if 0xE0 ≤ b0.val ∧ b0.val < 0xF0 then
      match rest with
      | b1 :: b2 :: _ =>
        let r := (b0.val % 16) * 4096 + (b1.val % 64) * 64 + b2.val % 64
        if isCont b1 ∧ isCont b2 ∧ 0x7FF < r ∧ ¬ (0xD800 ≤ r ∧ r ≤ 0xDFFF) then (r, 3)
        else (RuneError, 1)
      | _ => (RuneError, 1)
    else if 0xF0 ≤ b0.val ∧ b0.val < 0xF8 then
      match rest with
      | b1 :: b2 :: b3 :: _ =>
        let r := (b0.val % 8) * 262144 + (b1.val % 64) * 4096 + (b2.val % 64) * 64 + b3.val % 64
        if isCont b1 ∧ isCont b2 ∧ isCont b3 ∧ 0xFFFF < r ∧ r ≤ 0x10FFFF then (r, 4)
        else (RuneError, 1)
      | _ => (RuneError, 1)
    else (RuneError, 1)

/-- Go `for _, char := range s`: the runes of `s`; the first argument counts the bytes of
the current rune still to be skipped. -/
def runesAux : Nat → GoString → List Rune
  | _, [] => []
  | skip + 1, _ :: rest => runesAux skip rest
  | 0, b :: rest =>
    let d := decodeRune (b :: rest)
    d.1 :: runesAux (d.2 - 1) rest

/-- The code points of a string, as Go's `range` yields them. -/
def runes (s : GoString) : List Rune := runesAux 0 s

/-- The table `H` of `LevDistance`, a zero-initialised `[][]int`. -/
abbrev Table := Nat → Nat → Int

/-- Go `H[i][j] = v`. -/
def Table.set (H : Table) (i j : Nat) (v : Int) : Table :=
  fun i' j' => if i' = i ∧ j' = j then v else H i' j'

/-- Body of the inner loop of `LevDistance` (column `j` of row `i`); the state is the
table and `DB`. -/
def levCell (s1 s2 : List Rune) (sd : GoMap Rune Nat) (i : Nat) (st : Table × Nat) (j : Nat) :
    Table × Nat :=
  let H := st.1
  let DB := st.2
  let i1 := (sd.get? (s2.getD (j - 1) 0)).getD 0
  let j1 := DB
  let st1 : Table × Nat :=
    if s1.getD (i - 1) 0 = s2.getD (j - 1) 0 then
      (H.set (i + 1) (j + 1) (H i j), j)
    else
      (H.set (i + 1) (j + 1) (min (H i j) (min (H (i + 1) j) (H i (j + 1))) + 1), DB)
  let H1 := st1.1
  (H1.set (i + 1) (j + 1)
    (min (H1 (i + 1) (j + 1))
      (H1 i1 j1 + ((i : Int) - (i1 : Int) - 1) + 1 + ((j : Int) - (j1 : Int) - 1))), st1.2)

/-- Body of the outer loop of `LevDistance` (row `i`); the state is the table and `sd`. -/
def levRow (s1 s2 : List Rune) (st : Table × GoMap Rune Nat) (i : Nat) :
    Table × GoMap Rune Nat :=
  let r := (List.range' 1 s2.length).foldl (levCell s1 s2 st.2 i) (st.1, 0)
  (r.1, st.2.set (s1.getD (i - 1) 0) i)

/-- The map `sd` after the two loops that read the strings. -/
def levInitSd (s1 s2 : List Rune) : GoMap Rune Nat :=
  (s1 ++ s2).foldl (fun sd c => if (sd.get? c).isNone then sd.set c 0 else sd) []

/-- The table after the initialisation of its borders. -/
def levInitTable (m n : Nat) : Table :=
  let INF : Int := (m : Int) + (n : Int)
  let H0 : Table := fun _ _ => 0
  let H1 := H0.set 0 0 INF
  let H2 := (List.range (m + 1)).foldl (fun H i => (H.set (i + 1) 1 (i : Int)).set (i + 1) 0 INF) H1
  (List.range (n + 1)).foldl (fun H j => (H.set 1 (j + 1) (j : Int)).set 0 (j + 1) INF) H2

/-- The table `H` at the end of `LevDistance`, on the rune sequences. -/
def levTable (s1 s2 : List Rune) : Table :=
  ((List.range' 1 s1.length).foldl (levRow s1 s2)
    (levInitTable s1.length s2.length, levInitSd s1 s2)).1

/-- The function `LevDistance`. -/
def LevDistance (source target : GoString) : Nat :=
  let s1 := runes source
  let s2 := runes target
  (levTable s1 s2 (s1.length + 1) (s2.length + 1)).toNat

/-! ## The recurrence computed by `LevDistance` -/

/-- Largest row `r ≤ i` (rows count from 1) with `s[r-1] = c`, and 0 when there is none:
the value of `sd[c]` at the start of row `i + 1`, and of `DB` after column `i`. -/
def lastRow (s : List Rune) (c : Rune) : Nat → Nat
  | 0 => 0
  | i + 1 => if s.getD i 0 = c then i + 1 else lastRow s c i

/-- The value first stored in `H[i+1][j+1]`. -/
def levBase (s1 s2 : List Rune) (H : Table) (i j : Nat) : Int :=
  if s1.getD (i - 1) 0 = s2.getD (j - 1) 0 then H i j
  else min (H i j) (min (H (i + 1) j) (H i (j + 1))) + 1

/-- The transposition term of `H[i+1][j+1]`. -/
def levTrans (s1 s2 : List Rune) (H : Table) (i j : Nat) : Int :=
  H (lastRow s1 (s2.getD (j - 1) 0) (i - 1)) (lastRow s2 (s1.getD (i - 1) 0) (j - 1))
    + ((i : Int) - (lastRow s1 (s2.getD (j - 1) 0) (i - 1) : Int) - 1) + 1
    + ((j : Int) - (lastRow s2 (s1.getD (i - 1) 0) (j - 1) : Int) - 1)

/-- The equation that cell `(i+1, j+1)` of the table satisfies once it is filled. -/
def CellEq (s1 s2 : List Rune) (H : Table) (i j : Nat) : Prop :=
  H (i + 1) (j + 1) = min (levBase s1 s2 H i j) (levTrans s1 s2 H i j)

/-- The table of `LevDistance` as a system of equations: borders and recurrence. -/
structure LevSpec (s1 s2 : List Rune) (H : Table) : Prop where
  top : ∀ j, H 0 j = (s1.length : Int) + (s2.length : Int) ∨ s2.length + 1 < j
  left : ∀ i, H i 0 = (s1.length : Int) + (s2.length : Int) ∨ s1.length + 1 < i
  row1 : ∀ j, j ≤ s2.length → H 1 (j + 1) = (j : Int)
  col1 : ∀ i, i ≤ s1.length → H (i + 1) 1 = (i : Int)
  cell : ∀ i j, 1 ≤ i → i ≤ s1.length → 1 ≤ j → j ≤ s2.length → CellEq s1 s2 H i j

/-- The result of `LevDistance` as a function of the two rune sequences. -/
def levRunes (s1 s2 : List Rune) : Nat :=
  (levTable s1 s2 (s1.length + 1) (s2.length + 1)).toNat

/-! ## Lookup -/

/-- The function `TrueDistance`. -/
def TrueDistance (suggest : GoString) (sDistance : Nat) (candidate : GoString) (cDistance : Nat)
    (input : GoString) : Nat :=
  if suggest = input then 0
  else if sDistance = 0 then cDistance
  else if cDistance = 0 then sDistance
  else LevDistance suggest input

/-- The function `arbitraryKey`: some key of the map, the empty string for an empty map. -/
def arbitraryKey (input : GoMap GoString Nat) (o : Oracle) : GoString × Oracle :=
  ((input.getD (o.headD 0 % input.length) ([], 0)).1, o.tail)

/-- Body of the loop over `value.Suggestions` in `Lookup`. -/
def lookupSuggest (dict : GoMap GoString DictItem) (input candidate : GoString) (cDistance : Nat)
    (suggestions : GoMap GoString SuggestItem) (p : GoString × Nat) :
    GoMap GoString SuggestItem :=
  if (suggestions.get? p.1).isNone then
    let realDistance := TrueDistance p.1 p.2 candidate cDistance input
    if realDistance ≤ EDIT_DISTANCE then
      match dict.get? p.1 with
      | some value2 =>
        suggestions.set value2.Term
          { Term := value2.Term, Distance := realDistance, Count := value2.Count,
            Definitions := [] }
      | none => suggestions
    else suggestions
  else suggestions

/-- The part of the loop body of `Lookup` that consults the dictionary. -/
def lookupEntry (dict : GoMap GoString DictItem) (input candidate : GoString) (cDistance : Nat)
    (suggestions : GoMap GoString SuggestItem) (o : Oracle) :
    GoMap GoString SuggestItem × Oracle :=
  match dict.get? candidate with
  | some value =>
    let suggestions1 :=
      if value.Term ≠ [] then
        if (suggestions.get? value.Term).isNone then
          suggestions.set value.Term
            { Term := value.Term, Distance := cDistance, Count := value.Count,
              Definitions := [] }
        else suggestions
      else suggestions
    let r := rangeOrder value.Suggestions o
    (r.1.foldl (lookupSuggest dict input candidate cDistance) suggestions1, r.2)
  | none => (suggestions, o)

/-- The part of the loop body of `Lookup` that extends the worklist. -/
def lookupExpand (candidate : GoString) (cDistance : Nat) (candidates : GoMap GoString Nat)
    (o : Oracle) : GoMap GoString Nat × Oracle :=
  if cDistance < EDIT_DISTANCE then
    let r := rangeOrder (Edits candidate cDistance none false) o
    (r.1.foldl (fun cands p => if (cands.get? p.1).isNone then cands.set p.1 p.2 else cands)
      candidates, r.2)
  else (candidates, o)

/-- The loop of `Lookup`; `none` when the fuel runs out before the loop ends. -/
def lookupLoop (dict : GoMap GoString DictItem) (input : GoString) :
    Nat → GoMap GoString Nat → GoMap GoString SuggestItem → Oracle →
    Option (GoMap GoString SuggestItem × Oracle)
  | 0, candidates, suggestions, o => if candidates.length > 0 then none else some (suggestions, o)
  | fuel + 1, candidates, suggestions, o =>
    if candidates.length > 0 then
      let k := arbitraryKey candidates o
      let candidate := k.1
      let cDistance := (candidates.get? candidate).getD 0
      let candidates1 := candidates.del candidate
      if cDistance > EDIT_DISTANCE then some (suggestions, k.2)
      else
        let s := lookupEntry dict input candidate cDistance suggestions k.2
        let c := lookupExpand candidate cDistance candidates1 s.2
        lookupLoop dict input fuel c.1 s.1 c.2
    else some (suggestions, o)

/-- The method `Lookup`; `none` when the fuel runs out before the loop ends. -/
def Lookup (fuel : Nat) (self : SymSpell) (input : GoString) (o : Oracle) :
    Option (List SuggestItem) :=
  match lookupLoop self.Dictionary input fuel (GoMap.set ([] : GoMap GoString Nat) input 0) [] o with
  | some r => some ((rangeOrder r.1 r.2).1.map Prod.snd)
  | none => none

/-- Iterations that always suffice for `Lookup` on `input`. -/
def lookupFuel (input : GoString) : Nat := input.length * input.length + 2

/-! ## Reading `Lookup` entry by entry -/

/-- The item recorded for the suggestion `x` with label `sd` met under the candidate `k`
with label `n`, if its verified distance passes the bound. -/
def suggestItemOf (dict : GoMap GoString DictItem) (input k : GoString) (n : Nat)
    (x : GoString) (sd : Nat) : Option SuggestItem :=
  if TrueDistance x sd k n input ≤ EDIT_DISTANCE then
    (dict.get? x).map (fun value2 =>
      { Term := value2.Term, Distance := TrueDistance x sd k n input, Count := value2.Count,
        Definitions := [] })
  else none

/-- The item that processing the candidate `k` with label `n` records under the key `x`,
when nothing is recorded under `x` yet. -/
def contrib (dict : GoMap GoString DictItem) (input k : GoString) (n : Nat) (x : GoString) :
    Option SuggestItem :=
  match dict.get? k with
  | none => none
  | some value =>
    if value.Term ≠ [] ∧ x = value.Term then
      some { Term := value.Term, Distance := n, Count := value.Count, Definitions := [] }
    else (value.Suggestions.get? x).bind (suggestItemOf dict input k n x)

/-- Weight of one worklist entry: a bound on the iterations it can cause. -/
def candWeight1 (n len : Nat) : Nat :=
  if n = 0 then 1 + len * len else if n = 1 then 1 + len else 1

/-- Weight of the worklist. -/
def candWeight (cands : GoMap GoString Nat) : Nat :=
  (cands.map (fun p => candWeight1 p.2 p.1.length)).sum

/-- Every worklist entry is a delete variant of the input labelled with the number of
deleted bytes, at most `EDIT_DISTANCE`. -/
def CandInv (input : GoString) (cands : GoMap GoString Nat) : Prop :=
  ∀ c n, cands.get? c = some n → c.Sublist input ∧ c.length + n = input.length ∧
    n ≤ EDIT_DISTANCE

/-- Invariant of the loop of `Lookup`: the worklist holds labelled delete variants of the
input, and every recorded item is what some such variant records. -/
def BaseInv (dict : GoMap GoString DictItem) (input : GoString)
    (cands : GoMap GoString Nat) (sugg : GoMap GoString SuggestItem) : Prop :=
  CandInv input cands ∧ (sugg.map Prod.fst).Nodup ∧
    ∀ x it, sugg.get? x = some it →
      ∃ k n, k.Sublist input ∧ k.length + n = input.length ∧ n ≤ EDIT_DISTANCE ∧
        contrib dict input k n x = some it

/-- The invariant behind recall: the term is recorded, or the worklist still holds a
string of which the common delete variant is a subsequence. -/
def RecallInv (dict : GoMap GoString DictItem) (q t c0 : GoString)
    (cands : GoMap GoString Nat) (sugg : GoMap GoString SuggestItem) : Prop :=
  BaseInv dict q cands sugg ∧
    ((sugg.get? t).isSome = true ∨ ∃ p n, cands.get? p = some n ∧ c0.Sublist p)

/-- The invariant behind the exact match: nothing has happened yet, or the term is recorded
at distance 0. -/
def ExactInv (dict : GoMap GoString DictItem) (t : GoString) (cnt : Nat)
    (cands : GoMap GoString Nat) (sugg : GoMap GoString SuggestItem) : Prop :=
  BaseInv dict t cands sugg ∧
    (((∀ c, cands.get? c = if c = t then some 0 else none) ∧ ∀ x, sugg.get? x = none) ∨
      ∃ it, sugg.get? t = some it ∧ it.Distance = 0 ∧ it.Count = cnt)

/-! ## Engine states -/

/-- One call of `AddEntry`: its arguments and the iteration order it meets. -/
structure Call where
  term : GoString
  definitions : List GoString
  order : Oracle

/-- The engine after a sequence of `AddEntry` calls on a fresh `NewSymSpell()`. -/
def runCalls (calls : List Call) : SymSpell :=
  calls.foldl (fun s c => (AddEntry s c.term c.definitions c.order).1) NewSymSpell

/-- A string of ASCII characters. -/
def isASCII (s : GoString) : Prop := ∀ b ∈ s, b.val < 128

instance (s : GoString) : Decidable (isASCII s) := by unfold isASCII; infer_instance

end Symspell

namespace Symspell

/-! ## The unrestricted Damerau-Levenshtein distance, after the specification -/

/-- One unit-cost edit of a sequence of code points, in the words of the specification:
an insertion, a deletion, a substitution, or a transposition of two adjacent code points,
anywhere in the sequence. -/
inductive EditStep : List Rune → List Rune → Prop
  | ins (l r : List Rune) (c : Rune) : EditStep (l ++ r) (l ++ c :: r)
  | del (l r : List Rune) (c : Rune) : EditStep (l ++ c :: r) (l ++ r)
  | sub (l r : List Rune) (c d : Rune) : EditStep (l ++ c :: r) (l ++ d :: r)
  | swap (l r : List Rune) (c d : Rune) : EditStep (l ++ c :: d :: r) (l ++ d :: c :: r)

/-- The relation `EditPath n a b`: some `n` successive edits turn `a` into `b`; an edit may
touch what an earlier edit produced (a substring may be edited more than once). -/
inductive EditPath : Nat → List Rune → List Rune → Prop
  | refl (a : List Rune) : EditPath 0 a a
  | step {n : Nat} {a b c : List Rune} : EditStep a b → EditPath n b c → EditPath (n + 1) a c

/-! ## Auxiliary notions for the proofs about the table -/

/-- Below the diagonal sum `N`, vertically adjacent cells differ by at most one. -/
def LipR (s1 s2 : List Rune) (H : Table) (N : Nat) : Prop :=
  ∀ i j, i + 1 + j ≤ N → i + 1 ≤ s1.length → j ≤ s2.length →
    H (i + 2) (j + 1) ≤ H (i + 1) (j + 1) + 1 ∧ H (i + 1) (j + 1) ≤ H (i + 2) (j + 1) + 1

/-- Below the diagonal sum `N`, horizontally adjacent cells differ by at most one. -/
def LipC (s1 s2 : List Rune) (H : Table) (N : Nat) : Prop :=
  ∀ i j, i + (j + 1) ≤ N → i ≤ s1.length → j + 1 ≤ s2.length →
    H (i + 1) (j + 2) ≤ H (i + 1) (j + 1) + 1 ∧ H (i + 1) (j + 1) ≤ H (i + 1) (j + 2) + 1

/-- A trace from a string `a` to a string `b`: the characters of `a` in order, each with
the position of `b` it is matched to, if any. -/
abbrev Trace := List (Rune × Option Nat)

/-- The element is matched to a position below `j`. -/
def tbelow (j : Nat) (p : Rune × Option Nat) : Bool :=
  match p.2 with
  | some r => decide (r < j)
  | none => false

/-- The element is matched to a position above `j`. -/
def tabove (j : Nat) (p : Rune × Option Nat) : Bool :=
  match p.2 with
  | some r => decide (j < r)
  | none => false

/-- The element is matched to a position of `b` that holds another character. -/
def tmis (b : List Rune) (p : Rune × Option Nat) : Bool :=
  match p.2 with
  | some r => decide (b.getD r 0 ≠ p.1)
  | none => false

/-- Number of matched elements. -/
def tmatched (F : Trace) : Nat := F.countP (fun p => p.2.isSome)

/-- Number of matched elements whose characters differ. -/
def tmism (b : List Rune) (F : Trace) : Nat := F.countP (tmis b)

/-- Number of elements of `G` matched below the target of `p`. -/
def tcrossOf (p : Rune × Option Nat) (G : Trace) : Nat :=
  match p.2 with
  | some j => G.countP (tbelow j)
  | none => 0

/-- Number of crossing pairs of matched elements. -/
def tinv : Trace → Nat
  | [] => 0
  | p :: F => tcrossOf p F + tinv F

/-- Number of crossing pairs with the first element in `F` and the second in `G`. -/
def tcross (F G : Trace) : Nat := (F.map (fun p => tcrossOf p G)).sum

/-- The positions of `b` that are matched. -/
def targets (F : Trace) : List Nat := F.filterMap Prod.snd

/-- Cost of a trace to the first `j` characters of `b`: unmatched characters on both
sides, mismatches and crossings. -/
def tcost (b : List Rune) (j : Nat) (F : Trace) : Int :=
  (F.length : Int) + (j : Int) - 2 * (tmatched F : Int) + (tmism b F : Int) + (tinv F : Int)

/-- A trace to the first `j` characters: distinct targets below `j`. -/
structure TValid (j : Nat) (F : Trace) : Prop where
  bound : ∀ r ∈ targets F, r < j
  nodup : (targets F).Nodup

/-- The identity trace of a string placed at position `k`. -/
def idTrace : Nat → List Rune → Trace
  | _, [] => []
  | k, c :: r => (c, some k) :: idTrace (k + 1) r

end Symspell

namespace Symspell

/-! ## The loop of `Lookup`, one iteration at a time -/

/-- State of the loop of `Lookup`: the worklist `candidates`, the map `suggestions`, and
what is left of the oracle. -/
abbrev LoopState := GoMap GoString Nat × GoMap GoString SuggestItem × Oracle

/-- How one evaluation of the loop of `Lookup` ends: the loop condition fails, the `break`
is taken, or the body runs to its end and leaves a new state. -/
inductive LoopStep where
  | done : LoopStep
  | broke : LoopStep
  | next : LoopState → LoopStep
deriving DecidableEq

/-- One iteration of the loop of `Lookup` (the body of `lookupLoop`). -/
def lookupIter (dict : GoMap GoString DictItem) (input : GoString) (st : LoopState) : LoopStep :=
  if st.1.length > 0 then
    let k := arbitraryKey st.1 st.2.2
    let candidate := k.1
    let cDistance := (st.1.get? candidate).getD 0
    let candidates1 := st.1.del candidate
    if cDistance > EDIT_DISTANCE then LoopStep.broke
    else
      let s := lookupEntry dict input candidate cDistance st.2.1 k.2
      let c := lookupExpand candidate cDistance candidates1 s.2
      LoopStep.next (c.1, s.1, c.2)
  else LoopStep.done

/-- The state in which `Lookup(input)` enters its loop. -/
def lookupInit (input : GoString) (o : Oracle) : LoopState :=
  (GoMap.set ([] : GoMap GoString Nat) input 0, [], o)

/-- The states the loop of `Lookup(input)` passes through. -/
inductive LoopReach (dict : GoMap GoString DictItem) (input : GoString) (o : Oracle) :
    LoopState → Prop where
  | init : LoopReach dict input o (lookupInit input o)
  | step {st st' : LoopState} : LoopReach dict input o st →
      lookupIter dict input st = LoopStep.next st' → LoopReach dict input o st'

/-! ## Pure delete variants -/

/-- An entry that is no term entry is a pure delete variant: it has no definitions and at
least one suggestion. -/
def PureInv (dict : GoMap GoString DictItem) : Prop :=
  ∀ k e, dict.get? k = some e → e.Term = [] → e.Definitions = [] ∧ e.Suggestions ≠ []

/-! ## Deleting characters, after the specification -/

/-- In the words of the specification: `Deletes t k v` says that `v` is obtained from `t` by
deleting `k` of its characters (bytes, as the code indexes a string), one after the
other. -/
inductive Deletes : GoString → Nat → GoString → Prop where
  | zero (t : GoString) : Deletes t 0 t
  | succ {t u : GoString} {k : Nat} (i : Nat) :
      Deletes t k u → i < u.length → Deletes t (k + 1) (deleteAt u i)

end Symspell

namespace Symspell

/-! ## Maps -/

namespace GoMap
variable {κ ν : Type} [DecidableEq κ]

theorem get?_nil (k : κ) : get? ([] : GoMap κ ν) k = none := rfl

theorem get?_cons (k' : κ) (v : ν) (m : GoMap κ ν) (k : κ) :
    get? ((k', v) :: m) k = if k = k' then some v else get? m k := rfl

theorem get?_del (m : GoMap κ ν) (k k' : κ) :
    get? (del m k) k' = if k' = k then none else get? m k' := by
  induction m with
  | nil => simp [del, get?]
  | cons p m ih =>
    obtain ⟨a, b⟩ := p
    unfold del at ih ⊢
    by_cases hak : a = k
    · subst hak
      simp only [List.filter_cons, ne_eq, not_true_eq_false, decide_False, Bool.false_eq_true,
        ↓reduceIte, ih, get?_cons]
      by_cases h : k' = a <;> simp [h]
    · simp only [List.filter_cons, ne_eq, hak, not_false_eq_true, decide_True, ↓reduceIte,
        get?_cons, ih]
      by_cases h : k' = a
      · subst h; simp [hak]
      · simp [h]

theorem get?_set (m : GoMap κ ν) (k : κ) (v : ν) (k' : κ) :
    get? (set m k v) k' = if k' = k then some v else get? m k' := by
  unfold set
  rw [get?_cons, get?_del]
  by_cases h : k' = k <;> simp [h]

theorem get?_set_self (m : GoMap κ ν) (k : κ) (v : ν) : get? (set m k v) k = some v := by
  simp [get?_set]

theorem get?_set_ne (m : GoMap κ ν) (k : κ) (v : ν) {k' : κ} (h : k' ≠ k) :
    get? (set m k v) k' = get? m k' := by
  simp [get?_set, h]

theorem mem_of_get? {m : GoMap κ ν} {k : κ} {v : ν} (h : get? m k = some v) : (k, v) ∈ m := by
  induction m with
  | nil => simp [get?] at h
  | cons p m ih =>
    obtain ⟨a, b⟩ := p
    rw [get?_cons] at h
    by_cases hk : k = a
    · simp only [hk, ↓reduceIte, Option.some.injEq] at h
      subst h; subst hk; simp
    · simp only [hk, ↓reduceIte] at h
      exact List.mem_cons_of_mem _ (ih h)

theorem get?_isSome_of_mem {m : GoMap κ ν} {k : κ} {v : ν} (h : (k, v) ∈ m) :
    (get? m k).isSome = true := by
  induction m with
  | nil => simp at h
  | cons p m ih =>
    obtain ⟨a, b⟩ := p
    rw [get?_cons]
    by_cases hk : k = a
    · simp [hk]
    · simp only [hk, ↓reduceIte]
      rcases List.mem_cons.1 h with h | h
      · exact absurd (congrArg Prod.fst h) hk
      · exact ih h

theorem get?_eq_none_iff {m : GoMap κ ν} {k : κ} : get? m k = none ↔ ∀ v, (k, v) ∉ m := by
  constructor
  · intro h v hv
    have := get?_isSome_of_mem hv
    simp [h] at this
  · intro h
    cases hg : get? m k with
    | none => rfl
    | some v => exact absurd (mem_of_get? hg) (h v)

/-- No key occurs twice. -/
theorem nodup_del {m : GoMap κ ν} (h : (m.map Prod.fst).Nodup) (k : κ) :
    ((del m k).map Prod.fst).Nodup := by
  unfold del
  exact (List.Sublist.map _ (List.filter_sublist m)).nodup h

theorem key_not_mem_del (m : GoMap κ ν) (k : κ) : k ∉ (del m k).map Prod.fst := by
  unfold del
  simp [List.mem_map, List.mem_filter]

theorem nodup_set {m : GoMap κ ν} (h : (m.map Prod.fst).Nodup) (k : κ) (v : ν) :
    ((set m k v).map Prod.fst).Nodup := by
  unfold set
  simp only [List.map_cons, List.nodup_cons]
  exact ⟨key_not_mem_del m k, nodup_del h k⟩

theorem get?_of_mem_nodup {m : GoMap κ ν} (h : (m.map Prod.fst).Nodup) {k : κ} {v : ν}
    (hm : (k, v) ∈ m) : get? m k = some v := by
  induction m with
  | nil => simp at hm
  | cons p m ih =>
    obtain ⟨a, b⟩ := p
    simp only [List.map_cons, List.nodup_cons] at h
    rw [get?_cons]
    rcases List.mem_cons.1 hm with hm | hm
    · simp only [Prod.mk.injEq] at hm
      simp [hm.1, hm.2]
    · have hne : k ≠ a := by
        intro hka
        exact h.1 (List.mem_map.2 ⟨(k, v), hm, hka⟩)
      simp only [hne, ↓reduceIte]
      exact ih h.2 hm

theorem mem_keys_iff {m : GoMap κ ν} {k : κ} :
    k ∈ m.map Prod.fst ↔ (get? m k).isSome = true := by
  constructor
  · intro h
    obtain ⟨⟨a, b⟩, hm, rfl⟩ := List.mem_map.1 h
    exact get?_isSome_of_mem hm
  · intro h
    obtain ⟨v, hv⟩ := Option.isSome_iff_exists.1 h
    exact List.mem_map.2 ⟨(k, v), mem_of_get? hv, rfl⟩

end GoMap

/-! ## Iteration order -/

theorem rangeOrder_aux_perm {α : Type} (l : List α) (acc : List α × Oracle) :
    (l.foldl (fun acc x =>
      (acc.1.insertIdx (acc.2.headD 0 % (acc.1.length + 1)) x, acc.2.tail)) acc).1.Perm
      (l.reverse ++ acc.1) := by
  induction l generalizing acc with
  | nil => simp
  | cons x l ih =>
    rw [List.foldl_cons]
    refine (ih _).trans ?_
    simp only [List.reverse_cons, List.append_assoc, List.singleton_append]
    refine List.Perm.append_left _ ?_
    exact List.perm_insertIdx _ _ (Nat.le_of_lt_succ (Nat.mod_lt _ (Nat.succ_pos _)))

theorem rangeOrder_perm {α : Type} (l : List α) (o : Oracle) : (rangeOrder l o).1.Perm l := by
  unfold rangeOrder
  refine (rangeOrder_aux_perm l ([], o)).trans ?_
  simp

theorem mem_rangeOrder {α : Type} {l : List α} {o : Oracle} {x : α} :
    x ∈ (rangeOrder l o).1 ↔ x ∈ l := (rangeOrder_perm l o).mem_iff

end Symspell

namespace Symspell

/-! ## The table of `LevDistance` -/

theorem lastRow_le (s : List Rune) (c : Rune) (i : Nat) : lastRow s c i ≤ i := by
  induction i with
  | zero => simp [lastRow]
  | succ i ih =>
    unfold lastRow
    split
    · exact le_rfl
    · exact Nat.le_succ_of_le ih

theorem lastRow_get (s : List Rune) (c : Rune) (i : Nat) (h : 0 < lastRow s c i) :
    s.getD (lastRow s c i - 1) 0 = c := by
  induction i with
  | zero => simp [lastRow] at h
  | succ i ih =>
    unfold lastRow at h ⊢
    split
    · rename_i he
      simpa only [Nat.add_sub_cancel] using he
    · rename_i hne
      simp only [hne, ↓reduceIte] at h
      exact ih h

theorem lastRow_lt_length (s : List Rune) (c : Rune) (i : Nat) (hi : i ≤ s.length) :
    lastRow s c i ≤ s.length := (lastRow_le s c i).trans hi

theorem Table.set_apply (H : Table) (i j : Nat) (v : Int) (a b : Nat) :
    H.set i j v a b = if a = i ∧ b = j then v else H a b := rfl

theorem Table.set_self (H : Table) (i j : Nat) (v : Int) : H.set i j v i j = v := by
  simp [Table.set_apply]

theorem Table.set_ne (H : Table) (i j : Nat) (v : Int) (a b : Nat) (h : ¬ (a = i ∧ b = j)) :
    H.set i j v a b = H a b := by
  simp [Table.set_apply, h]

/-- Writing a later cell does not disturb the equation of an earlier cell. -/
theorem cellEq_set {s1 s2 : List Rune} {H : Table} {i j : Nat} (hi : 1 ≤ i)
    (h : CellEq s1 s2 H i j) (a b : Nat) (v : Int)
    (hab : i + 1 < a ∨ (a = i + 1 ∧ j + 1 < b)) : CellEq s1 s2 (H.set a b v) i j := by
  have h1 := lastRow_le s1 (s2.getD (j - 1) 0) (i - 1)
  unfold CellEq levBase levTrans at h ⊢
  rw [Table.set_ne _ _ _ _ _ _ (by omega), Table.set_ne _ _ _ _ _ _ (by omega),
    Table.set_ne _ _ _ _ _ _ (by omega), Table.set_ne _ _ _ _ _ _ (by omega),
    Table.set_ne _ _ _ _ _ _ (by omega)]
  exact h

/-- One step of the inner loop, given the meaning of `sd` and `DB`. -/
theorem levCell_eq (s1 s2 : List Rune) (sd : GoMap Rune Nat) (i j : Nat) (H : Table) (DB : Nat)
    (hi : 1 ≤ i) (hj : 1 ≤ j)
    (hsd : ∀ c, (sd.get? c).getD 0 = lastRow s1 c (i - 1))
    (hDB : DB = lastRow s2 (s1.getD (i - 1) 0) (j - 1)) :
    levCell s1 s2 sd i (H, DB) j =
      (H.set (i + 1) (j + 1) (min (levBase s1 s2 H i j) (levTrans s1 s2 H i j)),
        lastRow s2 (s1.getD (i - 1) 0) j) := by
  have h1 := lastRow_le s1 (s2.getD (j - 1) 0) (i - 1)
  obtain ⟨j', rfl⟩ : ∃ j', j = j' + 1 := ⟨j - 1, by omega⟩
  rw [Nat.add_sub_cancel] at hDB h1
  subst hDB
  unfold levCell levBase levTrans
  simp only [hsd, Nat.add_sub_cancel]
  by_cases hm : s1.getD (i - 1) 0 = s2.getD j' 0
  · have hl : lastRow s2 (s1.getD (i - 1) 0) (j' + 1) = j' + 1 := by
      simp only [lastRow, if_pos hm.symm]
    rw [hl]
    simp only [if_pos hm, Table.set_self]
    rw [Table.set_ne _ _ _ _ _ _ (by omega)]
    congr 1
    funext a b
    simp only [Table.set_apply]
    split <;> rfl
  · have hl : lastRow s2 (s1.getD (i - 1) 0) (j' + 1) = lastRow s2 (s1.getD (i - 1) 0) j' := by
      simp only [lastRow, if_neg (Ne.symm hm)]
    rw [hl]
    simp only [if_neg hm, Table.set_self]
    rw [Table.set_ne _ _ _ _ _ _ (by omega)]
    congr 1
    funext a b
    simp only [Table.set_apply]
    split <;> rfl

/-- The inner loop after `k` columns of row `i`. -/
theorem levCols_spec (s1 s2 : List Rune) (sd : GoMap Rune Nat) (i : Nat) (H0 : Table)
    (hi : 1 ≤ i) (hsd : ∀ c, (sd.get? c).getD 0 = lastRow s1 c (i - 1)) (k : Nat) :
    ∃ H, (List.range' 1 k).foldl (levCell s1 s2 sd i) (H0, 0)
        = (H, lastRow s2 (s1.getD (i - 1) 0) k) ∧
      (∀ a b, ¬ (a = i + 1 ∧ 2 ≤ b ∧ b ≤ k + 1) → H a b = H0 a b) ∧
      (∀ j, 1 ≤ j → j ≤ k → CellEq s1 s2 H i j) := by
  induction k with
  | zero =>
    refine ⟨H0, by simp [lastRow], fun _ _ _ => rfl, fun j h1 h2 => by omega⟩
  | succ k ih =>
    obtain ⟨H, hH, hframe, hcell⟩ := ih
    rw [List.range'_concat, List.foldl_append, hH]
    simp only [List.foldl_cons, List.foldl_nil, Nat.one_mul]
    rw [levCell_eq s1 s2 sd i (1 + k) H _ hi (by omega) hsd (by rw [Nat.add_sub_cancel_left])]
    have e : 1 + k = k + 1 := by omega
    rw [e]
    refine ⟨_, rfl, ?_, ?_⟩
    · intro a b hab
      rw [Table.set_ne _ _ _ _ _ _ (by omega)]
      exact hframe a b (by omega)
    · intro j h1 h2
      by_cases hj : j = k + 1
      · subst hj
        have h1 := lastRow_le s1 (s2.getD (k + 1 - 1) 0) (i - 1)
        unfold CellEq
        rw [Table.set_self]
        unfold levBase levTrans
        rw [Table.set_ne _ _ _ _ _ _ (by omega), Table.set_ne _ _ _ _ _ _ (by omega),
          Table.set_ne _ _ _ _ _ _ (by omega), Table.set_ne _ _ _ _ _ _ (by omega)]
      · exact cellEq_set hi (hcell j h1 (by omega)) _ _ _ (Or.inr ⟨rfl, by omega⟩)

/-- One row of the outer loop. -/
theorem levRow_spec (s1 s2 : List Rune) (sd : GoMap Rune Nat) (i : Nat) (H0 : Table)
    (hi : 1 ≤ i) (hsd : ∀ c, (sd.get? c).getD 0 = lastRow s1 c (i - 1)) :
    ∃ H sd1, levRow s1 s2 (H0, sd) i = (H, sd1) ∧
      (∀ c, (sd1.get? c).getD 0 = lastRow s1 c i) ∧
      (∀ a b, ¬ (a = i + 1 ∧ 2 ≤ b ∧ b ≤ s2.length + 1) → H a b = H0 a b) ∧
      (∀ j, 1 ≤ j → j ≤ s2.length → CellEq s1 s2 H i j) := by
  obtain ⟨H, hH, hframe, hcell⟩ := levCols_spec s1 s2 sd i H0 hi hsd s2.length
  refine ⟨H, sd.set (s1.getD (i - 1) 0) i, ?_, ?_, hframe, hcell⟩
  · unfold levRow
    simp only [hH]
  · intro c
    obtain ⟨i', rfl⟩ : ∃ i', i = i' + 1 := ⟨i - 1, by omega⟩
    rw [GoMap.get?_set]
    simp only [Nat.add_sub_cancel] at hsd ⊢
    unfold lastRow
    by_cases hc : c = s1.getD i' 0
    · rw [if_pos hc, if_pos hc.symm]; rfl
    · rw [if_neg hc, if_neg (Ne.symm hc)]; exact hsd c

/-- The outer loop after `r` rows. -/
theorem levRows_spec (s1 s2 : List Rune) (H0 : Table) (sd0 : GoMap Rune Nat)
    (hsd0 : ∀ c, (sd0.get? c).getD 0 = 0) (r : Nat) :
    ∃ H sd, (List.range' 1 r).foldl (levRow s1 s2) (H0, sd0) = (H, sd) ∧
      (∀ c, (sd.get? c).getD 0 = lastRow s1 c r) ∧
      (∀ a b, ¬ (2 ≤ a ∧ a ≤ r + 1 ∧ 2 ≤ b ∧ b ≤ s2.length + 1) → H a b = H0 a b) ∧
      (∀ i j, 1 ≤ i → i ≤ r → 1 ≤ j → j ≤ s2.length → CellEq s1 s2 H i j) := by
  induction r with
  | zero =>
    exact ⟨H0, sd0, by simp, by simpa [lastRow] using hsd0, fun _ _ _ => rfl,
      fun i j h1 h2 => by omega⟩
  | succ r ih =>
    obtain ⟨H, sd, hH, hsd, hframe, hcell⟩ := ih
    rw [List.range'_concat, List.foldl_append, hH]
    simp only [List.foldl_cons, List.foldl_nil, Nat.one_mul]
    have e : 1 + r = r + 1 := by omega
    rw [e]
    obtain ⟨H', sd', hH', hsd', hframe', hcell'⟩ :=
      levRow_spec s1 s2 sd (r + 1) H (by omega) (by simpa using hsd)
    refine ⟨H', sd', hH', hsd', ?_, ?_⟩
    · intro a b hab
      rw [hframe' a b (by omega)]
      exact hframe a b (by omega)
    · intro i j h1 h2 h3 h4
      by_cases hir : i = r + 1
      · subst hir
        exact hcell' j h3 h4
      · have hc := hcell i j h1 (by omega) h3 h4
        have h5 := lastRow_le s1 (s2.getD (j - 1) 0) (i - 1)
        unfold CellEq levBase levTrans at hc ⊢
        rw [hframe' _ _ (by omega), hframe' _ _ (by omega), hframe' _ _ (by omega),
          hframe' _ _ (by omega), hframe' _ _ (by omega)]
        exact hc

theorem levInitSd_aux (l : List Rune) (sd : GoMap Rune Nat)
    (h : ∀ c, (sd.get? c).getD 0 = 0) :
    ∀ c, ((l.foldl (fun sd c => if (sd.get? c).isNone then sd.set c 0 else sd) sd).get? c).getD 0
      = 0 := by
  induction l generalizing sd with
  | nil => simpa using h
  | cons x l ih =>
    rw [List.foldl_cons]
    apply ih
    intro c
    split
    · rw [GoMap.get?_set]
      split
      · rfl
      · exact h c
    · exact h c

theorem levInitSd_zero (s1 s2 : List Rune) (c : Rune) :
    ((levInitSd s1 s2).get? c).getD 0 = 0 :=
  levInitSd_aux _ [] (fun _ => rfl) c

theorem levInit_rows (INF : Int) (H : Table) (k : Nat) (a b : Nat) :
    (List.range k).foldl (fun H i => (H.set (i + 1) 1 (i : Int)).set (i + 1) 0 INF) H a b =
      if 1 ≤ a ∧ a ≤ k ∧ b = 0 then INF
      else if 1 ≤ a ∧ a ≤ k ∧ b = 1 then ((a - 1 : Nat) : Int) else H a b := by
  induction k with
  | zero =>
    simp only [List.range_zero, List.foldl_nil]
    rw [if_neg (by omega), if_neg (by omega)]
  | succ k ih =>
    rw [List.range_succ, List.foldl_append]
    simp only [List.foldl_cons, List.foldl_nil, Table.set_apply, ih]
    by_cases h1 : a = k + 1 ∧ b = 0
    · simp [h1]
    · by_cases h2 : a = k + 1 ∧ b = 1
      · simp [h2]
      · simp only [h1, h2, ↓reduceIte]
        by_cases h3 : 1 ≤ a ∧ a ≤ k ∧ b = 0
        · have : 1 ≤ a ∧ a ≤ k + 1 ∧ b = 0 := by omega
          simp [h3, this]
        · have h3' : ¬ (1 ≤ a ∧ a ≤ k + 1 ∧ b = 0) := by omega
          simp only [h3, h3', ↓reduceIte]
          by_cases h4 : 1 ≤ a ∧ a ≤ k ∧ b = 1
          · have : 1 ≤ a ∧ a ≤ k + 1 ∧ b = 1 := by omega
            simp [h4, this]
          · have h4' : ¬ (1 ≤ a ∧ a ≤ k + 1 ∧ b = 1) := by omega
            simp [h4, h4']

theorem levInit_cols (INF : Int) (H : Table) (k : Nat) (a b : Nat) :
    (List.range k).foldl (fun H j => (H.set 1 (j + 1) (j : Int)).set 0 (j + 1) INF) H a b =
      if 1 ≤ b ∧ b ≤ k ∧ a = 0 then INF
      else if 1 ≤ b ∧ b ≤ k ∧ a = 1 then ((b - 1 : Nat) : Int) else H a b := by
  induction k with
  | zero =>
    simp only [List.range_zero, List.foldl_nil]
    rw [if_neg (by omega), if_neg (by omega)]
  | succ k ih =>
    rw [List.range_succ, List.foldl_append]
    simp only [List.foldl_cons, List.foldl_nil, Table.set_apply, ih]
    by_cases h1 : a = 0 ∧ b = k + 1
    · simp [h1]
    · by_cases h2 : a = 1 ∧ b = k + 1
      · simp [h2]
      · simp only [h1, h2, ↓reduceIte]
        by_cases h3 : 1 ≤ b ∧ b ≤ k ∧ a = 0
        · have : 1 ≤ b ∧ b ≤ k + 1 ∧ a = 0 := by omega
          simp [h3, this]
        · have h3' : ¬ (1 ≤ b ∧ b ≤ k + 1 ∧ a = 0) := by omega
          simp only [h3, h3', ↓reduceIte]
          by_cases h4 : 1 ≤ b ∧ b ≤ k ∧ a = 1
          · have : 1 ≤ b ∧ b ≤ k + 1 ∧ a = 1 := by omega
            simp [h4, this]
          · have h4' : ¬ (1 ≤ b ∧ b ≤ k + 1 ∧ a = 1) := by omega
            simp [h4, h4']

theorem levInitTable_apply (m n a b : Nat) :
    levInitTable m n a b =
      if 1 ≤ b ∧ b ≤ n + 1 ∧ a = 0 then (m : Int) + (n : Int)
      else if 1 ≤ b ∧ b ≤ n + 1 ∧ a = 1 then ((b - 1 : Nat) : Int)
      else if 1 ≤ a ∧ a ≤ m + 1 ∧ b = 0 then (m : Int) + (n : Int)
      else if 1 ≤ a ∧ a ≤ m + 1 ∧ b = 1 then ((a - 1 : Nat) : Int)
      else if a = 0 ∧ b = 0 then (m : Int) + (n : Int) else 0 := by
  unfold levInitTable
  simp only [levInit_cols, levInit_rows, Table.set_apply]

/-- The table that `LevDistance` fills satisfies the recurrence. -/
theorem levTable_spec (s1 s2 : List Rune) : LevSpec s1 s2 (levTable s1 s2) := by
  obtain ⟨H, sd, hH, -, hframe, hcell⟩ :=
    levRows_spec s1 s2 (levInitTable s1.length s2.length) (levInitSd s1 s2)
      (levInitSd_zero s1 s2) s1.length
  have hT : levTable s1 s2 = H := by unfold levTable; rw [hH]
  rw [hT]
  refine ⟨?_, ?_, ?_, ?_, fun i j h1 h2 h3 h4 => hcell i j h1 h2 h3 h4⟩
  · intro j
    by_cases hj : s2.length + 1 < j
    · exact Or.inr hj
    · left
      rw [hframe _ _ (by omega), levInitTable_apply]
      by_cases h0 : j = 0
      · subst h0; simp
      · have : 1 ≤ j ∧ j ≤ s2.length + 1 := by omega
        simp [this]
  · intro i
    by_cases hi : s1.length + 1 < i
    · exact Or.inr hi
    · left
      rw [hframe _ _ (by omega), levInitTable_apply]
      by_cases h0 : i = 0
      · subst h0; simp
      · have : 1 ≤ i ∧ i ≤ s1.length + 1 := by omega
        simp [this]
  · intro j hj
    rw [hframe _ _ (by omega), levInitTable_apply]
    simp [hj]
  · intro i hi
    rw [hframe _ _ (by omega), levInitTable_apply, if_neg (by omega)]
    by_cases hi0 : i = 0
    · subst hi0; simp
    · rw [if_neg (by omega), if_neg (by omega), if_pos (by omega)]
      simp

end Symspell

namespace Symspell

/-! ## Consequences of the recurrence -/

theorem take_succ_getD (l : List Rune) (i : Nat) (h : i < l.length) :
    l.take (i + 1) = l.take i ++ [l.getD i 0] := by
  rw [List.take_succ, List.getD_eq_getElem?_getD, List.getElem?_eq_getElem h]
  rfl

theorem sublist_concat_concat {α : Type} {l1 l2 : List α} {a b : α}
    (h : (l2 ++ [b]).Sublist (l1 ++ [a])) :
    (l2 ++ [b]).Sublist l1 ∨ (a = b ∧ l2.Sublist l1) := by
  have h' := List.reverse_sublist.2 h
  simp only [List.reverse_append, List.reverse_cons, List.reverse_nil, List.nil_append,
    List.singleton_append] at h'
  rcases List.sublist_cons_iff.1 h' with h1 | ⟨r, hr, h2⟩
  · left
    have := List.reverse_sublist.2 h1
    simpa using this
  · right
    simp only [List.cons.injEq] at hr
    obtain ⟨rfl, rfl⟩ := hr
    exact ⟨rfl, List.reverse_sublist.1 h2⟩

theorem sublist_concat_of {α : Type} {l1 l2 : List α} (a : α) (h : l2.Sublist l1) :
    (l2 ++ [a]).Sublist (l1 ++ [a]) :=
  List.Sublist.append h (List.Sublist.refl _)

/-- The border value met by the transposition term is at least the table's `INF`, and
inner values are the cells of earlier rows and columns. -/
theorem LevSpec.border {s1 s2 : List Rune} {H : Table} (hs : LevSpec s1 s2 H) (a b : Nat)
    (ha : a ≤ s1.length) (hb : b ≤ s2.length) (h0 : a = 0 ∨ b = 0) :
    H a b = (s1.length : Int) + (s2.length : Int) := by
  rcases h0 with h | h
  · subst h
    rcases hs.top b with h | h
    · exact h
    · omega
  · subst h
    rcases hs.left a with h | h
    · exact h
    · omega

/-- Every cell is at least the difference of the lengths of the two prefixes. -/
theorem LevSpec.lower {s1 s2 : List Rune} {H : Table} (hs : LevSpec s1 s2 H) :
    ∀ N i j, i + j = N → i ≤ s1.length → j ≤ s2.length →
      (i : Int) - (j : Int) ≤ H (i + 1) (j + 1) ∧ (j : Int) - (i : Int) ≤ H (i + 1) (j + 1) := by
  intro N
  induction N using Nat.strong_induction_on with
  | _ N ih =>
    intro i j hN hi hj
    rcases Nat.eq_zero_or_pos i with h0 | hipos
    · subst h0
      rw [hs.row1 j hj]
      omega
    rcases Nat.eq_zero_or_pos j with h0 | hjpos
    · subst h0
      rw [hs.col1 i hi]
      omega
    have hc := hs.cell i j hipos hi hjpos hj
    unfold CellEq levBase levTrans at hc
    have hi1 := lastRow_le s1 (s2.getD (j - 1) 0) (i - 1)
    have hj1 := lastRow_le s2 (s1.getD (i - 1) 0) (j - 1)
    generalize lastRow s1 (s2.getD (j - 1) 0) (i - 1) = i1 at hc hi1
    generalize lastRow s2 (s1.getD (i - 1) 0) (j - 1) = j1 at hc hj1
    have e1 : i - 1 + 1 = i := by omega
    have e2 : j - 1 + 1 = j := by omega
    have ha := ih (i - 1 + (j - 1)) (by omega) (i - 1) (j - 1) rfl (by omega) (by omega)
    have hb := ih (i + (j - 1)) (by omega) i (j - 1) rfl (by omega) (by omega)
    have hd := ih (i - 1 + j) (by omega) (i - 1) j rfl (by omega) (by omega)
    rw [e1, e2] at ha
    rw [e2] at hb
    rw [e1] at hd
    have ht : (i1 : Int) - (j1 : Int) ≤ H i1 j1 ∧ (j1 : Int) - (i1 : Int) ≤ H i1 j1 := by
      by_cases h0 : i1 = 0 ∨ j1 = 0
      · rw [hs.border i1 j1 (by omega) (by omega) h0]
        omega
      · have := ih (i1 - 1 + (j1 - 1)) (by omega) (i1 - 1) (j1 - 1) rfl (by omega) (by omega)
        have e3 : i1 - 1 + 1 = i1 := by omega
        have e4 : j1 - 1 + 1 = j1 := by omega
        rw [e3, e4] at this
        omega
    split at hc <;> omega

theorem LevSpec.nonneg {s1 s2 : List Rune} {H : Table} (hs : LevSpec s1 s2 H) (i j : Nat)
    (hi : i ≤ s1.length) (hj : j ≤ s2.length) : 0 ≤ H (i + 1) (j + 1) := by
  have := hs.lower (i + j) i j rfl hi hj
  omega

/-- The value read by the transposition term is never negative. -/
theorem LevSpec.nonneg_any {s1 s2 : List Rune} {H : Table} (hs : LevSpec s1 s2 H) (a b : Nat)
    (ha : a ≤ s1.length) (hb : b ≤ s2.length) : 0 ≤ H a b := by
  by_cases h0 : a = 0 ∨ b = 0
  · rw [hs.border a b ha hb h0]
    omega
  · have := hs.nonneg (a - 1) (b - 1) (by omega) (by omega)
    have e3 : a - 1 + 1 = a := by omega
    have e4 : b - 1 + 1 = b := by omega
    rw [e3, e4] at this
    exact this

/-- The diagonal of the table of two equal strings is zero. -/
theorem LevSpec.diag {s : List Rune} {H : Table} (hs : LevSpec s s H) :
    ∀ i, i ≤ s.length → H (i + 1) (i + 1) = 0 := by
  intro i
  induction i with
  | zero => intro _; simpa using hs.row1 0 (Nat.zero_le _)
  | succ i ih =>
    intro hi
    have hc := hs.cell (i + 1) (i + 1) (by omega) hi (by omega) hi
    unfold CellEq levBase levTrans at hc
    have hi1 := lastRow_le s (s.getD (i + 1 - 1) 0) (i + 1 - 1)
    have ht := hs.nonneg_any (lastRow s (s.getD (i + 1 - 1) 0) (i + 1 - 1))
      (lastRow s (s.getD (i + 1 - 1) 0) (i + 1 - 1)) (by omega) (by omega)
    generalize lastRow s (s.getD (i + 1 - 1) 0) (i + 1 - 1) = i1 at hc hi1 ht
    rw [if_pos rfl, ih (by omega)] at hc
    rw [hc]
    have : (0 : Int) ≤ H i1 i1 + (((i + 1 : Nat) : Int) - (i1 : Int) - 1) + 1
        + (((i + 1 : Nat) : Int) - (i1 : Int) - 1) := by omega
    omega

/-- Deleting characters costs at most one per character: if a prefix of the second string
is a subsequence of a prefix of the first, the cell is at most the length difference. -/
theorem LevSpec.upper_of_sublist {s1 s2 : List Rune} {H : Table} (hs : LevSpec s1 s2 H) :
    ∀ i j, i ≤ s1.length → j ≤ s2.length → (s2.take j).Sublist (s1.take i) →
      H (i + 1) (j + 1) ≤ (i : Int) - (j : Int) := by
  intro i
  induction i with
  | zero =>
    intro j _ hj hsub
    have hl := hsub.length_le
    simp only [List.take_zero, List.length_nil, List.length_take] at hl
    have : j = 0 := by omega
    subst this
    rw [hs.row1 0 (Nat.zero_le _)]
    simp
  | succ i ih =>
    intro j hi hj hsub
    rcases Nat.eq_zero_or_pos j with h0 | hjpos
    · subst h0
      rw [hs.col1 (i + 1) hi]
      simp
    obtain ⟨j', rfl⟩ : ∃ j', j = j' + 1 := ⟨j - 1, by omega⟩
    have hc := hs.cell (i + 1) (j' + 1) (by omega) hi (by omega) hj
    unfold CellEq levBase at hc
    simp only [Nat.add_sub_cancel] at hc
    rw [take_succ_getD s1 i (by omega), take_succ_getD s2 j' (by omega)] at hsub
    by_cases hm : s1.getD i 0 = s2.getD j' 0
    · rw [if_pos hm] at hc
      have hsub' : (s2.take j').Sublist (s1.take i) := by
        rcases sublist_concat_concat hsub with h | ⟨_, h⟩
        · exact (List.sublist_append_left _ _).trans h
        · exact h
      have := ih j' (by omega) (by omega) hsub'
      push_cast
      omega
    · rw [if_neg hm] at hc
      rcases sublist_concat_concat hsub with h | ⟨h, _⟩
      · rw [← take_succ_getD s2 j' (by omega)] at h
        have := ih (j' + 1) (by omega) hj h
        push_cast at this ⊢
        omega
      · exact absurd h hm

/-- A cell of value `v` comes with a common subsequence of the two prefixes that misses at
most `v` characters of each. -/
theorem LevSpec.common {s1 s2 : List Rune} {H : Table} (hs : LevSpec s1 s2 H) :
    ∀ N i j, i + j = N → i ≤ s1.length → j ≤ s2.length →
      ∃ c : List Rune, c.Sublist (s1.take i) ∧ c.Sublist (s2.take j) ∧
        (i : Int) - (c.length : Int) ≤ H (i + 1) (j + 1) ∧
        (j : Int) - (c.length : Int) ≤ H (i + 1) (j + 1) := by
  intro N
  induction N using Nat.strong_induction_on with
  | _ N ih =>
    intro i j hN hi hj
    rcases Nat.eq_zero_or_pos i with h0 | hipos
    · subst h0
      refine ⟨[], List.nil_sublist _, List.nil_sublist _, ?_, ?_⟩ <;> rw [hs.row1 j hj] <;> simp
    rcases Nat.eq_zero_or_pos j with h0 | hjpos
    · subst h0
      refine ⟨[], List.nil_sublist _, List.nil_sublist _, ?_, ?_⟩ <;> rw [hs.col1 i hi] <;> simp
    obtain ⟨i', rfl⟩ : ∃ i', i = i' + 1 := ⟨i - 1, by omega⟩
    obtain ⟨j', rfl⟩ : ∃ j', j = j' + 1 := ⟨j - 1, by omega⟩
    have hc := hs.cell (i' + 1) (j' + 1) hipos hi hjpos hj
    unfold CellEq levBase levTrans at hc
    simp only [Nat.add_sub_cancel] at hc
    have hi1 := lastRow_le s1 (s2.getD j' 0) i'
    have hj1 := lastRow_le s2 (s1.getD i' 0) j'
    have hg1 := lastRow_get s1 (s2.getD j' 0) i'
    have hg2 := lastRow_get s2 (s1.getD i' 0) j'
    generalize lastRow s1 (s2.getD j' 0) i' = i1 at hc hi1 hg1
    generalize lastRow s2 (s1.getD i' 0) j' = j1 at hc hj1 hg2
    obtain ⟨ca, ha1, ha2, ha3, ha4⟩ := ih (i' + j') (by omega) i' j' rfl (by omega) (by omega)
    obtain ⟨cb, hb1, hb2, hb3, hb4⟩ :=
      ih (i' + 1 + j') (by omega) (i' + 1) j' rfl (by omega) (by omega)
    obtain ⟨cd, hd1, hd2, hd3, hd4⟩ :=
      ih (i' + (j' + 1)) (by omega) i' (j' + 1) rfl (by omega) (by omega)
    have s1le : (s1.take i').Sublist (s1.take (i' + 1)) :=
      List.take_sublist_take_left s1 (by omega)
    have s2le : (s2.take j').Sublist (s2.take (j' + 1)) :=
      List.take_sublist_take_left s2 (by omega)
    -- the transposition term
    have htrans : ∃ c : List Rune, c.Sublist (s1.take (i' + 1)) ∧ c.Sublist (s2.take (j' + 1)) ∧
        ((i' + 1 : Nat) : Int) - (c.length : Int) ≤
          H i1 j1 + (((i' + 1 : Nat) : Int) - (i1 : Int) - 1) + 1
            + (((j' + 1 : Nat) : Int) - (j1 : Int) - 1) ∧
        ((j' + 1 : Nat) : Int) - (c.length : Int) ≤
          H i1 j1 + (((i' + 1 : Nat) : Int) - (i1 : Int) - 1) + 1
            + (((j' + 1 : Nat) : Int) - (j1 : Int) - 1) := by
      by_cases h0 : i1 = 0 ∨ j1 = 0
      · refine ⟨[], List.nil_sublist _, List.nil_sublist _, ?_, ?_⟩ <;>
          rw [hs.border i1 j1 (by omega) (by omega) h0] <;>
          simp only [List.length_nil] <;> push_cast <;> omega
      · obtain ⟨i2, rfl⟩ : ∃ i2, i1 = i2 + 1 := ⟨i1 - 1, by omega⟩
        obtain ⟨j2, rfl⟩ : ∃ j2, j1 = j2 + 1 := ⟨j1 - 1, by omega⟩
        simp only [Nat.add_sub_cancel, Nat.succ_pos, true_implies] at hg1 hg2
        obtain ⟨c, hc1, hc2, hc3, hc4⟩ := ih (i2 + j2) (by omega) i2 j2 rfl (by omega) (by omega)
        refine ⟨c ++ [s2.getD j' 0], ?_, ?_, ?_, ?_⟩
        · have : (c ++ [s2.getD j' 0]).Sublist (s1.take (i2 + 1)) := by
            rw [take_succ_getD s1 i2 (by omega), hg1]
            exact sublist_concat_of _ hc1
          exact this.trans (List.take_sublist_take_left s1 (by omega))
        · rw [take_succ_getD s2 j' (by omega)]
          exact sublist_concat_of _
            (hc2.trans (List.take_sublist_take_left s2 (by omega)))
        · simp only [List.length_append, List.length_singleton]
          push_cast at hc3 hc4 ⊢
          omega
        · simp only [List.length_append, List.length_singleton]
          push_cast at hc3 hc4 ⊢
          omega
    obtain ⟨ct, ht1, ht2, ht3, ht4⟩ := htrans
    by_cases hm : s1.getD i' 0 = s2.getD j' 0
    · rw [if_pos hm] at hc
      rcases le_total (H (i' + 1) (j' + 1)) (H i1 j1 + (((i' + 1 : Nat) : Int) - (i1 : Int) - 1)
          + 1 + (((j' + 1 : Nat) : Int) - (j1 : Int) - 1)) with hle | hle
      · refine ⟨ca ++ [s2.getD j' 0], ?_, ?_, ?_, ?_⟩
        · rw [take_succ_getD s1 i' (by omega), hm]
          exact sublist_concat_of _ ha1
        · rw [take_succ_getD s2 j' (by omega)]
          exact sublist_concat_of _ ha2
        · simp only [List.length_append, List.length_singleton]
          push_cast at ha3 ha4 ⊢
          omega
        · simp only [List.length_append, List.length_singleton]
          push_cast at ha3 ha4 ⊢
          omega
      · exact ⟨ct, ht1, ht2, by omega, by omega⟩
    · rw [if_neg hm] at hc
      have hl1 := ha1.length_le
      have hl2 := hb1.length_le
      have hl3 := hd1.length_le
      rcases le_total (min (H (i' + 1) (j' + 1)) (min (H (i' + 1 + 1) (j' + 1))
          (H (i' + 1) (j' + 1 + 1))) + 1) (H i1 j1 + (((i' + 1 : Nat) : Int) - (i1 : Int) - 1)
          + 1 + (((j' + 1 : Nat) : Int) - (j1 : Int) - 1)) with hle | hle
      · by_cases h1 : H (i' + 1) (j' + 1) ≤ min (H (i' + 1 + 1) (j' + 1))
            (H (i' + 1) (j' + 1 + 1))
        · refine ⟨ca, ha1.trans s1le, ha2.trans s2le, ?_, ?_⟩ <;> push_cast <;> omega
        · by_cases h2 : H (i' + 1 + 1) (j' + 1) ≤ H (i' + 1) (j' + 1 + 1)
          · refine ⟨cb, hb1, hb2.trans s2le, ?_, ?_⟩ <;> push_cast at hb3 hb4 ⊢ <;> omega
          · refine ⟨cd, hd1.trans s1le, hd2, ?_, ?_⟩ <;> push_cast at hd3 hd4 ⊢ <;> omega
      · exact ⟨ct, ht1, ht2, by omega, by omega⟩

/-- The table of `(s2, s1)` is the transpose of the table of `(s1, s2)`. -/
theorem LevSpec.symm {s1 s2 : List Rune} {H H' : Table} (hs : LevSpec s1 s2 H)
    (hs' : LevSpec s2 s1 H') :
    ∀ N i j, i + j = N → i ≤ s1.length → j ≤ s2.length →
      H (i + 1) (j + 1) = H' (j + 1) (i + 1) := by
  intro N
  induction N using Nat.strong_induction_on with
  | _ N ih =>
    intro i j hN hi hj
    rcases Nat.eq_zero_or_pos i with h0 | hipos
    · subst h0
      rw [hs.row1 j hj, hs'.col1 j hj]
    rcases Nat.eq_zero_or_pos j with h0 | hjpos
    · subst h0
      rw [hs.col1 i hi, hs'.row1 i hi]
    obtain ⟨i', rfl⟩ : ∃ i', i = i' + 1 := ⟨i - 1, by omega⟩
    obtain ⟨j', rfl⟩ : ∃ j', j = j' + 1 := ⟨j - 1, by omega⟩
    have hc := hs.cell (i' + 1) (j' + 1) hipos hi hjpos hj
    have hc' := hs'.cell (j' + 1) (i' + 1) hjpos hj hipos hi
    unfold CellEq levBase levTrans at hc hc'
    simp only [Nat.add_sub_cancel] at hc hc'
    have hi1 := lastRow_le s1 (s2.getD j' 0) i'
    have hj1 := lastRow_le s2 (s1.getD i' 0) j'
    generalize lastRow s1 (s2.getD j' 0) i' = i1 at hc hc' hi1
    generalize lastRow s2 (s1.getD i' 0) j' = j1 at hc hc' hj1
    have ea := ih (i' + j') (by omega) i' j' rfl (by omega) (by omega)
    have eb := ih (i' + 1 + j') (by omega) (i' + 1) j' rfl (by omega) (by omega)
    have ed := ih (i' + (j' + 1)) (by omega) i' (j' + 1) rfl (by omega) (by omega)
    have et : H i1 j1 = H' j1 i1 := by
      by_cases h0 : i1 = 0 ∨ j1 = 0
      · rw [hs.border i1 j1 (by omega) (by omega) h0,
          hs'.border j1 i1 (by omega) (by omega) (Or.symm h0)]
        omega
      · obtain ⟨i2, rfl⟩ : ∃ i2, i1 = i2 + 1 := ⟨i1 - 1, by omega⟩
        obtain ⟨j2, rfl⟩ : ∃ j2, j1 = j2 + 1 := ⟨j1 - 1, by omega⟩
        exact ih (i2 + j2) (by omega) i2 j2 rfl (by omega) (by omega)
    rw [hc, hc', ea, eb, ed, et]
    by_cases hm : s1.getD i' 0 = s2.getD j' 0
    · rw [if_pos hm, if_pos hm.symm]
      omega
    · rw [if_neg hm, if_neg (Ne.symm hm)]
      omega

end Symspell

namespace Symspell

/-! ## The distance on rune sequences -/

theorem LevDistance_eq (a b : GoString) : LevDistance a b = levRunes (runes a) (runes b) := rfl

theorem levRunes_cast (s1 s2 : List Rune) :
    ((levRunes s1 s2 : Nat) : Int) = levTable s1 s2 (s1.length + 1) (s2.length + 1) := by
  unfold levRunes
  exact Int.toNat_of_nonneg ((levTable_spec s1 s2).nonneg _ _ le_rfl le_rfl)

theorem levRunes_self (s : List Rune) : levRunes s s = 0 := by
  have h := (levTable_spec s s).diag s.length le_rfl
  unfold levRunes
  rw [h]
  rfl

theorem levRunes_comm (s1 s2 : List Rune) : levRunes s1 s2 = levRunes s2 s1 := by
  have h := (levTable_spec s1 s2).symm (levTable_spec s2 s1) _ s1.length s2.length rfl
    le_rfl le_rfl
  unfold levRunes
  rw [h]

theorem levRunes_lower (s1 s2 : List Rune) :
    s1.length - s2.length ≤ levRunes s1 s2 ∧ s2.length - s1.length ≤ levRunes s1 s2 := by
  have h := (levTable_spec s1 s2).lower _ s1.length s2.length rfl le_rfl le_rfl
  have hc := levRunes_cast s1 s2
  omega

theorem levRunes_of_sublist {s1 s2 : List Rune} (h : s2.Sublist s1) :
    levRunes s1 s2 = s1.length - s2.length := by
  have hu := (levTable_spec s1 s2).upper_of_sublist s1.length s2.length le_rfl le_rfl
    (by simpa using h)
  have hl := levRunes_lower s1 s2
  have hc := levRunes_cast s1 s2
  have := h.length_le
  omega

theorem levRunes_of_sublist' {s1 s2 : List Rune} (h : s1.Sublist s2) :
    levRunes s1 s2 = s2.length - s1.length := by
  rw [levRunes_comm]
  exact levRunes_of_sublist h

/-- Two strings at distance `d` share a subsequence missing at most `d` characters of
each. -/
theorem levRunes_common (s1 s2 : List Rune) :
    ∃ c : List Rune, c.Sublist s1 ∧ c.Sublist s2 ∧
      s1.length - c.length ≤ levRunes s1 s2 ∧ s2.length - c.length ≤ levRunes s1 s2 := by
  obtain ⟨c, h1, h2, h3, h4⟩ :=
    (levTable_spec s1 s2).common _ s1.length s2.length rfl le_rfl le_rfl
  have hc := levRunes_cast s1 s2
  rw [List.take_length] at h1 h2
  exact ⟨c, h1, h2, by omega, by omega⟩

/-! ## ASCII strings -/

theorem runesAux_ascii (s : GoString) (h : isASCII s) :
    runesAux 0 s = s.map (fun b => b.val) := by
  induction s with
  | nil => rfl
  | cons b s ih =>
    have hb : b.val < 128 := h b (List.mem_cons_self _ _)
    have hs : isASCII s := fun c hc => h c (List.mem_cons_of_mem _ hc)
    simp only [runesAux, decodeRune, hb, ↓reduceIte, Nat.sub_self, List.map_cons, ih hs,
      show ((↑b : Nat) < 0x80) = ((↑b : Nat) < 128) from rfl]

theorem runes_ascii (s : GoString) (h : isASCII s) : runes s = s.map (fun b => b.val) :=
  runesAux_ascii s h

theorem runes_length_ascii (s : GoString) (h : isASCII s) : (runes s).length = s.length := by
  rw [runes_ascii s h, List.length_map]

theorem isASCII_of_sublist {s t : GoString} (h : s.Sublist t) (ht : isASCII t) : isASCII s :=
  fun b hb => ht b (h.subset hb)

theorem val_injective : Function.Injective (fun b : Fin 256 => b.val) :=
  fun _ _ h => Fin.ext h

/-- On ASCII strings a delete variant is at distance its number of deleted characters. -/
theorem LevDistance_of_sublist {s t : GoString} (ht : isASCII t) (h : s.Sublist t) :
    LevDistance t s = t.length - s.length := by
  have hs := isASCII_of_sublist h ht
  have hsub : (runes s).Sublist (runes t) := by
    rw [runes_ascii s hs, runes_ascii t ht]
    exact h.map _
  rw [LevDistance_eq, levRunes_of_sublist hsub, runes_length_ascii s hs,
    runes_length_ascii t ht]

theorem LevDistance_comm' (a b : GoString) : LevDistance a b = LevDistance b a := by
  rw [LevDistance_eq, LevDistance_eq, levRunes_comm]

theorem LevDistance_self' (a : GoString) : LevDistance a a = 0 := by
  rw [LevDistance_eq, levRunes_self]

/-- Two ASCII strings at distance `d` share a delete variant missing at most `d` characters
of each. -/
theorem LevDistance_common {s t : GoString} (hs : isASCII s) (ht : isASCII t) :
    ∃ c : GoString, c.Sublist s ∧ c.Sublist t ∧
      s.length - c.length ≤ LevDistance s t ∧ t.length - c.length ≤ LevDistance s t := by
  obtain ⟨c, h1, h2, h3, h4⟩ := levRunes_common (runes s) (runes t)
  rw [runes_ascii s hs] at h1
  rw [runes_ascii t ht] at h2
  obtain ⟨c1, hc1, rfl⟩ := List.sublist_map_iff.1 h1
  obtain ⟨c2, hc2, he⟩ := List.sublist_map_iff.1 h2
  have : c1 = c2 := List.map_injective_iff.2 val_injective he
  subst this
  rw [runes_length_ascii s hs, List.length_map] at h3
  rw [runes_length_ascii t ht, List.length_map] at h4
  exact ⟨c1, hc1, hc2, h3, h4⟩

end Symspell

namespace Symspell

/-! ## Delete variants -/

theorem deleteAt_eq_eraseIdx (t : GoString) (i : Nat) : deleteAt t i = t.eraseIdx i :=
  (List.eraseIdx_eq_take_drop_succ t i).symm

theorem deleteAt_sublist (t : GoString) (i : Nat) : (deleteAt t i).Sublist t := by
  rw [deleteAt_eq_eraseIdx]
  exact List.eraseIdx_sublist t i

theorem deleteAt_length (t : GoString) (i : Nat) (h : i < t.length) :
    (deleteAt t i).length = t.length - 1 := by
  rw [deleteAt_eq_eraseIdx]
  exact List.length_eraseIdx_of_lt h

/-- A proper subsequence is a subsequence of some one-character deletion. -/
theorem sublist_deleteAt {α : Type} {v t : List α} (h : v.Sublist t) (hl : v.length < t.length) :
    ∃ i, i < t.length ∧ v.Sublist (t.eraseIdx i) := by
  induction h with
  | slnil => simp at hl
  | cons a h _ => exact ⟨0, by simp, by simpa using h⟩
  | cons₂ a _ ih =>
    simp only [List.length_cons, Nat.add_lt_add_iff_right] at hl
    obtain ⟨i, hi, hs⟩ := ih hl
    exact ⟨i + 1, by simpa using hi, by simpa using hs⟩

theorem sublist_eq_deleteAt {v t : GoString} (h : v.Sublist t) (hl : v.length + 1 = t.length) :
    ∃ i, i < t.length ∧ v = deleteAt t i := by
  obtain ⟨i, hi, hs⟩ := sublist_deleteAt h (by omega)
  refine ⟨i, hi, ?_⟩
  rw [deleteAt_eq_eraseIdx]
  exact hs.eq_of_length (by rw [List.length_eraseIdx_of_lt hi]; omega)

theorem sublist_two_deleteAt {v t : GoString} (h : v.Sublist t)
    (hl : v.length + 2 = t.length) :
    ∃ i j, i < t.length ∧ j < (deleteAt t i).length ∧ v = deleteAt (deleteAt t i) j := by
  obtain ⟨i, hi, hs⟩ := sublist_deleteAt h (by omega)
  rw [← deleteAt_eq_eraseIdx] at hs
  have hlen := deleteAt_length t i hi
  obtain ⟨j, hj, he⟩ := sublist_eq_deleteAt hs (by omega)
  exact ⟨i, j, hi, hj, he⟩

theorem EditsAux_succ (f : Nat) (t : GoString) (d : Nat) (e : GoMap GoString Nat) (r : Bool) :
    EditsAux (f + 1) t d e r =
      if t.length > 1 then (List.range t.length).foldl (editsStep f t (d + 1) r) e else e := rfl

/-- Existing bindings survive. -/
theorem EditsAux_mono (f : Nat) : ∀ (t : GoString) (d : Nat) (e : GoMap GoString Nat) (r : Bool)
    (v : GoString) (n : Nat), e.get? v = some n → (EditsAux f t d e r).get? v = some n := by
  induction f with
  | zero => intro t d e r v n h; exact h
  | succ f ih =>
    intro t d e r v n h
    rw [EditsAux_succ]
    split
    · generalize List.range t.length = L
      induction L generalizing e with
      | nil => exact h
      | cons i L ihL =>
        rw [List.foldl_cons]
        apply ihL
        unfold editsStep
        split
        · rename_i hnone
          have hne : v ≠ deleteAt t i := by
            rintro rfl
            rw [h] at hnone
            simp at hnone
          split
          · apply ih
            rw [GoMap.get?_set_ne _ _ _ hne]
            exact h
          · rw [GoMap.get?_set_ne _ _ _ hne]
            exact h
        · exact h
    · exact h

theorem editsStep_mono (f : Nat) (t : GoString) (d : Nat) (r : Bool) (e : GoMap GoString Nat)
    (i : Nat) (v : GoString) (n : Nat) (h : e.get? v = some n) :
    (editsStep f t d r e i).get? v = some n := by
  unfold editsStep
  split
  · rename_i hnone
    have hne : v ≠ deleteAt t i := by
      rintro rfl
      rw [h] at hnone
      simp at hnone
    split
    · apply EditsAux_mono
      rw [GoMap.get?_set_ne _ _ _ hne]
      exact h
    · rw [GoMap.get?_set_ne _ _ _ hne]
      exact h
  · exact h

theorem editsFold_mono (f : Nat) (t : GoString) (d : Nat) (r : Bool) (L : List Nat)
    (e : GoMap GoString Nat) (v : GoString) (n : Nat) (h : e.get? v = some n) :
    (L.foldl (editsStep f t d r) e).get? v = some n := by
  induction L generalizing e with
  | nil => exact h
  | cons i L ih =>
    rw [List.foldl_cons]
    exact ih _ (editsStep_mono f t d r e i v n h)

/-- The keys stay distinct. -/
theorem EditsAux_nodup (f : Nat) : ∀ (t : GoString) (d : Nat) (e : GoMap GoString Nat) (r : Bool),
    (e.map Prod.fst).Nodup → ((EditsAux f t d e r).map Prod.fst).Nodup := by
  induction f with
  | zero => intro t d e r h; exact h
  | succ f ih =>
    intro t d e r h
    rw [EditsAux_succ]
    split
    · generalize List.range t.length = L
      induction L generalizing e with
      | nil => exact h
      | cons i L ihL =>
        rw [List.foldl_cons]
        apply ihL
        unfold editsStep
        split
        · split
          · exact ih _ _ _ _ (GoMap.nodup_set h _ _)
          · exact GoMap.nodup_set h _ _
        · exact h
    · exact h

theorem EditsAux_sound (f : Nat) : ∀ (t : GoString) (d : Nat) (e : GoMap GoString Nat) (r : Bool)
    (v : GoString) (n : Nat), (EditsAux f t d e r).get? v = some n →
      e.get? v = some n ∨ EditsNew t d r v n := by
  induction f with
  | zero => intro t d e r v n h; exact Or.inl h
  | succ f ih =>
    intro t d e r v n h
    rw [EditsAux_succ] at h
    split at h
    · rename_i hlen
      have key : ∀ (L : List Nat) (e : GoMap GoString Nat), (∀ i ∈ L, i < t.length) →
          (L.foldl (editsStep f t (d + 1) r) e).get? v = some n →
          e.get? v = some n ∨ EditsNew t d r v n := by
        intro L
        induction L with
        | nil => intro e _ h; exact Or.inl h
        | cons i L ihL =>
          intro e hL h
          rw [List.foldl_cons] at h
          have hi : i < t.length := hL i (List.mem_cons_self _ _)
          have hdl := deleteAt_length t i hi
          have hds := deleteAt_sublist t i
          have hnew : EditsNew t d r (deleteAt t i) (d + 1) := by
            refine ⟨hds, ?_, by omega, by omega, Or.inl rfl⟩
            intro h0
            rw [h0] at hdl
            simp at hdl
            omega
          rcases ihL _ (fun j hj => hL j (List.mem_cons_of_mem _ hj)) h with h1 | h1
          · unfold editsStep at h1
            split at h1
            · split at h1
              · rename_i hr
                simp only [Bool.and_eq_true, decide_eq_true_eq] at hr
                rcases ih _ _ _ _ _ _ h1 with h2 | h2
                · rw [GoMap.get?_set] at h2
                  split at h2
                  · rename_i hv
                    simp only [Option.some.injEq] at h2
                    subst hv; subst h2
                    exact Or.inr hnew
                  · exact Or.inl h2
                · right
                  obtain ⟨a1, a2, a3, a4, a5⟩ := h2
                  refine ⟨a1.trans hds, a2, by omega, by omega, ?_⟩
                  right
                  refine ⟨hr.1, ?_⟩
                  rcases a5 with a5 | a5
                  · omega
                  · exact a5.2
              · rw [GoMap.get?_set] at h1
                split at h1
                · rename_i hv
                  simp only [Option.some.injEq] at h1
                  subst hv; subst h1
                  exact Or.inr hnew
                · exact Or.inl h1
            · exact Or.inl h1
          · exact Or.inr h1
      exact key _ e (fun i hi => List.mem_range.1 hi) h
    · exact Or.inl h

/-- Every one-character deletion is bound. -/
theorem EditsAux_level1 (f : Nat) (t : GoString) (d : Nat) (e : GoMap GoString Nat) (r : Bool)
    (hlen : t.length > 1) (i : Nat) (hi : i < t.length) :
    ((EditsAux (f + 1) t d e r).get? (deleteAt t i)).isSome = true := by
  rw [EditsAux_succ, if_pos hlen]
  have key : ∀ (L : List Nat) (e : GoMap GoString Nat), i ∈ L →
      ((L.foldl (editsStep f t (d + 1) r) e).get? (deleteAt t i)).isSome = true := by
    intro L
    induction L with
    | nil => intro e h; simp at h
    | cons j L ihL =>
      intro e h
      rw [List.foldl_cons]
      rcases List.mem_cons.1 h with h | h
      · subst h
        have : ∃ n, (editsStep f t (d + 1) r e i).get? (deleteAt t i) = some n := by
          unfold editsStep
          split
          · split
            · exact ⟨d + 1, EditsAux_mono _ _ _ _ _ _ _ (GoMap.get?_set_self _ _ _)⟩
            · exact ⟨d + 1, GoMap.get?_set_self _ _ _⟩
          · rename_i hsome
            cases hg : e.get? (deleteAt t i) with
            | none => rw [hg] at hsome; simp at hsome
            | some n => exact ⟨n, rfl⟩
        obtain ⟨n, hn⟩ := this
        rw [editsFold_mono f t (d + 1) r L _ _ n hn]
        rfl
      · exact ihL _ h
  exact key _ e (List.mem_range.2 hi)

end Symspell

namespace Symspell

/-! ## The two uses of `Edits` -/

theorem Edits_nodup (t : GoString) (d : Nat) (r : Bool) :
    ((Edits t d none r).map Prod.fst).Nodup :=
  EditsAux_nodup _ _ _ _ _ (by simp)

/-- Single-level expansion: exactly the one-character deletions of a string of length at
least two, labelled `d + 1`. -/
theorem Edits_single_iff (c : GoString) (d : Nat) (v : GoString) (n : Nat) :
    (Edits c d none false).get? v = some n ↔
      c.length > 1 ∧ n = d + 1 ∧ v.Sublist c ∧ v.length + 1 = c.length := by
  constructor
  · intro h
    rcases EditsAux_sound _ _ _ _ _ _ _ h with h | ⟨h1, h2, h3, h4, h5⟩
    · simp [GoMap.get?] at h
    · have hv : 0 < v.length := List.length_pos.2 h2
      rcases h5 with h5 | h5
      · exact ⟨by omega, h5, h1, by omega⟩
      · simp at h5
  · rintro ⟨hlen, rfl, hs, hl⟩
    obtain ⟨i, hi, rfl⟩ := sublist_eq_deleteAt hs hl
    obtain ⟨f, hf⟩ : ∃ f, c.length = f + 1 := ⟨c.length - 1, by omega⟩
    have hb := EditsAux_level1 f c d [] false hlen i hi
    obtain ⟨n, hn⟩ := Option.isSome_iff_exists.1 hb
    have hE : Edits c d none false = EditsAux (f + 1) c d [] false := by
      unfold Edits; rw [hf]; rfl
    rw [hE, hn]
    rcases EditsAux_sound _ _ _ _ _ _ _ hn with h | ⟨h1, h2, h3, h4, h5⟩
    · simp [GoMap.get?] at h
    · rcases h5 with h5 | h5
      · rw [h5]
      · simp at h5

theorem editsStep_closed (f : Nat) (t : GoString) (hf : t.length = f + 2) (hlen : 3 ≤ t.length)
    (e : GoMap GoString Nat) (i : Nat) (hi : i < t.length) (hK : EditsClosed t e) :
    EditsClosed t (editsStep (f + 1) t 1 true e i) := by
  unfold editsStep
  split
  · have hr : (true && decide (1 < EDIT_DISTANCE)) = true := by decide
    rw [if_pos hr]
    intro u hu hul j hj
    have hdl := deleteAt_length t i hi
    obtain ⟨n, hn⟩ := Option.isSome_iff_exists.1 hu
    rcases EditsAux_sound _ _ _ _ _ _ _ hn with h | ⟨h1, h2, h3, h4, h5⟩
    · rw [GoMap.get?_set] at h
      split at h
      · rename_i hui
        subst hui
        exact EditsAux_level1 f _ 1 _ true (by omega) j hj
      · have hc := hK u (by rw [h]; rfl) hul j hj
        obtain ⟨n', hn'⟩ := Option.isSome_iff_exists.1 hc
        have : ((e.set (deleteAt t i) 1).get? (deleteAt u j)).isSome = true := by
          rw [GoMap.get?_set]
          split
          · rfl
          · exact hc
        obtain ⟨n2, hn2⟩ := Option.isSome_iff_exists.1 this
        rw [EditsAux_mono _ _ _ _ _ _ _ hn2]
        rfl
    · omega
  · exact hK

theorem editsFold_closed (f : Nat) (t : GoString) (hf : t.length = f + 2)
    (hlen : 3 ≤ t.length) (L : List Nat) (hL : ∀ i ∈ L, i < t.length) (e : GoMap GoString Nat)
    (hK : EditsClosed t e) : EditsClosed t (L.foldl (editsStep (f + 1) t 1 true) e) := by
  induction L generalizing e with
  | nil => exact hK
  | cons i L ih =>
    rw [List.foldl_cons]
    exact ih (fun j hj => hL j (List.mem_cons_of_mem _ hj)) _
      (editsStep_closed f t hf hlen e i (hL i (List.mem_cons_self _ _)) hK)

/-- Full expansion: exactly the non-empty strings obtained by deleting one or two
characters, labelled with the number of characters deleted. -/
theorem Edits_full_iff (t : GoString) (v : GoString) (n : Nat) :
    (Edits t 0 none true).get? v = some n ↔
      v.Sublist t ∧ v ≠ [] ∧ v.length + n = t.length ∧ 1 ≤ n ∧ n ≤ 2 := by
  constructor
  · intro h
    rcases EditsAux_sound _ _ _ _ _ _ _ h with h | ⟨h1, h2, h3, h4, h5⟩
    · simp [GoMap.get?] at h
    · refine ⟨h1, h2, by omega, by omega, ?_⟩
      rcases h5 with h5 | h5
      · omega
      · exact h5.2
  · rintro ⟨hs, hne, hl, h1, h2⟩
    have hv : 0 < v.length := List.length_pos.2 hne
    have hbound : ((Edits t 0 none true).get? v).isSome = true := by
      by_cases hn1 : n = 1
      · subst hn1
        obtain ⟨i, hi, rfl⟩ := sublist_eq_deleteAt hs hl
        obtain ⟨f, hf⟩ : ∃ f, t.length = f + 1 := ⟨t.length - 1, by omega⟩
        have hE : Edits t 0 none true = EditsAux (f + 1) t 0 [] true := by
          unfold Edits; rw [hf]; rfl
        rw [hE]
        exact EditsAux_level1 f t 0 [] true (by omega) i hi
      · have hn2 : n = 2 := by omega
        subst hn2
        obtain ⟨i, j, hi, hj, rfl⟩ := sublist_two_deleteAt hs hl
        obtain ⟨f, hf⟩ : ∃ f, t.length = f + 2 := ⟨t.length - 2, by omega⟩
        have hE : Edits t 0 none true = EditsAux (f + 1 + 1) t 0 [] true := by
          unfold Edits; rw [hf]; rfl
        have hu := EditsAux_level1 (f + 1) t 0 [] true (by omega) i hi
        rw [hE]
        have hK : EditsClosed t (EditsAux (f + 1 + 1) t 0 [] true) := by
          rw [EditsAux_succ, if_pos (by omega)]
          exact editsFold_closed f t hf (by omega) _ (fun i hi => List.mem_range.1 hi) []
            (fun u hu => by simp [GoMap.get?] at hu)
        exact hK _ hu (by rw [deleteAt_length t i hi]; omega) j hj
    obtain ⟨n', hn'⟩ := Option.isSome_iff_exists.1 hbound
    rw [hn']
    rcases EditsAux_sound _ _ _ _ _ _ _ hn' with h | ⟨a1, a2, a3, a4, a5⟩
    · simp [GoMap.get?] at h
    · congr 1
      omega

end Symspell

namespace Symspell

/-! ## The dictionary after `AddEntry` -/

theorem GoMap.get?_perm {κ ν : Type} [DecidableEq κ] {m m' : GoMap κ ν} (hp : m'.Perm m)
    (hn : (m.map Prod.fst).Nodup) (k : κ) : GoMap.get? m' k = GoMap.get? m k := by
  have hn' : (m'.map Prod.fst).Nodup := (hp.map Prod.fst).nodup_iff.2 hn
  cases h : GoMap.get? m k with
  | none =>
    rw [GoMap.get?_eq_none_iff] at h ⊢
    intro v hv
    exact h v (hp.mem_iff.1 hv)
  | some v =>
    exact GoMap.get?_of_mem_nodup hn' (hp.mem_iff.2 (GoMap.mem_of_get? h))

theorem addSuggestion_get? (term : GoString) (d : GoMap GoString DictItem) (p : GoString × Nat)
    (k : GoString) :
    (addSuggestion term d p).get? k =
      if k = p.1 then some (addSug1 term (d.get? p.1) p.2) else d.get? k := by
  unfold addSuggestion addSug1
  cases h : d.get? p.1 with
  | none =>
    simp only [GoMap.get?_set]
  | some e =>
    simp only
    split
    · simp only [GoMap.get?_set]
    · split
      · rename_i hk
        rw [hk, h]
      · rfl

theorem addSuggestions_get? (term : GoString) (L : GoMap GoString Nat)
    (hn : (L.map Prod.fst).Nodup) (d : GoMap GoString DictItem) (k : GoString) :
    (L.foldl (addSuggestion term) d).get? k =
      match GoMap.get? L k with
      | some n => some (addSug1 term (d.get? k) n)
      | none => d.get? k := by
  induction L generalizing d with
  | nil => rfl
  | cons p L ih =>
    obtain ⟨a, n⟩ := p
    simp only [List.map_cons, List.nodup_cons] at hn
    rw [List.foldl_cons, ih hn.2, GoMap.get?_cons]
    by_cases hk : k = a
    · subst hk
      have hnone : GoMap.get? L k = none := by
        cases hg : GoMap.get? L k with
        | none => rfl
        | some v =>
          exact absurd (List.mem_map.2 ⟨(k, v), GoMap.mem_of_get? hg, rfl⟩) hn.1
      simp only [hnone, addSuggestion_get?, ↓reduceIte]
    · simp only [addSuggestion_get?, hk, ↓reduceIte]

theorem addDefinition_fold (defs : List GoString) (st : DefinitionOrdinals × DictItem) :
    (defs.foldl addDefinition st).2.Term = st.2.Term ∧
    (defs.foldl addDefinition st).2.Count = st.2.Count ∧
    (defs.foldl addDefinition st).2.Suggestions = st.2.Suggestions := by
  induction defs generalizing st with
  | nil => exact ⟨rfl, rfl, rfl⟩
  | cons x defs ih =>
    rw [List.foldl_cons]
    obtain ⟨h1, h2, h3⟩ := ih (addDefinition st x)
    exact ⟨h1, h2, h3⟩

theorem entryAfter_Term (s : SymSpell) (t : GoString) (defs : List GoString) :
    (entryAfter s t defs).Term = ((s.Dictionary.get? t).getD newDictItem).Term :=
  (addDefinition_fold defs _).1

theorem entryAfter_Count (s : SymSpell) (t : GoString) (defs : List GoString) :
    (entryAfter s t defs).Count = ((s.Dictionary.get? t).getD newDictItem).Count + 1 :=
  (addDefinition_fold defs _).2.1

theorem entryAfter_Suggestions (s : SymSpell) (t : GoString) (defs : List GoString) :
    (entryAfter s t defs).Suggestions = ((s.Dictionary.get? t).getD newDictItem).Suggestions :=
  (addDefinition_fold defs _).2.2

theorem Edits_full_self (t : GoString) : (Edits t 0 none true).get? t = none := by
  cases h : (Edits t 0 none true).get? t with
  | none => rfl
  | some n =>
    have := (Edits_full_iff t t n).1 h
    omega

/-- Pointwise description of the dictionary after `AddEntry` on a non-empty term. -/
theorem AddEntry_get? (s : SymSpell) (t : GoString) (defs : List GoString) (o : Oracle)
    (ht : t ≠ []) (k : GoString) :
    (AddEntry s t defs o).1.Dictionary.get? k =
      if (entryAfter s t defs).Term = [] then
        if k = t then some { entryAfter s t defs with Term := t }
        else
          match (Edits t 0 none true).get? k with
          | some n => some (addSug1 t (s.Dictionary.get? k) n)
          | none => s.Dictionary.get? k
      else
        if k = t then some (entryAfter s t defs) else s.Dictionary.get? k := by
  unfold AddEntry
  rw [if_neg ht]
  show (if (entryAfter s t defs).Term = [] then _ else _ : SymSpell × Bool × Option String).1.Dictionary.get? k = _
  split
  · simp only
    rw [addSuggestions_get? t _
      ((((rangeOrder_perm _ o).map Prod.fst).nodup_iff).2 (Edits_nodup t 0 true)),
      GoMap.get?_perm (rangeOrder_perm _ o) (Edits_nodup t 0 true)]
    by_cases hk : k = t
    · subst hk
      rw [Edits_full_self, if_pos rfl, GoMap.get?_set_self]
      rfl
    · rw [if_neg hk, GoMap.get?_set_ne _ _ _ hk]
  · simp only
    rw [GoMap.get?_set]
    rfl

theorem AddEntry_empty (s : SymSpell) (defs : List GoString) (o : Oracle) :
    AddEntry s [] defs o = (s, false, some "Empty string can't be the term") := by
  unfold AddEntry
  rw [if_pos rfl]

end Symspell

namespace Symspell

/-! ## The dictionary invariant -/

theorem addSug1_Term (t : GoString) (o : Option DictItem) (n : Nat) :
    (addSug1 t o n).Term = (o.getD newDictItem).Term := by
  unfold addSug1
  cases o with
  | none => rfl
  | some e => simp only [Option.getD_some]; split <;> rfl

theorem addSug1_Count (t : GoString) (o : Option DictItem) (n : Nat) :
    (addSug1 t o n).Count = (o.getD newDictItem).Count := by
  unfold addSug1
  cases o with
  | none => rfl
  | some e => simp only [Option.getD_some]; split <;> rfl

theorem addSug1_get?_ne (t : GoString) (o : Option DictItem) (n : Nat) (s : GoString)
    (hs : s ≠ t) :
    (addSug1 t o n).Suggestions.get? s = (o.getD newDictItem).Suggestions.get? s := by
  unfold addSug1
  cases o with
  | none => simp only [GoMap.get?_set, if_neg hs]; rfl
  | some e =>
    simp only [Option.getD_some]
    split
    · simp only [GoMap.get?_set, if_neg hs]
    · rfl

theorem addSug1_get?_self (t : GoString) (o : Option DictItem) (n : Nat)
    (h : (o.getD newDictItem).Suggestions.get? t = none) :
    (addSug1 t o n).Suggestions.get? t = some n := by
  unfold addSug1
  cases o with
  | none => simp only [GoMap.get?_set_self]
  | some e =>
    simp only [Option.getD_some] at h
    simp only [h, Option.isNone_none, ↓reduceIte, GoMap.get?_set_self]

theorem addSug1_nodup (t : GoString) (o : Option DictItem) (n : Nat)
    (h : ((o.getD newDictItem).Suggestions.map Prod.fst).Nodup) :
    ((addSug1 t o n).Suggestions.map Prod.fst).Nodup := by
  unfold addSug1
  cases o with
  | none => exact GoMap.nodup_set (by simp) _ _
  | some e =>
    simp only [Option.getD_some] at h
    simp only
    split
    · exact GoMap.nodup_set h _ _
    · exact h

/-- No entry lists a string that is not a term entry. -/
theorem DictInv.sugg_none {d : GoMap GoString DictItem} (hd : DictInv d) (t : GoString)
    (ht : ((d.get? t).getD newDictItem).Term = []) (htne : t ≠ []) (k : GoString) :
    ((d.get? k).getD newDictItem).Suggestions.get? t = none := by
  cases hk : d.get? k with
  | none => rfl
  | some e =>
    simp only [Option.getD_some]
    cases hg : e.Suggestions.get? t with
    | none => rfl
    | some n =>
      obtain ⟨⟨es, h1, h2⟩, -⟩ := hd.sugg_sound k e t n hk hg
      rw [h1] at ht
      simp only [Option.getD_some] at ht
      exact absurd (h2.symm.trans ht) htne

/-- An entry lists a term entry exactly when it is one of its delete variants. -/
theorem DictInv.sugg_eq {d : GoMap GoString DictItem} (hd : DictInv d) (t : GoString)
    (et : DictItem) (h1 : d.get? t = some et) (h2 : et.Term = t) (k : GoString) (e : DictItem)
    (hk : d.get? k = some e) : e.Suggestions.get? t = (Edits t 0 none true).get? k := by
  cases hg : e.Suggestions.get? t with
  | some n => exact ((hd.sugg_sound k e t n hk hg).2).symm
  | none =>
    cases hE : (Edits t 0 none true).get? k with
    | none => rfl
    | some n =>
      obtain ⟨e', he', hs⟩ := hd.sugg_complete t et h1 h2 k n hE
      rw [hk] at he'
      simp only [Option.some.injEq] at he'
      subst he'
      rw [hg] at hs
      exact absurd hs (by simp)

/-- The entries of the dictionary after `AddEntry`, in terms of the entries before. -/
theorem AddEntry_entry (s : SymSpell) (t : GoString) (defs : List GoString) (o : Oracle)
    (ht : t ≠ []) (hd : DictInv s.Dictionary) (k : GoString) (e' : DictItem)
    (h : (AddEntry s t defs o).1.Dictionary.get? k = some e') :
    e'.Term = (if k = t then t else ((s.Dictionary.get? k).getD newDictItem).Term) ∧
    e'.Count = ((s.Dictionary.get? k).getD newDictItem).Count + (if k = t then 1 else 0) ∧
    (∀ x, x ≠ t →
      e'.Suggestions.get? x = ((s.Dictionary.get? k).getD newDictItem).Suggestions.get? x) ∧
    e'.Suggestions.get? t = (Edits t 0 none true).get? k ∧
    (e'.Suggestions.map Prod.fst).Nodup ∧
    (s.Dictionary.get? k = none → k = t ∨ ((Edits t 0 none true).get? k).isSome = true) := by
  rw [AddEntry_get? s t defs o ht] at h
  have hnd : (((s.Dictionary.get? k).getD newDictItem).Suggestions.map Prod.fst).Nodup := by
    cases hk : s.Dictionary.get? k with
    | none => simp [newDictItem]
    | some e => exact hd.sugg_nodup k e hk
  by_cases hT : (entryAfter s t defs).Term = []
  · have hT0 : ((s.Dictionary.get? t).getD newDictItem).Term = [] := by
      rw [← entryAfter_Term s t defs]; exact hT
    have hnone := hd.sugg_none t hT0 ht
    rw [if_pos hT] at h
    by_cases hk : k = t
    · subst hk
      rw [if_pos rfl] at h
      simp only [Option.some.injEq] at h
      subst h
      refine ⟨by simp, ?_, ?_, ?_, ?_, fun _ => Or.inl rfl⟩
      · simp only [if_pos rfl]; exact entryAfter_Count s k defs
      · intro x _; simp only [entryAfter_Suggestions]
      · simp only [entryAfter_Suggestions, Edits_full_self]; exact hnone k
      · simp only [entryAfter_Suggestions]; exact hnd
    · rw [if_neg hk] at h
      simp only [if_neg hk, Nat.add_zero]
      cases hE : (Edits t 0 none true).get? k with
      | some n =>
        rw [hE] at h
        simp only [Option.some.injEq] at h
        subst h
        exact ⟨addSug1_Term _ _ _, addSug1_Count _ _ _,
          fun x hx => addSug1_get?_ne _ _ _ x hx, addSug1_get?_self _ _ _ (hnone k),
          addSug1_nodup _ _ _ hnd, fun _ => Or.inr rfl⟩
      | none =>
        rw [hE] at h
        simp only at h
        have hn := hnone k
        rw [h] at hnd hn ⊢
        exact ⟨rfl, rfl, fun _ _ => rfl, hn, hnd, fun h0 => by simp at h0⟩
  · rw [if_neg hT] at h
    have hT0 : ((s.Dictionary.get? t).getD newDictItem).Term ≠ [] := by
      rw [← entryAfter_Term s t defs]; exact hT
    obtain ⟨e0, he0⟩ : ∃ e0, s.Dictionary.get? t = some e0 := by
      cases hg : s.Dictionary.get? t with
      | none => rw [hg] at hT0; exact absurd rfl hT0
      | some e0 => exact ⟨e0, rfl⟩
    have he0T : e0.Term = t := by
      rw [he0] at hT0
      rcases hd.term_key t e0 he0 with h1 | h1
      · exact absurd h1 hT0
      · exact h1
    by_cases hk : k = t
    · subst hk
      rw [if_pos rfl] at h
      simp only [Option.some.injEq] at h
      subst h
      refine ⟨?_, ?_, ?_, ?_, ?_, fun h0 => Or.inl rfl⟩
      · rw [if_pos rfl, entryAfter_Term, he0]; exact he0T
      · simp only [if_pos rfl]; exact entryAfter_Count s k defs
      · intro x _; simp only [entryAfter_Suggestions]
      · simp only [entryAfter_Suggestions, he0, Option.getD_some]
        exact hd.sugg_eq k e0 he0 he0T k e0 he0
      · simp only [entryAfter_Suggestions]; exact hnd
    · rw [if_neg hk] at h
      have h4 := hd.sugg_eq t e0 he0 he0T k e' h
      simp only [if_neg hk, Nat.add_zero]
      rw [h] at hnd ⊢
      exact ⟨rfl, rfl, fun _ _ => rfl, h4, hnd, fun h0 => by simp at h0⟩

theorem AddEntry_exists (s : SymSpell) (t : GoString) (defs : List GoString) (o : Oracle)
    (ht : t ≠ []) (k : GoString)
    (h : (s.Dictionary.get? k).isSome = true ∨ k = t ∨
      ((entryAfter s t defs).Term = [] ∧ ((Edits t 0 none true).get? k).isSome = true)) :
    ((AddEntry s t defs o).1.Dictionary.get? k).isSome = true := by
  rw [AddEntry_get? s t defs o ht]
  by_cases hk : k = t
  · simp only [if_pos hk]
    split <;> rfl
  · simp only [if_neg hk]
    split
    · cases hE : (Edits t 0 none true).get? k with
      | some n => rfl
      | none =>
        simp only
        rcases h with h | h | h
        · exact h
        · exact absurd h hk
        · rw [hE] at h; simp at h
    · rename_i hT
      rcases h with h | h | h
      · exact h
      · exact absurd h hk
      · exact absurd h.1 hT

/-- The dictionary lists the delete variants of the term just added. -/
theorem AddEntry_exists_variant (s : SymSpell) (t : GoString) (defs : List GoString)
    (o : Oracle) (ht : t ≠ []) (hd : DictInv s.Dictionary) (k : GoString)
    (h : ((Edits t 0 none true).get? k).isSome = true) :
    ((AddEntry s t defs o).1.Dictionary.get? k).isSome = true := by
  by_cases hT : (entryAfter s t defs).Term = []
  · exact AddEntry_exists s t defs o ht k (Or.inr (Or.inr ⟨hT, h⟩))
  · have hT0 : ((s.Dictionary.get? t).getD newDictItem).Term ≠ [] := by
      rw [← entryAfter_Term s t defs]; exact hT
    obtain ⟨e0, he0⟩ : ∃ e0, s.Dictionary.get? t = some e0 := by
      cases hg : s.Dictionary.get? t with
      | none => rw [hg] at hT0; exact absurd rfl hT0
      | some e0 => exact ⟨e0, rfl⟩
    have he0T : e0.Term = t := by
      rw [he0] at hT0
      rcases hd.term_key t e0 he0 with h1 | h1
      · exact absurd h1 hT0
      · exact h1
    obtain ⟨n, hn⟩ := Option.isSome_iff_exists.1 h
    obtain ⟨e, he, -⟩ := hd.sugg_complete t e0 he0 he0T k n hn
    exact AddEntry_exists s t defs o ht k (Or.inl (by rw [he]; rfl))

/-- `AddEntry` keeps the invariant of the dictionary. -/
theorem AddEntry_inv (s : SymSpell) (t : GoString) (defs : List GoString) (o : Oracle)
    (hd : DictInv s.Dictionary) : DictInv (AddEntry s t defs o).1.Dictionary := by
  by_cases ht : t = []
  · subst ht
    rw [AddEntry_empty]
    exact hd
  have hE := AddEntry_entry s t defs o ht hd
  have hX := AddEntry_exists s t defs o ht
  have hne : (AddEntry s t defs o).1.Dictionary.get? [] = none := by
    cases hg : (AddEntry s t defs o).1.Dictionary.get? [] with
    | none => rfl
    | some e' =>
      obtain ⟨-, -, -, -, -, h6⟩ := hE [] e' hg
      rcases h6 hd.no_empty with h | h
      · exact absurd h.symm ht
      · obtain ⟨n, hn⟩ := Option.isSome_iff_exists.1 h
        exact absurd rfl ((Edits_full_iff t [] n).1 hn).2.1
  have hkne : ∀ k e', (AddEntry s t defs o).1.Dictionary.get? k = some e' → k ≠ [] := by
    intro k e' hk h0
    rw [h0, hne] at hk
    exact absurd hk (by simp)
  refine ⟨hne, ?_, ?_, ?_, ?_, ?_⟩
  · intro k e' hk
    obtain ⟨h1, -⟩ := hE k e' hk
    by_cases hkt : k = t
    · rw [if_pos hkt] at h1; exact Or.inr (h1.trans hkt.symm)
    · rw [if_neg hkt] at h1
      rw [h1]
      cases hg : s.Dictionary.get? k with
      | none => exact Or.inl rfl
      | some e => exact hd.term_key k e hg
  · intro k e' hk
    obtain ⟨h1, h2, -⟩ := hE k e' hk
    by_cases hkt : k = t
    · rw [if_pos hkt] at h1 h2
      rw [h1, h2]
      exact ⟨fun _ => by omega, fun _ => hkt.symm⟩
    · rw [if_neg hkt] at h1 h2
      rw [h1, h2]
      cases hg : s.Dictionary.get? k with
      | none =>
        simp only [Option.getD_none, newDictItem, Nat.add_zero, Nat.lt_irrefl, iff_false]
        exact fun h0 => hkne k e' hk h0.symm
      | some e => simpa using hd.term_count k e hg
  · intro k e' hk
    exact (hE k e' hk).2.2.2.2.1
  · intro v e' x n hv hx
    obtain ⟨-, -, h3, h4, -, -⟩ := hE v e' hv
    by_cases hxt : x = t
    · subst hxt
      rw [h4] at hx
      refine ⟨?_, hx⟩
      obtain ⟨es, hes⟩ := Option.isSome_iff_exists.1 (hX x (Or.inr (Or.inl rfl)))
      refine ⟨es, hes, ?_⟩
      have := (hE x es hes).1
      rwa [if_pos rfl] at this
    · rw [h3 x hxt] at hx
      cases hg : s.Dictionary.get? v with
      | none => rw [hg] at hx; simp [newDictItem, GoMap.get?] at hx
      | some e =>
        rw [hg] at hx
        simp only [Option.getD_some] at hx
        obtain ⟨⟨es, h1, h2⟩, h5⟩ := hd.sugg_sound v e x n hg hx
        refine ⟨?_, h5⟩
        obtain ⟨es', hes'⟩ := Option.isSome_iff_exists.1 (hX x (Or.inl (by rw [h1]; rfl)))
        refine ⟨es', hes', ?_⟩
        have := (hE x es' hes').1
        rw [if_neg hxt, h1] at this
        exact this.trans h2
  · intro x et hx hxT v n hvn
    by_cases hxt : x = t
    · subst hxt
      obtain ⟨e', he'⟩ := Option.isSome_iff_exists.1
        (AddEntry_exists_variant s x defs o ht hd v (by rw [hvn]; rfl))
      refine ⟨e', he', ?_⟩
      rw [(hE v e' he').2.2.2.1]
      exact hvn
    · have h1 := (hE x et hx).1
      rw [if_neg hxt] at h1
      cases hg : s.Dictionary.get? x with
      | none =>
        rw [hg] at h1
        exact absurd (hxT.symm.trans h1) (hkne x et hx)
      | some e0 =>
        rw [hg] at h1
        simp only [Option.getD_some] at h1
        obtain ⟨e, he, hes⟩ := hd.sugg_complete x e0 hg (h1.symm.trans hxT) v n hvn
        obtain ⟨e', he'⟩ := Option.isSome_iff_exists.1 (hX v (Or.inl (by rw [he]; rfl)))
        refine ⟨e', he', ?_⟩
        rw [(hE v e' he').2.2.1 x hxt, he]
        exact hes

theorem DictInv_empty : DictInv ([] : GoMap GoString DictItem) :=
  ⟨rfl, fun _ _ h => by simp [GoMap.get?] at h, fun _ _ h => by simp [GoMap.get?] at h,
    fun _ _ h => by simp [GoMap.get?] at h, fun _ _ _ _ h => by simp [GoMap.get?] at h,
    fun _ _ h => by simp [GoMap.get?] at h⟩

end Symspell

namespace Symspell

/-! ## Engine states reached by `AddEntry` calls -/

theorem runCalls_nil : runCalls [] = NewSymSpell := rfl

theorem runCalls_concat (cs : List Call) (c : Call) :
    runCalls (cs ++ [c]) = (AddEntry (runCalls cs) c.term c.definitions c.order).1 := by
  unfold runCalls
  rw [List.foldl_append]
  rfl

theorem runCalls_inv (calls : List Call) : DictInv (runCalls calls).Dictionary := by
  induction calls using List.reverseRecOn with
  | nil => exact DictInv_empty
  | append_singleton cs c ih =>
    rw [runCalls_concat]
    exact AddEntry_inv _ _ _ _ ih

/-- The count stored under a key is the number of calls that ingested exactly that key. -/
theorem runCalls_count (calls : List Call) (k : GoString) (hk : k ≠ []) :
    (((runCalls calls).Dictionary.get? k).getD newDictItem).Count =
      calls.countP (fun c => decide (c.term = k)) := by
  induction calls using List.reverseRecOn with
  | nil => rfl
  | append_singleton cs c ih =>
    rw [runCalls_concat, List.countP_append, ← ih]
    simp only [List.countP_cons, List.countP_nil, Nat.zero_add]
    by_cases ht : c.term = []
    · rw [ht, AddEntry_empty]
      have : ¬ (c.term = k) := by rw [ht]; exact fun h => hk h.symm
      simp [this, hk]
    · cases hg : (AddEntry (runCalls cs) c.term c.definitions c.order).1.Dictionary.get? k with
      | some e' =>
        have h2 := (AddEntry_entry _ _ _ _ ht (runCalls_inv cs) k e' hg).2.1
        simp only [Option.getD_some, h2]
        by_cases hkt : k = c.term
        · simp [hkt]
        · simp [hkt, Ne.symm hkt]
      | none =>
        have hkt : k ≠ c.term := by
          intro hkt
          have := AddEntry_exists (runCalls cs) c.term c.definitions c.order ht k
            (Or.inr (Or.inl hkt))
          rw [hg] at this
          simp at this
        have hold : (runCalls cs).Dictionary.get? k = none := by
          cases ho : (runCalls cs).Dictionary.get? k with
          | none => rfl
          | some e =>
            have := AddEntry_exists (runCalls cs) c.term c.definitions c.order ht k
              (Or.inl (by rw [ho]; rfl))
            rw [hg] at this
            simp at this
        simp [hold, Ne.symm hkt]

/-- Every ingested term has a term entry. -/
theorem runCalls_term (calls : List Call) (t : GoString) (ht : t ≠ [])
    (h : ∃ c ∈ calls, c.term = t) :
    ∃ e, (runCalls calls).Dictionary.get? t = some e ∧ e.Term = t ∧
      e.Count = calls.countP (fun c => decide (c.term = t)) := by
  have hc := runCalls_count calls t ht
  have hpos : 0 < calls.countP (fun c => decide (c.term = t)) := by
    obtain ⟨c, hc1, hc2⟩ := h
    exact List.countP_pos_iff.2 ⟨c, hc1, by simpa using hc2⟩
  cases hg : (runCalls calls).Dictionary.get? t with
  | none =>
    rw [hg] at hc
    simp only [Option.getD_none, newDictItem] at hc
    omega
  | some e =>
    rw [hg] at hc
    simp only [Option.getD_some] at hc
    exact ⟨e, rfl, ((runCalls_inv calls).term_count t e hg).2 (by omega), hc⟩

/-- Every term entry is an ingested term. -/
theorem runCalls_term_ingested (calls : List Call) (t : GoString) (e : DictItem)
    (hg : (runCalls calls).Dictionary.get? t = some e) (hT : e.Term = t) :
    ∃ c ∈ calls, c.term = t := by
  have hne : t ≠ [] := by
    intro h0
    rw [h0, (runCalls_inv calls).no_empty] at hg
    simp at hg
  have hc := runCalls_count calls t hne
  rw [hg] at hc
  simp only [Option.getD_some] at hc
  have hpos := ((runCalls_inv calls).term_count t e hg).1 hT
  rw [hc] at hpos
  obtain ⟨c, hc1, hc2⟩ := List.countP_pos_iff.1 hpos
  exact ⟨c, hc1, by simpa using hc2⟩

end Symspell

namespace Symspell

/-! ## The worklist of `Lookup` -/

theorem setIfAbsent_fold_get? (L : GoMap GoString Nat) (cands : GoMap GoString Nat)
    (v : GoString) :
    (L.foldl (fun cands p => if (cands.get? p.1).isNone then cands.set p.1 p.2 else cands)
      cands).get? v =
      match cands.get? v with
      | some m => some m
      | none => GoMap.get? L v := by
  induction L generalizing cands with
  | nil =>
    simp only [List.foldl_nil]
    cases cands.get? v <;> rfl
  | cons p L ih =>
    obtain ⟨a, m⟩ := p
    rw [List.foldl_cons, ih, GoMap.get?_cons]
    by_cases hva : v = a
    · subst hva
      cases hc : cands.get? v with
      | none => simp only [hc, Option.isNone_none, ↓reduceIte, GoMap.get?_set_self]
      | some m' => simp only [hc, Option.isNone_some, Bool.false_eq_true, ↓reduceIte]
    · simp only [if_neg hva]
      have : (if (cands.get? a).isNone = true then cands.set a m else cands).get? v
          = cands.get? v := by
        split
        · rw [GoMap.get?_set_ne _ _ _ hva]
        · rfl
      rw [this]

/-- The worklist after the expansion step, entry by entry. -/
theorem lookupExpand_get? (k : GoString) (n : Nat) (cands : GoMap GoString Nat) (o : Oracle)
    (v : GoString) :
    (lookupExpand k n cands o).1.get? v =
      match cands.get? v with
      | some m => some m
      | none => if n < EDIT_DISTANCE then (Edits k n none false).get? v else none := by
  unfold lookupExpand
  split
  · simp only
    rw [setIfAbsent_fold_get?, GoMap.get?_perm (rangeOrder_perm _ o) (Edits_nodup k n false)]
  · cases cands.get? v <;> rfl

theorem candWeight1_pos (n len : Nat) : 0 < candWeight1 n len := by
  unfold candWeight1
  split
  · omega
  · split <;> omega

theorem candWeight_nil : candWeight [] = 0 := rfl

theorem candWeight_cons (p : GoString × Nat) (m : GoMap GoString Nat) :
    candWeight (p :: m) = candWeight1 p.2 p.1.length + candWeight m := by
  simp [candWeight]

theorem candWeight_del_le (m : GoMap GoString Nat) (k : GoString) :
    candWeight (m.del k) ≤ candWeight m := by
  induction m with
  | nil => exact le_rfl
  | cons p m ih =>
    unfold GoMap.del at ih ⊢
    rw [List.filter_cons]
    split
    · rw [candWeight_cons, candWeight_cons]; omega
    · rw [candWeight_cons]; omega

theorem candWeight_del (m : GoMap GoString Nat) (k : GoString) (n : Nat)
    (h : m.get? k = some n) :
    candWeight (m.del k) + candWeight1 n k.length ≤ candWeight m := by
  induction m with
  | nil => simp [GoMap.get?] at h
  | cons p m ih =>
    obtain ⟨a, b⟩ := p
    rw [GoMap.get?_cons] at h
    by_cases hka : k = a
    · subst hka
      simp only [↓reduceIte, Option.some.injEq] at h
      subst h
      have h1 : GoMap.del ((k, b) :: m) k = GoMap.del m k := by
        unfold GoMap.del
        rw [List.filter_cons]
        simp
      rw [h1, candWeight_cons]
      have := candWeight_del_le m k
      simp only
      omega
    · simp only [if_neg hka] at h
      have h1 : GoMap.del ((a, b) :: m) k = (a, b) :: GoMap.del m k := by
        unfold GoMap.del
        rw [List.filter_cons]
        simp [Ne.symm hka]
      rw [h1, candWeight_cons, candWeight_cons]
      have := ih h
      omega

theorem candWeight_set_le (m : GoMap GoString Nat) (k : GoString) (n : Nat) :
    candWeight (m.set k n) ≤ candWeight m + candWeight1 n k.length := by
  unfold GoMap.set
  rw [candWeight_cons]
  have := candWeight_del_le m k
  simp only
  omega

theorem setIfAbsent_fold_weight (L : GoMap GoString Nat) (w : Nat)
    (hL : ∀ p ∈ L, candWeight1 p.2 p.1.length ≤ w) (cands : GoMap GoString Nat) :
    candWeight (L.foldl
      (fun cands p => if (cands.get? p.1).isNone then cands.set p.1 p.2 else cands) cands)
      ≤ candWeight cands + L.length * w := by
  induction L generalizing cands with
  | nil => simp
  | cons p L ih =>
    rw [List.foldl_cons]
    refine (ih (fun q hq => hL q (List.mem_cons_of_mem _ hq)) _).trans ?_
    have hp := hL p (List.mem_cons_self _ _)
    simp only [List.length_cons, Nat.add_mul, Nat.one_mul]
    split
    · have := candWeight_set_le cands p.1 p.2
      omega
    · omega

theorem GoMap.length_set_le {κ ν : Type} [DecidableEq κ] (m : GoMap κ ν) (k : κ) (v : ν) :
    (GoMap.set m k v).length ≤ m.length + 1 := by
  unfold GoMap.set GoMap.del
  simp only [List.length_cons, Nat.add_le_add_iff_right]
  exact List.length_filter_le _ _

theorem editsFold_length (f : Nat) (t : GoString) (d : Nat) (L : List Nat)
    (e : GoMap GoString Nat) :
    (L.foldl (editsStep f t d false) e).length ≤ e.length + L.length := by
  induction L generalizing e with
  | nil => simp
  | cons i L ih =>
    rw [List.foldl_cons]
    refine (ih _).trans ?_
    simp only [List.length_cons]
    have : (editsStep f t d false e i).length ≤ e.length + 1 := by
      unfold editsStep
      split
      · simp only [Bool.false_and, Bool.false_eq_true, ↓reduceIte]
        exact GoMap.length_set_le _ _ _
      · omega
    omega

theorem Edits_single_length (k : GoString) (n : Nat) :
    (Edits k n none false).length ≤ k.length := by
  unfold Edits
  cases hk : k.length with
  | zero => simp [EditsAux]
  | succ f =>
    rw [EditsAux_succ]
    split
    · have := editsFold_length f k (n + 1) (List.range k.length) []
      simp only [List.length_nil, List.length_range, Nat.zero_add, Option.getD_none] at this ⊢
      omega
    · simp

/-- Processing a candidate makes the worklist lighter. -/
theorem lookupExpand_weight (k : GoString) (n : Nat) (cands : GoMap GoString Nat) (o : Oracle)
    (hk : cands.get? k = some n) (hn : n ≤ EDIT_DISTANCE) :
    candWeight (lookupExpand k n (cands.del k) o).1 < candWeight cands := by
  have hd := candWeight_del cands k n hk
  unfold lookupExpand
  split
  · rename_i hlt
    simp only
    have hperm := rangeOrder_perm (Edits k n none false) o
    have hL : ∀ p ∈ (rangeOrder (Edits k n none false) o).1,
        candWeight1 p.2 p.1.length ≤ candWeight1 (n + 1) (k.length - 1) := by
      intro p hp
      have hp' := hperm.mem_iff.1 hp
      have hg := GoMap.get?_of_mem_nodup (Edits_nodup k n false) (k := p.1) (v := p.2) hp'
      obtain ⟨-, h2, -, h4⟩ := (Edits_single_iff k n p.1 p.2).1 hg
      rw [h2]
      have : p.1.length = k.length - 1 := by omega
      rw [this]
    have hw := setIfAbsent_fold_weight _ _ hL (cands.del k)
    have hlen : (rangeOrder (Edits k n none false) o).1.length ≤ k.length := by
      rw [hperm.length_eq]
      exact Edits_single_length k n
    have hmul : (rangeOrder (Edits k n none false) o).1.length *
        candWeight1 (n + 1) (k.length - 1) ≤ k.length * candWeight1 (n + 1) (k.length - 1) :=
      Nat.mul_le_mul_right _ hlen
    have hkey : k.length * candWeight1 (n + 1) (k.length - 1) < candWeight1 n k.length := by
      unfold EDIT_DISTANCE at hlt
      have hn01 : n = 0 ∨ n = 1 := by omega
      rcases hn01 with h0 | h1
      · subst h0
        simp only [candWeight1, Nat.zero_add, ↓reduceIte, Nat.succ_ne_zero]
        rcases Nat.eq_zero_or_pos k.length with hz | hp
        · rw [hz]; simp
        · have : 1 + (k.length - 1) = k.length := by omega
          rw [this]
          omega
      · subst h1
        simp only [candWeight1, Nat.succ_ne_zero, ↓reduceIte]
        simp
    omega
  · have := candWeight1_pos n k.length
    simp only
    omega

theorem arbitraryKey_get? (cands : GoMap GoString Nat) (o : Oracle) (h : cands.length > 0) :
    ∃ n, cands.get? (arbitraryKey cands o).1 = some n := by
  unfold arbitraryKey
  have hidx : o.headD 0 % cands.length < cands.length := Nat.mod_lt _ h
  have hmem : cands.getD (o.headD 0 % cands.length) ([], 0) ∈ cands := by
    rw [List.getD_eq_getElem cands _ hidx]
    exact List.getElem_mem _
  exact Option.isSome_iff_exists.1 (GoMap.get?_isSome_of_mem (k := _) (v := _) hmem)

theorem lookupLoop_succ (dict : GoMap GoString DictItem) (input : GoString) (fuel : Nat)
    (cands : GoMap GoString Nat) (sugg : GoMap GoString SuggestItem) (o : Oracle) :
    lookupLoop dict input (fuel + 1) cands sugg o =
      if cands.length > 0 then
        if (cands.get? (arbitraryKey cands o).1).getD 0 > EDIT_DISTANCE then
          some (sugg, (arbitraryKey cands o).2)
        else
          lookupLoop dict input fuel
            (lookupExpand (arbitraryKey cands o).1 ((cands.get? (arbitraryKey cands o).1).getD 0)
              (cands.del (arbitraryKey cands o).1)
              (lookupEntry dict input (arbitraryKey cands o).1
                ((cands.get? (arbitraryKey cands o).1).getD 0) sugg (arbitraryKey cands o).2).2).1
            (lookupEntry dict input (arbitraryKey cands o).1
              ((cands.get? (arbitraryKey cands o).1).getD 0) sugg (arbitraryKey cands o).2).1
            (lookupExpand (arbitraryKey cands o).1 ((cands.get? (arbitraryKey cands o).1).getD 0)
              (cands.del (arbitraryKey cands o).1)
              (lookupEntry dict input (arbitraryKey cands o).1
                ((cands.get? (arbitraryKey cands o).1).getD 0) sugg (arbitraryKey cands o).2).2).2
      else some (sugg, o) := rfl

/-- Loop rule for `Lookup`: an invariant that bounds the labels and survives the processing
of any candidate, in any iteration order, holds when the loop ends, and the loop ends
within `candWeight` iterations. -/
theorem lookupLoop_rule (dict : GoMap GoString DictItem) (input : GoString)
    (I : GoMap GoString Nat → GoMap GoString SuggestItem → Prop)
    (hstep : ∀ cands sugg k n o1 o2, I cands sugg → cands.get? k = some n →
      n ≤ EDIT_DISTANCE ∧
      I (lookupExpand k n (cands.del k) o2).1 (lookupEntry dict input k n sugg o1).1) :
    ∀ fuel cands sugg o, candWeight cands ≤ fuel → I cands sugg →
      ∃ r, lookupLoop dict input fuel cands sugg o = some r ∧ I [] r.1 := by
  intro fuel
  induction fuel with
  | zero =>
    intro cands sugg o hw hI
    cases cands with
    | nil => exact ⟨(sugg, o), rfl, hI⟩
    | cons p m =>
      rw [candWeight_cons] at hw
      have := candWeight1_pos p.2 p.1.length
      omega
  | succ fuel ih =>
    intro cands sugg o hw hI
    rw [lookupLoop_succ]
    by_cases hlen : cands.length > 0
    · rw [if_pos hlen]
      obtain ⟨n, hn⟩ := arbitraryKey_get? cands o hlen
      rw [hn]
      simp only [Option.getD_some]
      obtain ⟨h1, h2⟩ := hstep cands sugg (arbitraryKey cands o).1 n (arbitraryKey cands o).2
        (lookupEntry dict input (arbitraryKey cands o).1 n sugg (arbitraryKey cands o).2).2 hI hn
      rw [if_neg (by omega)]
      apply ih
      · have := lookupExpand_weight (arbitraryKey cands o).1 n cands
          (lookupEntry dict input (arbitraryKey cands o).1 n sugg (arbitraryKey cands o).2).2
          hn h1
        omega
      · exact h2
    · rw [if_neg hlen]
      have : cands = [] := List.length_eq_zero.1 (by omega)
      subst this
      exact ⟨(sugg, o), rfl, hI⟩

end Symspell

namespace Symspell

/-! ## The result map of `Lookup`, entry by entry -/

theorem lookupSuggest_get? (dict : GoMap GoString DictItem) (q k : GoString) (n : Nat)
    (sugg : GoMap GoString SuggestItem) (s : GoString) (sd : Nat) (x : GoString)
    (hT : ∃ v2, dict.get? s = some v2 ∧ v2.Term = s) :
    (lookupSuggest dict q k n sugg (s, sd)).get? x =
      (sugg.get? x).or (if x = s then suggestItemOf dict q k n s sd else none) := by
  obtain ⟨v2, hv2, hv2T⟩ := hT
  unfold lookupSuggest suggestItemOf
  simp only [hv2, hv2T, Option.map_some']
  cases hs : sugg.get? s with
  | some it =>
    simp only [Option.isNone_some, Bool.false_eq_true, ↓reduceIte]
    by_cases hx : x = s
    · subst hx; rw [hs]; rfl
    · rw [if_neg hx, Option.or_none]
  | none =>
    simp only [Option.isNone_none, ↓reduceIte]
    by_cases hle : TrueDistance s sd k n q ≤ EDIT_DISTANCE
    · simp only [if_pos hle, GoMap.get?_set]
      by_cases hx : x = s
      · subst hx; rw [hs]; simp
      · rw [if_neg hx, if_neg hx, Option.or_none]
    · simp only [if_neg hle]
      by_cases hx : x = s
      · subst hx; rw [hs]; simp
      · rw [if_neg hx, Option.or_none]

theorem lookupSuggest_fold_get? (dict : GoMap GoString DictItem) (q k : GoString) (n : Nat)
    (L : GoMap GoString Nat) (hn : (L.map Prod.fst).Nodup)
    (hT : ∀ p ∈ L, ∃ v2, dict.get? p.1 = some v2 ∧ v2.Term = p.1)
    (sugg : GoMap GoString SuggestItem) (x : GoString) :
    (L.foldl (lookupSuggest dict q k n) sugg).get? x =
      (sugg.get? x).or ((GoMap.get? L x).bind (suggestItemOf dict q k n x)) := by
  induction L generalizing sugg with
  | nil => simp [GoMap.get?, Option.or_none]
  | cons p L ih =>
    obtain ⟨s, sd⟩ := p
    simp only [List.map_cons, List.nodup_cons] at hn
    rw [List.foldl_cons, ih hn.2 (fun p hp => hT p (List.mem_cons_of_mem _ hp)),
      lookupSuggest_get? dict q k n sugg s sd x (hT (s, sd) (List.mem_cons_self _ _)),
      Option.or_assoc, GoMap.get?_cons]
    congr 1
    by_cases hx : x = s
    · subst hx
      have hnone : GoMap.get? L x = none := by
        cases hg : GoMap.get? L x with
        | none => rfl
        | some v => exact absurd (List.mem_map.2 ⟨(x, v), GoMap.mem_of_get? hg, rfl⟩) hn.1
      simp [hnone, Option.or_none]
    · simp [hx]

/-- The result map after a candidate is processed: what was recorded stays, and every other
key receives the candidate's contribution. -/
theorem lookupEntry_get? (dict : GoMap GoString DictItem) (hd : DictInv dict) (q k : GoString)
    (n : Nat) (sugg : GoMap GoString SuggestItem) (o : Oracle) (x : GoString) :
    (lookupEntry dict q k n sugg o).1.get? x = (sugg.get? x).or (contrib dict q k n x) := by
  unfold lookupEntry contrib
  cases hk : dict.get? k with
  | none => simp [Option.or_none]
  | some value =>
    simp only
    have hperm := rangeOrder_perm value.Suggestions o
    have hnd := hd.sugg_nodup k value hk
    have hT : ∀ p ∈ (rangeOrder value.Suggestions o).1,
        ∃ v2, dict.get? p.1 = some v2 ∧ v2.Term = p.1 := by
      intro p hp
      have hg := GoMap.get?_of_mem_nodup hnd (k := p.1) (v := p.2) (hperm.mem_iff.1 hp)
      exact (hd.sugg_sound k value p.1 p.2 hk hg).1
    rw [lookupSuggest_fold_get? dict q k n _ ((hperm.map Prod.fst).nodup_iff.2 hnd) hT,
      GoMap.get?_perm hperm hnd]
    have h1 : (if value.Term ≠ [] then
          if (sugg.get? value.Term).isNone = true then
            sugg.set value.Term
              { Term := value.Term, Distance := n, Count := value.Count, Definitions := [] }
          else sugg
        else sugg).get? x =
        (sugg.get? x).or (if value.Term ≠ [] ∧ x = value.Term then
          some { Term := value.Term, Distance := n, Count := value.Count, Definitions := [] }
          else none) := by
      by_cases hterm : value.Term ≠ []
      · rw [if_pos hterm]
        by_cases hx : x = value.Term
        · rw [if_pos (show value.Term ≠ [] ∧ x = value.Term from ⟨hterm, hx⟩)]
          subst hx
          cases hs : sugg.get? value.Term with
          | none =>
            rw [if_pos (by rfl), GoMap.get?_set_self]
            rfl
          | some it =>
            rw [if_neg (by simp), hs]
            rfl
        · rw [if_neg (show ¬ (value.Term ≠ [] ∧ x = value.Term) from fun h => hx h.2),
            Option.or_none]
          split
          · rw [GoMap.get?_set_ne _ _ _ hx]
          · rfl
      · rw [if_neg hterm,
          if_neg (show ¬ (value.Term ≠ [] ∧ x = value.Term) from fun h => hterm h.1),
          Option.or_none]
    rw [h1, Option.or_assoc]
    congr 1
    by_cases hc : value.Term ≠ [] ∧ x = value.Term
    · rw [if_pos hc, if_pos hc]
      rfl
    · rw [if_neg hc, if_neg hc]
      rfl

theorem lookupSuggest_nodup (dict : GoMap GoString DictItem) (q k : GoString) (n : Nat)
    (sugg : GoMap GoString SuggestItem) (p : GoString × Nat)
    (h : (sugg.map Prod.fst).Nodup) :
    ((lookupSuggest dict q k n sugg p).map Prod.fst).Nodup := by
  unfold lookupSuggest
  simp only
  split
  · split
    · split
      · exact GoMap.nodup_set h _ _
      · exact h
    · exact h
  · exact h

theorem lookupEntry_nodup (dict : GoMap GoString DictItem) (q k : GoString) (n : Nat)
    (sugg : GoMap GoString SuggestItem) (o : Oracle) (h : (sugg.map Prod.fst).Nodup) :
    ((lookupEntry dict q k n sugg o).1.map Prod.fst).Nodup := by
  unfold lookupEntry
  split
  · simp only
    have key : ∀ (L : GoMap GoString Nat) (s : GoMap GoString SuggestItem),
        (s.map Prod.fst).Nodup →
        ((L.foldl (lookupSuggest dict q k n) s).map Prod.fst).Nodup := by
      intro L
      induction L with
      | nil => intro s hs; exact hs
      | cons p L ih =>
        intro s hs
        rw [List.foldl_cons]
        exact ih _ (lookupSuggest_nodup dict q k n s p hs)
    apply key
    split
    · split
      · exact GoMap.nodup_set h _ _
      · exact h
    · exact h
  · exact h

theorem CandInv_del {q : GoString} {cands : GoMap GoString Nat} (h : CandInv q cands)
    (k : GoString) : CandInv q (cands.del k) := by
  intro c n hc
  rw [GoMap.get?_del] at hc
  split at hc
  · exact absurd hc (by simp)
  · exact h c n hc

theorem CandInv_expand {q : GoString} {cands : GoMap GoString Nat} (h : CandInv q cands)
    (k : GoString) (n : Nat) (hk : cands.get? k = some n) (o : Oracle) :
    CandInv q (lookupExpand k n (cands.del k) o).1 := by
  intro c m hc
  rw [lookupExpand_get?] at hc
  cases hg : (cands.del k).get? c with
  | some m' =>
    rw [hg] at hc
    simp only [Option.some.injEq] at hc
    subst hc
    exact CandInv_del h k c m' hg
  | none =>
    rw [hg] at hc
    simp only at hc
    split at hc
    · rename_i hlt
      obtain ⟨-, h2, h3, h4⟩ := (Edits_single_iff k n c m).1 hc
      obtain ⟨a1, a2, a3⟩ := h k n hk
      unfold EDIT_DISTANCE at *
      exact ⟨h3.trans a1, by omega, by omega⟩
    · exact absurd hc (by simp)

theorem CandInv_init (q : GoString) : CandInv q (GoMap.set ([] : GoMap GoString Nat) q 0) := by
  intro c n hc
  rw [GoMap.get?_set] at hc
  split at hc
  · rename_i h
    simp only [Option.some.injEq] at hc
    subst h; subst hc
    exact ⟨List.Sublist.refl _, rfl, Nat.zero_le _⟩
  · simp [GoMap.get?] at hc

/-- The base invariant survives the processing of any candidate. -/
theorem BaseInv_step (dict : GoMap GoString DictItem) (hd : DictInv dict) (q : GoString)
    (cands : GoMap GoString Nat) (sugg : GoMap GoString SuggestItem) (k : GoString) (n : Nat)
    (o1 o2 : Oracle) (hI : BaseInv dict q cands sugg) (hk : cands.get? k = some n) :
    n ≤ EDIT_DISTANCE ∧
      BaseInv dict q (lookupExpand k n (cands.del k) o2).1 (lookupEntry dict q k n sugg o1).1 := by
  obtain ⟨hc, hn, hs⟩ := hI
  obtain ⟨a1, a2, a3⟩ := hc k n hk
  refine ⟨a3, CandInv_expand hc k n hk o2, lookupEntry_nodup dict q k n sugg o1 hn, ?_⟩
  intro x it hx
  rw [lookupEntry_get? dict hd] at hx
  rcases Option.or_eq_some.1 hx with h | ⟨-, h⟩
  · exact hs x it h
  · exact ⟨k, n, a1, a2, a3, h⟩

theorem BaseInv_init (dict : GoMap GoString DictItem) (q : GoString) :
    BaseInv dict q (GoMap.set ([] : GoMap GoString Nat) q 0) [] :=
  ⟨CandInv_init q, by simp, fun x it h => by simp [GoMap.get?] at h⟩

theorem candWeight_init (q : GoString) :
    candWeight (GoMap.set ([] : GoMap GoString Nat) q 0) ≤ lookupFuel q := by
  unfold GoMap.set GoMap.del lookupFuel
  simp [candWeight, candWeight1]
  omega

end Symspell

namespace Symspell

/-! ## What a candidate contributes -/

theorem contrib_cases {dict : GoMap GoString DictItem} {q k : GoString} {n : Nat}
    {x : GoString} {it : SuggestItem} (h : contrib dict q k n x = some it) :
    ∃ value, dict.get? k = some value ∧
      ((value.Term ≠ [] ∧ x = value.Term ∧
          it = { Term := value.Term, Distance := n, Count := value.Count, Definitions := [] }) ∨
       (∃ sd v2, value.Suggestions.get? x = some sd ∧ dict.get? x = some v2 ∧
          TrueDistance x sd k n q ≤ EDIT_DISTANCE ∧
          it = { Term := v2.Term, Distance := TrueDistance x sd k n q, Count := v2.Count,
                 Definitions := [] })) := by
  unfold contrib at h
  cases hk : dict.get? k with
  | none => rw [hk] at h; exact absurd h (by simp)
  | some value =>
    rw [hk] at h
    simp only at h
    refine ⟨value, rfl, ?_⟩
    by_cases hc : value.Term ≠ [] ∧ x = value.Term
    · rw [if_pos hc] at h
      simp only [Option.some.injEq] at h
      exact Or.inl ⟨hc.1, hc.2, h.symm⟩
    · rw [if_neg hc] at h
      right
      cases hs : value.Suggestions.get? x with
      | none => rw [hs] at h; exact absurd h (by simp)
      | some sd =>
        rw [hs] at h
        simp only [Option.some_bind] at h
        unfold suggestItemOf at h
        by_cases hle : TrueDistance x sd k n q ≤ EDIT_DISTANCE
        · rw [if_pos hle] at h
          cases hx : dict.get? x with
          | none => rw [hx] at h; exact absurd h (by simp)
          | some v2 =>
            rw [hx] at h
            simp only [Option.map_some', Option.some.injEq] at h
            exact ⟨sd, v2, rfl, rfl, hle, h.symm⟩
        · rw [if_neg hle] at h
          exact absurd h (by simp)

/-- A recorded item carries its key as term and the count of that term's entry. -/
theorem contrib_key {dict : GoMap GoString DictItem} (hd : DictInv dict) {q k : GoString}
    {n : Nat} {x : GoString} {it : SuggestItem} (h : contrib dict q k n x = some it) :
    it.Term = x ∧ ∃ e, dict.get? x = some e ∧ e.Term = x ∧ it.Count = e.Count := by
  obtain ⟨value, hk, h1 | ⟨sd, v2, h2, h3, h4, h5⟩⟩ := contrib_cases h
  · obtain ⟨a1, a2, a3⟩ := h1
    subst a3
    refine ⟨a2.symm, value, ?_, a2.symm, rfl⟩
    rcases hd.term_key k value hk with h0 | h0
    · exact absurd h0 a1
    · rw [a2, h0]; exact hk
  · subst h5
    obtain ⟨⟨es, b1, b2⟩, -⟩ := hd.sugg_sound k value x sd hk h2
    rw [h3] at b1
    simp only [Option.some.injEq] at b1
    subst b1
    exact ⟨b2, v2, h3, b2, rfl⟩

theorem sublist_eq_of_length_add {k q : GoString} (h : k.Sublist q)
    (hl : k.length + 0 = q.length) : k = q :=
  h.eq_of_length (by omega)

/-- On ASCII data a recorded distance is the edit distance, and it is within the bound. -/
theorem contrib_dist {dict : GoMap GoString DictItem} (hd : DictInv dict) {q k : GoString}
    (hq : isASCII q) (hterms : ∀ t e, dict.get? t = some e → e.Term = t → isASCII t)
    {n : Nat} (hk1 : k.Sublist q) (hk2 : k.length + n = q.length) (hk3 : n ≤ EDIT_DISTANCE)
    {x : GoString} {it : SuggestItem} (h : contrib dict q k n x = some it) :
    it.Distance = LevDistance x q ∧ it.Distance ≤ EDIT_DISTANCE := by
  obtain ⟨value, hk, h1 | ⟨sd, v2, h2, h3, h4, h5⟩⟩ := contrib_cases h
  · obtain ⟨a1, a2, a3⟩ := h1
    subst a3
    have hxk : x = k := by
      rcases hd.term_key k value hk with h0 | h0
      · exact absurd h0 a1
      · rw [a2, h0]
    subst hxk
    refine ⟨?_, hk3⟩
    rw [LevDistance_comm', LevDistance_of_sublist hq hk1]
    simp only
    omega
  · subst h5
    refine ⟨?_, h4⟩
    simp only
    obtain ⟨⟨es, b1, b2⟩, b3⟩ := hd.sugg_sound k value x sd hk h2
    obtain ⟨c1, c2, c3, c4, c5⟩ := (Edits_full_iff x k sd).1 b3
    have hx : isASCII x := hterms x es b1 b2
    unfold TrueDistance
    by_cases hxq : x = q
    · rw [if_pos hxq, hxq, LevDistance_self']
    · rw [if_neg hxq, if_neg (by omega)]
      by_cases hn : n = 0
      · rw [if_pos hn]
        subst hn
        have : k = q := sublist_eq_of_length_add hk1 hk2
        subst this
        rw [LevDistance_of_sublist hx c1]
        omega
      · rw [if_neg hn]

/-! ## Running `Lookup` under an invariant -/

theorem Lookup_rule (s : SymSpell) (q : GoString)
    (I : GoMap GoString Nat → GoMap GoString SuggestItem → Prop)
    (hstep : ∀ cands sugg k n o1 o2, I cands sugg → cands.get? k = some n →
      n ≤ EDIT_DISTANCE ∧
      I (lookupExpand k n (cands.del k) o2).1 (lookupEntry s.Dictionary q k n sugg o1).1)
    (hinit : I (GoMap.set ([] : GoMap GoString Nat) q 0) []) (extra : Nat) (o : Oracle) :
    ∃ r : GoMap GoString SuggestItem × Oracle,
      Lookup (lookupFuel q + extra) s q o = some ((rangeOrder r.1 r.2).1.map Prod.snd) ∧
      I [] r.1 := by
  obtain ⟨r, hr, hI⟩ := lookupLoop_rule s.Dictionary q I hstep (lookupFuel q + extra) _ [] o
    (by have := candWeight_init q; omega) hinit
  refine ⟨r, ?_, hI⟩
  unfold Lookup
  rw [hr]

theorem mem_items_iff {sugg : GoMap GoString SuggestItem} (hn : (sugg.map Prod.fst).Nodup)
    (o : Oracle) (it : SuggestItem) :
    it ∈ (rangeOrder sugg o).1.map Prod.snd ↔ ∃ x, sugg.get? x = some it := by
  constructor
  · intro h
    obtain ⟨⟨x, it'⟩, hm, rfl⟩ := List.mem_map.1 h
    exact ⟨x, GoMap.get?_of_mem_nodup hn ((rangeOrder_perm sugg o).mem_iff.1 hm)⟩
  · rintro ⟨x, hx⟩
    exact List.mem_map.2 ⟨(x, it), (rangeOrder_perm sugg o).mem_iff.2 (GoMap.mem_of_get? hx), rfl⟩

/-- With distinct keys that are the terms of their items, exactly one item has term `t`. -/
theorem items_filter_eq {sugg : GoMap GoString SuggestItem} (hn : (sugg.map Prod.fst).Nodup)
    (hkey : ∀ x it, sugg.get? x = some it → it.Term = x) (o : Oracle) (t : GoString)
    (it0 : SuggestItem) (h0 : sugg.get? t = some it0) :
    ((rangeOrder sugg o).1.map Prod.snd).filter (fun it => decide (it.Term = t)) = [it0] := by
  have hperm := rangeOrder_perm sugg o
  have hterm : (sugg.map Prod.snd).map (fun it => it.Term) = sugg.map Prod.fst := by
    rw [List.map_map]
    apply List.map_congr_left
    rintro ⟨x, it⟩ hm
    exact hkey x it (GoMap.get?_of_mem_nodup hn hm)
  have hnd : (((rangeOrder sugg o).1.map Prod.snd).map (fun it => it.Term)).Nodup := by
    have : (((rangeOrder sugg o).1.map Prod.snd).map (fun it => it.Term)).Perm
        ((sugg.map Prod.snd).map (fun it => it.Term)) := (hperm.map _).map _
    rw [this.nodup_iff, hterm]
    exact hn
  have hmem : it0 ∈ (rangeOrder sugg o).1.map Prod.snd := (mem_items_iff hn o it0).2 ⟨t, h0⟩
  have hT0 : it0.Term = t := hkey t it0 h0
  generalize (rangeOrder sugg o).1.map Prod.snd = items at hnd hmem
  induction items with
  | nil => simp at hmem
  | cons a items ih =>
    simp only [List.map_cons, List.nodup_cons, List.mem_map, not_exists, not_and] at hnd
    rw [List.filter_cons]
    rcases List.mem_cons.1 hmem with h | h
    · subst h
      simp only [hT0, decide_True, ↓reduceIte, List.cons.injEq, true_and]
      rw [List.filter_eq_nil_iff]
      intro b hb
      simp only [decide_eq_true_eq]
      intro hbt
      exact hnd.1 b hb (hbt.trans hT0.symm)
    · have hat : a.Term ≠ t := by
        intro hat
        exact hnd.1 it0 h (hT0.trans hat.symm)
      simp only [hat, decide_False, Bool.false_eq_true, ↓reduceIte]
      exact ih hnd.2 h

end Symspell

namespace Symspell

/-! ## Recall -/

/-- The candidate `c0`, a common delete variant of the input and of the term `t`, records
`t` when it is processed. -/
theorem contrib_recall {dict : GoMap GoString DictItem} (hd : DictInv dict) {q t c0 : GoString}
    {et : DictItem} (ht : dict.get? t = some et) (htT : et.Term = t)
    (hc0 : c0 ≠ []) (hct : c0.Sublist t) (hlt : t.length - c0.length ≤ 2)
    (hdist : LevDistance t q ≤ EDIT_DISTANCE) (n : Nat) :
    (contrib dict q c0 n t).isSome = true := by
  have htne : t ≠ [] := by
    intro h0
    rw [h0, hd.no_empty] at ht
    exact absurd ht (by simp)
  unfold contrib
  by_cases hct0 : c0 = t
  · subst hct0
    rw [ht]
    simp only
    rw [if_pos ⟨by rw [htT]; exact htne, htT.symm⟩]
    rfl
  · have hlen : c0.length < t.length := by
      rcases Nat.lt_or_ge c0.length t.length with h | h
      · exact h
      · exact absurd (hct.eq_of_length (Nat.le_antisymm hct.length_le h)) hct0
    have hE : (Edits t 0 none true).get? c0 = some (t.length - c0.length) :=
      (Edits_full_iff t c0 _).2 ⟨hct, hc0, by omega, by omega, hlt⟩
    obtain ⟨e, he, hes⟩ := hd.sugg_complete t et ht htT c0 _ hE
    rw [he]
    simp only
    have hcond : ¬ (e.Term ≠ [] ∧ t = e.Term) := by
      rintro ⟨h1, h2⟩
      rcases hd.term_key c0 e he with h0 | h0
      · exact h1 h0
      · exact hct0 (h0.symm.trans h2.symm)
    rw [if_neg hcond, hes]
    simp only [Option.some_bind]
    unfold suggestItemOf
    have hTD : TrueDistance t (t.length - c0.length) c0 n q ≤ EDIT_DISTANCE := by
      unfold TrueDistance
      split
      · exact Nat.zero_le _
      · split
        · omega
        · split
          · exact hlt
          · exact hdist
    rw [if_pos hTD, ht]
    rfl

theorem RecallInv_step {dict : GoMap GoString DictItem} (hd : DictInv dict) {q t c0 : GoString}
    {et : DictItem} (ht : dict.get? t = some et) (htT : et.Term = t)
    (hc0 : c0 ≠ []) (hct : c0.Sublist t) (hlt : t.length - c0.length ≤ 2)
    (hlq : q.length - c0.length ≤ 2)
    (hdist : LevDistance t q ≤ EDIT_DISTANCE)
    (cands : GoMap GoString Nat) (sugg : GoMap GoString SuggestItem) (k : GoString) (n : Nat)
    (o1 o2 : Oracle) (hI : RecallInv dict q t c0 cands sugg) (hk : cands.get? k = some n) :
    n ≤ EDIT_DISTANCE ∧
      RecallInv dict q t c0 (lookupExpand k n (cands.del k) o2).1
        (lookupEntry dict q k n sugg o1).1 := by
  obtain ⟨hB, hR⟩ := hI
  obtain ⟨hn, hB'⟩ := BaseInv_step dict hd q cands sugg k n o1 o2 hB hk
  refine ⟨hn, hB', ?_⟩
  rcases hR with hR | ⟨p, m, hp, hcp⟩
  · left
    rw [lookupEntry_get? dict hd]
    obtain ⟨it, hit⟩ := Option.isSome_iff_exists.1 hR
    rw [hit]
    rfl
  · by_cases hpk : p = k
    · subst hpk
      rw [hk] at hp
      simp only [Option.some.injEq] at hp
      subst hp
      obtain ⟨a1, a2, a3⟩ := hB.1 p n hk
      by_cases hcp0 : c0 = p
      · subst hcp0
        left
        rw [lookupEntry_get? dict hd]
        obtain ⟨it, hit⟩ := Option.isSome_iff_exists.1
          (contrib_recall hd ht htT hc0 hct hlt hdist n (q := q))
        rw [hit]
        cases sugg.get? t <;> rfl
      · right
        have hlen : c0.length < p.length := by
          rcases Nat.lt_or_ge c0.length p.length with h | h
          · exact h
          · exact absurd (hcp.eq_of_length (Nat.le_antisymm hcp.length_le h)) hcp0
        have hc0pos : 0 < c0.length := List.length_pos.2 hc0
        obtain ⟨i, hi, hsub⟩ := sublist_deleteAt hcp hlen
        have hE : (Edits p n none false).get? (deleteAt p i) = some (n + 1) :=
          (Edits_single_iff p n _ _).2 ⟨by omega, rfl, deleteAt_sublist p i,
            by rw [deleteAt_length p i hi]; omega⟩
        have hlt2 : n < EDIT_DISTANCE := by unfold EDIT_DISTANCE; omega
        have : ((lookupExpand p n (cands.del p) o2).1.get? (deleteAt p i)).isSome = true := by
          rw [lookupExpand_get?]
          cases (cands.del p).get? (deleteAt p i) with
          | some m => rfl
          | none => simp only [if_pos hlt2, hE]; rfl
        obtain ⟨m, hm⟩ := Option.isSome_iff_exists.1 this
        refine ⟨deleteAt p i, m, hm, ?_⟩
        rw [deleteAt_eq_eraseIdx]
        exact hsub
    · right
      refine ⟨p, m, ?_, hcp⟩
      rw [lookupExpand_get?, GoMap.get?_del, if_neg hpk, hp]

/-- Recall, given a common delete variant: any run of `Lookup` on the input returns the
term. -/
theorem Lookup_recall_core (s : SymSpell) (hd : DictInv s.Dictionary) {q t c0 : GoString}
    {et : DictItem} (ht : s.Dictionary.get? t = some et) (htT : et.Term = t)
    (hc0 : c0 ≠ []) (hct : c0.Sublist t) (hcq : c0.Sublist q)
    (hlt : t.length - c0.length ≤ 2) (hlq : q.length - c0.length ≤ 2)
    (hdist : LevDistance t q ≤ EDIT_DISTANCE) (extra : Nat) (o : Oracle) :
    ∃ items, Lookup (lookupFuel q + extra) s q o = some items ∧
      ∃ it ∈ items, it.Term = t ∧ it.Count = et.Count := by
  obtain ⟨r, hr, hB, hR⟩ := Lookup_rule s q (RecallInv s.Dictionary q t c0)
    (fun cands sugg k n o1 o2 hI hk =>
      RecallInv_step hd ht htT hc0 hct hlt hlq hdist cands sugg k n o1 o2 hI hk)
    ⟨BaseInv_init _ q, Or.inr ⟨q, 0, GoMap.get?_set_self _ _ _, hcq⟩⟩ extra o
  refine ⟨_, hr, ?_⟩
  rcases hR with hR | ⟨p, n, hp, -⟩
  · obtain ⟨it, hit⟩ := Option.isSome_iff_exists.1 hR
    obtain ⟨k, n, -, -, -, hc⟩ := hB.2.2 t it hit
    obtain ⟨h1, e, h2, h3, h4⟩ := contrib_key hd hc
    rw [ht] at h2
    simp only [Option.some.injEq] at h2
    subst h2
    exact ⟨it, (mem_items_iff hB.2.1 r.2 it).2 ⟨t, hit⟩, h1, h4⟩
  · simp [GoMap.get?] at hp

/-! ## Exact match -/

theorem ExactInv_step {dict : GoMap GoString DictItem} (hd : DictInv dict) {t : GoString}
    {et : DictItem} (ht : dict.get? t = some et) (htT : et.Term = t)
    (cands : GoMap GoString Nat) (sugg : GoMap GoString SuggestItem) (k : GoString) (n : Nat)
    (o1 o2 : Oracle) (hI : ExactInv dict t et.Count cands sugg) (hk : cands.get? k = some n) :
    n ≤ EDIT_DISTANCE ∧
      ExactInv dict t et.Count (lookupExpand k n (cands.del k) o2).1
        (lookupEntry dict t k n sugg o1).1 := by
  have htne : t ≠ [] := by
    intro h0
    rw [h0, hd.no_empty] at ht
    exact absurd ht (by simp)
  obtain ⟨hB, hR⟩ := hI
  obtain ⟨hn, hB'⟩ := BaseInv_step dict hd t cands sugg k n o1 o2 hB hk
  refine ⟨hn, hB', Or.inr ?_⟩
  rcases hR with ⟨h1, h2⟩ | ⟨it, h1, h2, h3⟩
  · rw [h1 k] at hk
    split at hk
    · rename_i hkt
      simp only [Option.some.injEq] at hk
      subst hkt; subst hk
      refine ⟨{ Term := et.Term, Distance := 0, Count := et.Count, Definitions := [] }, ?_, rfl,
        rfl⟩
      rw [lookupEntry_get? dict hd, h2 k]
      unfold contrib
      rw [ht]
      simp only [Option.none_or]
      rw [if_pos ⟨by rw [htT]; exact htne, htT.symm⟩]
    · exact absurd hk (by simp)
  · refine ⟨it, ?_, h2, h3⟩
    rw [lookupEntry_get? dict hd, h1]
    rfl

/-- Exact match: any run of `Lookup` on a term of the dictionary returns exactly one item
with that term, at distance 0 and with the count of its entry. -/
theorem Lookup_exact_core (s : SymSpell) (hd : DictInv s.Dictionary) {t : GoString}
    {et : DictItem} (ht : s.Dictionary.get? t = some et) (htT : et.Term = t)
    (extra : Nat) (o : Oracle) :
    ∃ items it0, Lookup (lookupFuel t + extra) s t o = some items ∧
      items.filter (fun it => decide (it.Term = t)) = [it0] ∧
      it0.Distance = 0 ∧ it0.Count = et.Count := by
  obtain ⟨r, hr, hB, hR⟩ := Lookup_rule s t (ExactInv s.Dictionary t et.Count)
    (fun cands sugg k n o1 o2 hI hk => ExactInv_step hd ht htT cands sugg k n o1 o2 hI hk)
    ⟨BaseInv_init _ t, Or.inl ⟨fun c => by
      rw [GoMap.get?_set]; rfl, fun x => rfl⟩⟩ extra o
  rcases hR with ⟨h1, -⟩ | ⟨it, h1, h2, h3⟩
  · have := h1 t
    simp [GoMap.get?] at this
  · refine ⟨_, it, hr, ?_, h2, h3⟩
    apply items_filter_eq hB.2.1 _ r.2 t it h1
    intro x it' hx
    obtain ⟨k, n, -, -, -, hc⟩ := hB.2.2 x it' hx
    exact (contrib_key hd hc).1

/-! ## Distances of the returned items -/

/-- On ASCII data every returned item carries the edit distance between its term and the
input, and that distance is within the bound. -/
theorem Lookup_dist_core (s : SymSpell) (hd : DictInv s.Dictionary) {q : GoString}
    (hq : isASCII q) (hterms : ∀ t e, s.Dictionary.get? t = some e → e.Term = t → isASCII t)
    (extra : Nat) (o : Oracle) :
    ∃ items, Lookup (lookupFuel q + extra) s q o = some items ∧
      ∀ it ∈ items, it.Distance = LevDistance it.Term q ∧ it.Distance ≤ EDIT_DISTANCE := by
  obtain ⟨r, hr, hB⟩ := Lookup_rule s q (BaseInv s.Dictionary q)
    (fun cands sugg k n o1 o2 hI hk => BaseInv_step _ hd q cands sugg k n o1 o2 hI hk)
    (BaseInv_init _ q) extra o
  refine ⟨_, hr, ?_⟩
  intro it hit
  obtain ⟨x, hx⟩ := (mem_items_iff hB.2.1 r.2 it).1 hit
  obtain ⟨k, n, a1, a2, a3, hc⟩ := hB.2.2 x it hx
  rw [(contrib_key hd hc).1]
  exact contrib_dist hd hq hterms a1 a2 a3 hc

theorem runCalls_terms_ascii (calls : List Call) (h : ∀ c ∈ calls, isASCII c.term) :
    ∀ t e, (runCalls calls).Dictionary.get? t = some e → e.Term = t → isASCII t := by
  intro t e ht hT
  obtain ⟨c, hc, rfl⟩ := runCalls_term_ingested calls t e ht hT
  exact h c hc

end Symspell

namespace Symspell

/-! ## Neighbouring cells of the table differ by at most one -/

/-- Every cell is at most the sum of the lengths of the two prefixes. -/
theorem LevSpec.upper {s1 s2 : List Rune} {H : Table} (hs : LevSpec s1 s2 H) :
    ∀ N i j, i + j = N → i ≤ s1.length → j ≤ s2.length →
      H (i + 1) (j + 1) ≤ (i : Int) + (j : Int) := by
  intro N
  induction N using Nat.strong_induction_on with
  | _ N ih =>
    intro i j hN hi hj
    rcases Nat.eq_zero_or_pos i with h0 | hipos
    · subst h0
      rw [hs.row1 j hj]
      omega
    rcases Nat.eq_zero_or_pos j with h0 | hjpos
    · subst h0
      rw [hs.col1 i hi]
      omega
    obtain ⟨i', rfl⟩ : ∃ i', i = i' + 1 := ⟨i - 1, by omega⟩
    obtain ⟨j', rfl⟩ : ∃ j', j = j' + 1 := ⟨j - 1, by omega⟩
    have hc := hs.cell (i' + 1) (j' + 1) hipos hi hjpos hj
    unfold CellEq levBase at hc
    simp only [Nat.add_sub_cancel] at hc
    have ha := ih (i' + j') (by omega) i' j' rfl (by omega) (by omega)
    push_cast
    split at hc <;> omega

/-- A matching pair of characters costs nothing. -/
theorem LevSpec.match_le {s1 s2 : List Rune} {H : Table} (hs : LevSpec s1 s2 H) (i j : Nat)
    (hi : i + 1 ≤ s1.length) (hj : j + 1 ≤ s2.length) (hm : s1.getD i 0 = s2.getD j 0) :
    H (i + 2) (j + 2) ≤ H (i + 1) (j + 1) := by
  have hc := hs.cell (i + 1) (j + 1) (by omega) hi (by omega) hj
  unfold CellEq levBase at hc
  simp only [Nat.add_sub_cancel] at hc
  rw [if_pos hm] at hc
  show H (i + 1 + 1) (j + 1 + 1) ≤ H (i + 1) (j + 1)
  omega

theorem LipR.chain_down {s1 s2 : List Rune} {H : Table} {N : Nat} (h : LipR s1 s2 H N) (j : Nat)
    (hj : j ≤ s2.length) (i : Nat) :
    ∀ d, i + d + j ≤ N → i + d ≤ s1.length →
      H (i + d + 1) (j + 1) ≤ H (i + 1) (j + 1) + (d : Int) := by
  intro d
  induction d with
  | zero => intro _ _; simp
  | succ d ih =>
    intro h1 h2
    have := ih (by omega) (by omega)
    have h3 := (h (i + d) j (by omega) (by omega) hj).1
    have e : i + (d + 1) + 1 = i + d + 2 := by omega
    rw [e]
    push_cast
    omega

theorem LipC.chain_across {s1 s2 : List Rune} {H : Table} {N : Nat} (h : LipC s1 s2 H N) (i : Nat)
    (hi : i ≤ s1.length) (j : Nat) :
    ∀ d, i + (j + d) ≤ N → j + d ≤ s2.length →
      H (i + 1) (j + d + 1) ≤ H (i + 1) (j + 1) + (d : Int) := by
  intro d
  induction d with
  | zero => intro _ _; simp
  | succ d ih =>
    intro h1 h2
    have := ih (by omega) (by omega)
    have h3 := (h i (j + d) (by omega) hi (by omega)).1
    have e : j + (d + 1) + 1 = j + d + 2 := by omega
    rw [e]
    push_cast
    omega

/-- The transposition term is at least the two neighbours of the cell. -/
theorem LevSpec.trans_ge {s1 s2 : List Rune} {H : Table} (hs : LevSpec s1 s2 H) {N : Nat}
    (hR : LipR s1 s2 H N) (hC : LipC s1 s2 H N) (i j : Nat) (hN : i + 1 + (j + 1) = N + 1)
    (hi : i + 1 ≤ s1.length) (hj : j + 1 ≤ s2.length) :
    H (i + 1) (j + 2) ≤ levTrans s1 s2 H (i + 1) (j + 1) ∧
      H (i + 2) (j + 1) ≤ levTrans s1 s2 H (i + 1) (j + 1) := by
  show H (i + 1) (j + 1 + 1) ≤ _ ∧ H (i + 1 + 1) (j + 1) ≤ _
  unfold levTrans
  simp only [Nat.add_sub_cancel]
  have hi1 := lastRow_le s1 (s2.getD j 0) i
  have hj1 := lastRow_le s2 (s1.getD i 0) j
  have hg1 := lastRow_get s1 (s2.getD j 0) i
  have hg2 := lastRow_get s2 (s1.getD i 0) j
  generalize lastRow s1 (s2.getD j 0) i = i1 at hi1 hg1
  generalize lastRow s2 (s1.getD i 0) j = j1 at hj1 hg2
  by_cases h0 : i1 = 0 ∨ j1 = 0
  · rw [hs.border i1 j1 (by omega) (by omega) h0]
    have u1 := hs.upper _ i (j + 1) rfl (by omega) hj
    have u2 := hs.upper _ (i + 1) j rfl hi (by omega)
    push_cast at u1 u2 ⊢
    constructor <;> omega
  · obtain ⟨i2, rfl⟩ : ∃ i2, i1 = i2 + 1 := ⟨i1 - 1, by omega⟩
    obtain ⟨j2, rfl⟩ : ∃ j2, j1 = j2 + 1 := ⟨j1 - 1, by omega⟩
    simp only [Nat.add_sub_cancel, Nat.succ_pos, true_implies] at hg1 hg2
    constructor
    · have a1 := hC.chain_across i2 (by omega) j2 (j - j2) (by omega) (by omega)
      have a2 := hs.match_le i2 j (by omega) hj hg1
      have a3 := hR.chain_down (j + 1) hj (i2 + 1) (i - (i2 + 1)) (by omega) (by omega)
      have e1 : j2 + (j - j2) + 1 = j + 1 := by omega
      have e2 : i2 + 1 + (i - (i2 + 1)) + 1 = i + 1 := by omega
      rw [e1] at a1
      rw [e2] at a3
      push_cast at a1 a3 ⊢
      have e3 : ((j - j2 : Nat) : Int) = (j : Int) - (j2 : Int) := by omega
      have e4 : ((i - (i2 + 1) : Nat) : Int) = (i : Int) - (i2 : Int) - 1 := by omega
      rw [e3] at a1
      rw [e4] at a3
      show H (i + 1) (j + 1 + 1) ≤ _
      have a2' : H (i2 + 1 + 1) (j + 1 + 1) ≤ H (i2 + 1) (j + 1) := a2
      omega
    · have a1 := hR.chain_down j2 (by omega) i2 (i - i2) (by omega) (by omega)
      have a2 := hs.match_le i j2 hi (by omega) hg2.symm
      have a3 := hC.chain_across (i + 1) hi (j2 + 1) (j - (j2 + 1)) (by omega) (by omega)
      have e1 : i2 + (i - i2) + 1 = i + 1 := by omega
      have e2 : j2 + 1 + (j - (j2 + 1)) + 1 = j + 1 := by omega
      rw [e1] at a1
      rw [e2] at a3
      push_cast at a1 a3 ⊢
      have e3 : ((i - i2 : Nat) : Int) = (i : Int) - (i2 : Int) := by omega
      have e4 : ((j - (j2 + 1) : Nat) : Int) = (j : Int) - (j2 : Int) - 1 := by omega
      rw [e3] at a1
      rw [e4] at a3
      show H (i + 1 + 1) (j + 1) ≤ _
      have a2' : H (i + 1 + 1) (j2 + 1 + 1) ≤ H (i + 1) (j2 + 1) := a2
      omega

/-- The four inequalities at a cell on the diagonal sum `N + 1`. -/
theorem LevSpec.lip_cell {s1 s2 : List Rune} {H : Table} (hs : LevSpec s1 s2 H) {N : Nat}
    (hR : LipR s1 s2 H N) (hC : LipC s1 s2 H N) (i j : Nat) (hN : i + 1 + (j + 1) = N + 1)
    (hi : i + 1 ≤ s1.length) (hj : j + 1 ≤ s2.length) :
    (H (i + 2) (j + 2) ≤ H (i + 1) (j + 2) + 1 ∧ H (i + 1) (j + 2) ≤ H (i + 2) (j + 2) + 1) ∧
    (H (i + 2) (j + 2) ≤ H (i + 2) (j + 1) + 1 ∧ H (i + 2) (j + 1) ≤ H (i + 2) (j + 2) + 1) := by
  obtain ⟨k1, k2⟩ := hs.trans_ge hR hC i j hN hi hj
  have c1 := hC i j (by omega) (by omega) hj
  have r1 := hR i j (by omega) hi (by omega)
  have hc := hs.cell (i + 1) (j + 1) (by omega) hi (by omega) hj
  unfold CellEq levBase at hc
  simp only [Nat.add_sub_cancel] at hc
  generalize levTrans s1 s2 H (i + 1) (j + 1) = T at hc k1 k2
  have e1 : H (i + 2) (j + 2) = H (i + 1 + 1) (j + 1 + 1) := rfl
  have e2 : H (i + 1) (j + 2) = H (i + 1) (j + 1 + 1) := rfl
  have e3 : H (i + 2) (j + 1) = H (i + 1 + 1) (j + 1) := rfl
  rw [e1, e2, e3] at *
  split at hc <;> omega

/-- Adjacent cells of the table differ by at most one. -/
theorem LevSpec.lip {s1 s2 : List Rune} {H : Table} (hs : LevSpec s1 s2 H) :
    ∀ N, LipR s1 s2 H N ∧ LipC s1 s2 H N := by
  intro N
  induction N with
  | zero =>
    constructor
    · intro i j h; omega
    · intro i j h; omega
  | succ N ih =>
    obtain ⟨hR, hC⟩ := ih
    constructor
    · intro i j h1 h2 h3
      by_cases hle : i + 1 + j ≤ N
      · exact hR i j hle h2 h3
      · rcases Nat.eq_zero_or_pos j with h0 | hjpos
        · subst h0
          rw [hs.col1 (i + 1) h2, hs.col1 i (by omega)]
          push_cast
          constructor <;> omega
        · obtain ⟨j', rfl⟩ : ∃ j', j = j' + 1 := ⟨j - 1, by omega⟩
          exact (hs.lip_cell hR hC i j' (by omega) h2 h3).1
    · intro i j h1 h2 h3
      by_cases hle : i + (j + 1) ≤ N
      · exact hC i j hle h2 h3
      · rcases Nat.eq_zero_or_pos i with h0 | hipos
        · subst h0
          rw [hs.row1 (j + 1) h3, hs.row1 j (by omega)]
          push_cast
          constructor <;> omega
        · obtain ⟨i', rfl⟩ : ∃ i', i = i' + 1 := ⟨i - 1, by omega⟩
          exact (hs.lip_cell hR hC i' j (by omega) h2 h3).2

/-- Moving down `d` rows costs at most `d`. -/
theorem LevSpec.chain_rows {s1 s2 : List Rune} {H : Table} (hs : LevSpec s1 s2 H) (i j d : Nat)
    (hi : i + d ≤ s1.length) (hj : j ≤ s2.length) :
    H (i + d + 1) (j + 1) ≤ H (i + 1) (j + 1) + (d : Int) :=
  (hs.lip (i + d + j)).1.chain_down j hj i d le_rfl hi

/-- Moving right `d` columns costs at most `d`. -/
theorem LevSpec.chain_cols {s1 s2 : List Rune} {H : Table} (hs : LevSpec s1 s2 H) (i j d : Nat)
    (hi : i ≤ s1.length) (hj : j + d ≤ s2.length) :
    H (i + 1) (j + d + 1) ≤ H (i + 1) (j + 1) + (d : Int) :=
  (hs.lip (i + (j + d))).2.chain_across i hi j d le_rfl hj

end Symspell

namespace Symspell

/-! ## Traces -/

theorem tmatched_append (F G : Trace) : tmatched (F ++ G) = tmatched F + tmatched G := by
  simp [tmatched]

theorem tmism_append (b : List Rune) (F G : Trace) :
    tmism b (F ++ G) = tmism b F + tmism b G := by
  simp [tmism]

theorem targets_append (F G : Trace) : targets (F ++ G) = targets F ++ targets G := by
  simp [targets]

theorem targets_cons_some (c : Rune) (j : Nat) (F : Trace) :
    targets ((c, some j) :: F) = j :: targets F := by
  simp [targets]

theorem targets_cons_none (c : Rune) (F : Trace) : targets ((c, none) :: F) = targets F := by
  simp [targets]

theorem mem_targets {F : Trace} {j : Nat} : j ∈ targets F ↔ ∃ c, (c, some j) ∈ F := by
  simp [targets, List.mem_filterMap]

theorem tcrossOf_append (p : Rune × Option Nat) (F G : Trace) :
    tcrossOf p (F ++ G) = tcrossOf p F + tcrossOf p G := by
  unfold tcrossOf
  cases p.2 with
  | none => rfl
  | some j => simp

theorem tcross_nil_left (G : Trace) : tcross [] G = 0 := rfl

theorem tcross_cons_left (p : Rune × Option Nat) (F G : Trace) :
    tcross (p :: F) G = tcrossOf p G + tcross F G := by
  simp [tcross]

theorem tcross_append_left (F1 F2 G : Trace) :
    tcross (F1 ++ F2) G = tcross F1 G + tcross F2 G := by
  simp [tcross]

theorem tcross_append_right (F G1 G2 : Trace) :
    tcross F (G1 ++ G2) = tcross F G1 + tcross F G2 := by
  induction F with
  | nil => rfl
  | cons p F ih =>
    rw [tcross_cons_left, tcross_cons_left, tcross_cons_left, ih, tcrossOf_append]
    omega

theorem tcross_nil_right (F : Trace) : tcross F [] = 0 := by
  induction F with
  | nil => rfl
  | cons p F ih =>
    rw [tcross_cons_left, ih]
    unfold tcrossOf
    cases p.2 <;> rfl

theorem tinv_append (F G : Trace) : tinv (F ++ G) = tinv F + tcross F G + tinv G := by
  induction F with
  | nil => simp [tinv, tcross]
  | cons p F ih =>
    rw [List.cons_append, tinv, tinv, ih, tcross_cons_left, tcrossOf_append]
    omega

theorem tcross_single_none (F : Trace) (c : Rune) : tcross F [(c, none)] = 0 := by
  induction F with
  | nil => rfl
  | cons p F ih =>
    rw [tcross_cons_left, ih]
    unfold tcrossOf
    cases p.2 with
    | none => rfl
    | some j => simp [tbelow]

theorem tcross_single_some (F : Trace) (c : Rune) (l : Nat) :
    tcross F [(c, some l)] = F.countP (tabove l) := by
  induction F with
  | nil => rfl
  | cons p F ih =>
    rw [tcross_cons_left, ih, List.countP_cons]
    obtain ⟨x, y⟩ := p
    cases y with
    | none => simp [tcrossOf, tabove]
    | some j =>
      simp only [tcrossOf, tabove, List.countP_cons, List.countP_nil, tbelow]
      by_cases h : l < j <;> simp [h] <;> omega

theorem tcrossOf_none (c : Rune) (G : Trace) : tcrossOf (c, none) G = 0 := rfl

theorem tcrossOf_some (c : Rune) (j : Nat) (G : Trace) :
    tcrossOf (c, some j) G = G.countP (tbelow j) := rfl

theorem tinv_cons (p : Rune × Option Nat) (F : Trace) : tinv (p :: F) = tcrossOf p F + tinv F :=
  rfl

theorem tinv_nil : tinv [] = 0 := rfl

theorem TValid.of_append_left {j : Nat} {F G : Trace} (h : TValid j (F ++ G)) : TValid j F := by
  obtain ⟨h1, h2⟩ := h
  rw [targets_append] at h1 h2
  exact ⟨fun r hr => h1 r (List.mem_append_left _ hr), (List.nodup_append.1 h2).1⟩

theorem TValid.of_append_right {j : Nat} {F G : Trace} (h : TValid j (F ++ G)) : TValid j G := by
  obtain ⟨h1, h2⟩ := h
  rw [targets_append] at h1 h2
  exact ⟨fun r hr => h1 r (List.mem_append_right _ hr), (List.nodup_append.1 h2).2.1⟩

theorem TValid.mono {j j' : Nat} {F : Trace} (h : TValid j F) (hj : j ≤ j') : TValid j' F :=
  ⟨fun r hr => Nat.lt_of_lt_of_le (h.bound r hr) hj, h.nodup⟩

/-- A trace whose targets avoid `j` is a trace to the first `j` characters. -/
theorem TValid.shrink {j : Nat} {F : Trace} (h : TValid (j + 1) F) (hj : j ∉ targets F) :
    TValid j F := by
  refine ⟨fun r hr => ?_, h.nodup⟩
  have := h.bound r hr
  have : r ≠ j := fun e => hj (e ▸ hr)
  omega

theorem tmatched_eq_length_targets (F : Trace) : tmatched F = (targets F).length := by
  induction F with
  | nil => rfl
  | cons p F ih =>
    obtain ⟨c, y⟩ := p
    cases y with
    | none =>
      rw [targets_cons_none, ← ih]
      simp [tmatched]
    | some j =>
      rw [targets_cons_some, List.length_cons, ← ih]
      simp [tmatched]

theorem countP_tabove_eq_zero {F : Trace} {l : Nat} (h : ∀ r ∈ targets F, r ≤ l) :
    F.countP (tabove l) = 0 := by
  rw [List.countP_eq_zero]
  rintro ⟨c, y⟩ hp
  cases y with
  | none => simp [tabove]
  | some r =>
    have := h r (mem_targets.2 ⟨c, hp⟩)
    simp [tabove]
    omega

theorem targets_le_of_countP_tabove {F : Trace} {l : Nat} (h : F.countP (tabove l) = 0) :
    ∀ r ∈ targets F, r ≤ l := by
  intro r hr
  obtain ⟨c, hc⟩ := mem_targets.1 hr
  rw [List.countP_eq_zero] at h
  have := h (c, some r) hc
  simp [tabove] at this
  exact this

theorem countP_tbelow_eq_matched {F : Trace} {j : Nat} (h : ∀ r ∈ targets F, r < j) :
    F.countP (tbelow j) = tmatched F := by
  unfold tmatched
  apply List.countP_congr
  rintro ⟨c, y⟩ hp
  cases y with
  | none => simp [tbelow]
  | some r =>
    have := h r (mem_targets.2 ⟨c, hp⟩)
    simp [tbelow, this]

theorem targets_eq_nil_of_matched {F : Trace} (h : tmatched F = 0) : targets F = [] := by
  rw [tmatched_eq_length_targets] at h
  exact List.length_eq_zero.1 h

theorem tcrossOf_of_matched_zero (p : Rune × Option Nat) {G : Trace} (h : tmatched G = 0) :
    tcrossOf p G = 0 := by
  unfold tcrossOf
  cases p.2 with
  | none => rfl
  | some j =>
    simp only
    rw [List.countP_eq_zero]
    rintro ⟨c, y⟩ hp
    cases y with
    | none => simp [tbelow]
    | some r =>
      have : r ∈ targets G := mem_targets.2 ⟨c, hp⟩
      rw [targets_eq_nil_of_matched h] at this
      simp at this

theorem tcross_of_matched_zero (F : Trace) {G : Trace} (h : tmatched G = 0) :
    tcross F G = 0 := by
  induction F with
  | nil => rfl
  | cons p F ih => rw [tcross_cons_left, ih, tcrossOf_of_matched_zero p h]

theorem tinv_of_matched_zero {G : Trace} (h : tmatched G = 0) : tinv G = 0 := by
  induction G with
  | nil => rfl
  | cons p G ih =>
    have h2 : tmatched G = 0 := by
      unfold tmatched at h ⊢
      rw [List.countP_cons] at h
      omega
    rw [tinv_cons, ih h2, tcrossOf_of_matched_zero p h2]

theorem tmism_of_matched_zero (b : List Rune) {G : Trace} (h : tmatched G = 0) :
    tmism b G = 0 := by
  unfold tmism
  rw [List.countP_eq_zero]
  rintro ⟨c, y⟩ hp
  cases y with
  | none => simp [tmis]
  | some r =>
    have : r ∈ targets G := mem_targets.2 ⟨c, hp⟩
    rw [targets_eq_nil_of_matched h] at this
    simp at this

end Symspell

namespace Symspell

/-! ## The table is a lower bound of the cost of every trace -/

theorem lastRow_ge (s : List Rune) (c : Rune) (r : Nat) (hr : 1 ≤ r)
    (hc : s.getD (r - 1) 0 = c) : ∀ i, r ≤ i → r ≤ lastRow s c i := by
  intro i
  induction i with
  | zero => intro h; omega
  | succ i ih =>
    intro h
    unfold lastRow
    by_cases hri : r = i + 1
    · subst hri
      simp only [Nat.add_sub_cancel] at hc
      rw [if_pos hc]
    · split
      · omega
      · exact ih (by omega)

theorem map_fst_snoc {F : Trace} {l : List Rune} {x : Rune}
    (h : F.map Prod.fst = l ++ [x]) :
    ∃ F' y, F = F' ++ [(x, y)] ∧ F'.map Prod.fst = l := by
  obtain ⟨F', G, rfl, h1, h2⟩ := List.map_eq_append_iff.1 h
  obtain ⟨p, G', rfl, h3, h4⟩ := List.map_eq_cons_iff.1 h2
  have : G' = [] := by simpa using h4
  subst this
  obtain ⟨c, y⟩ := p
  simp only at h3
  subst h3
  exact ⟨F', y, rfl, h1⟩

theorem tmatched_single (x : Rune) (y : Option Nat) :
    tmatched [(x, y)] = if y.isSome then 1 else 0 := by
  simp [tmatched, List.countP_cons]

theorem tmism_single (b : List Rune) (p : Rune × Option Nat) :
    tmism b [p] = if tmis b p then 1 else 0 := by
  simp [tmism, List.countP_cons]

theorem tinv_single (p : Rune × Option Nat) : tinv [p] = 0 := by
  rw [tinv_cons, tinv_nil]
  unfold tcrossOf
  cases p.2 <;> rfl

theorem tcost_snoc_none (b : List Rune) (j : Nat) (F : Trace) (x : Rune) :
    tcost b j (F ++ [(x, none)]) = tcost b j F + 1 := by
  unfold tcost
  rw [List.length_append, tmatched_append, tmism_append, tinv_append, tcross_single_none,
    tinv_single, tmatched_single, tmism_single]
  simp [tmis]
  omega

theorem tcost_snoc_some (b : List Rune) (j : Nat) (F : Trace) (x : Rune) (l : Nat) :
    tcost b j (F ++ [(x, some l)]) =
      tcost b j F - 1 + (if b.getD l 0 = x then 0 else 1) + (F.countP (tabove l) : Int) := by
  unfold tcost
  rw [List.length_append, tmatched_append, tmism_append, tinv_append, tcross_single_some,
    tinv_single, tmatched_single, tmism_single]
  simp only [tmis, Option.isSome_some, ↓reduceIte, List.length_singleton, ne_eq,
    decide_not, Bool.not_eq_true', decide_eq_false_iff_not]
  by_cases h : b.getD l 0 = x
  · simp [h]; omega
  · simp [h]; omega

theorem tcost_succ (b : List Rune) (j : Nat) (F : Trace) :
    tcost b (j + 1) F = tcost b j F + 1 := by
  unfold tcost
  push_cast
  omega

/-- Unmatching the element matched to `j` pays for itself when it has a mismatch or a
second crossing. -/
theorem tcost_unmatch (b : List Rune) (j : Nat) (F0 R : Trace) (c : Rune) :
    tcost b (j + 1) (F0 ++ (c, some j) :: R) =
      tcost b j (F0 ++ (c, none) :: R) - 1 + (if b.getD j 0 = c then 0 else 1)
        + (F0.countP (tabove j) : Int) + (R.countP (tbelow j) : Int) := by
  unfold tcost
  have e1 : F0 ++ (c, some j) :: R = F0 ++ ([(c, some j)] ++ R) := rfl
  have e2 : F0 ++ (c, none) :: R = F0 ++ ([(c, none)] ++ R) := rfl
  rw [e1, e2]
  simp only [List.length_append, tmatched_append, tmism_append, tinv_append,
    tcross_append_right, tcross_single_some, tcross_single_none, tinv_single, tmatched_single,
    tmism_single, tcross_cons_left, tcross_nil_left, tcrossOf_some, tcrossOf_none]
  simp only [tmis, Option.isSome_some, Option.isSome_none, ↓reduceIte, List.length_singleton,
    ne_eq, decide_not, Bool.not_eq_true', decide_eq_false_iff_not, Bool.false_eq_true]
  by_cases h : b.getD j 0 = c
  · simp [h]; omega
  · simp [h]; omega

end Symspell

namespace Symspell

theorem countP_tabove_of_matched_zero {M : Trace} (h : tmatched M = 0) (l : Nat) :
    M.countP (tabove l) = 0 :=
  countP_tabove_eq_zero (by
    intro r hr
    rw [targets_eq_nil_of_matched h] at hr
    simp at hr)

/-- Cost of a trace whose last element crosses exactly one other element, with nothing
matched in between. -/
theorem tcost_cross (b : List Rune) (j l : Nat) (hl : l < j) (F0 M : Trace) (c x : Rune)
    (hM : tmatched M = 0) (h0 : ∀ r ∈ targets F0, r < l)
    (hc : b.getD j 0 = c) (hx : b.getD l 0 = x) :
    tcost b (j + 1) (F0 ++ (c, some j) :: (M ++ [(x, some l)])) =
      tcost b l F0 + (M.length : Int) + ((j : Int) - (l : Int)) := by
  unfold tcost
  have e1 : F0 ++ (c, some j) :: (M ++ [(x, some l)])
      = F0 ++ ([(c, some j)] ++ (M ++ [(x, some l)])) := rfl
  rw [e1]
  have a1 : F0.countP (tabove j) = 0 :=
    countP_tabove_eq_zero (fun r hr => by have := h0 r hr; omega)
  have a2 : F0.countP (tabove l) = 0 :=
    countP_tabove_eq_zero (fun r hr => by have := h0 r hr; omega)
  have a3 : M.countP (tabove l) = 0 := countP_tabove_of_matched_zero hM l
  have a4 : M.countP (tbelow j) = 0 := by
    have : M.countP (tbelow j) ≤ tmatched M := by
      unfold tmatched
      apply List.countP_mono_left
      rintro ⟨c, y⟩ _ hy
      cases y with
      | none => simp [tbelow] at hy
      | some r => rfl
    omega
  simp only [List.length_append, tmatched_append, tmism_append, tinv_append,
    tcross_append_right, tcross_single_some, tinv_single, tmatched_single,
    tmism_single, tcross_cons_left, tcross_nil_left, tcrossOf_some, List.countP_append,
    List.countP_cons, List.countP_nil, a1, a2, a3, a4, hM, tmism_of_matched_zero b hM,
    tcross_of_matched_zero F0 hM, tinv_of_matched_zero hM]
  simp only [tmis, tbelow, tabove, hc, hx, hl, Option.isSome_some, ↓reduceIte,
    List.length_singleton, ne_eq, not_true_eq_false, decide_False, decide_True,
    Bool.false_eq_true]
  push_cast
  omega

end Symspell

namespace Symspell

theorem map_fst_prefix {F0 G : Trace} {a : List Rune} {i : Nat}
    (h : (F0 ++ G).map Prod.fst = a.take i) : F0.map Prod.fst = a.take F0.length := by
  have h1 : ((F0 ++ G).map Prod.fst).take F0.length = F0.map Prod.fst := by
    rw [List.map_append]
    exact List.take_left' (by simp)
  have hlen : F0.length ≤ i := by
    have := congrArg List.length h
    simp only [List.length_map, List.length_append, List.length_take] at this
    omega
  rw [← h1, h, List.take_take, Nat.min_eq_left hlen]

theorem map_fst_getD {F0 G : Trace} {a : List Rune} {i : Nat} {c : Rune} {y : Option Nat}
    (h : (F0 ++ (c, y) :: G).map Prod.fst = a.take i) : a.getD F0.length 0 = c := by
  have hlen : F0.length < i := by
    have := congrArg List.length h
    simp only [List.length_map, List.length_append, List.length_take, List.length_cons] at this
    omega
  have h1 : ((F0 ++ (c, y) :: G).map Prod.fst)[F0.length]? = some c := by
    rw [List.map_append, List.getElem?_append_right (by simp)]
    simp
  rw [h, List.getElem?_take, if_pos hlen] at h1
  rw [List.getD_eq_getElem?_getD, h1]
  rfl

/-- The table is at most the cost of any trace between the two prefixes. -/
theorem LevSpec.le_tcost {a b : List Rune} {H : Table} (hs : LevSpec a b H) :
    ∀ N i j, i + j = N → i ≤ a.length → j ≤ b.length →
      ∀ F : Trace, F.map Prod.fst = a.take i → TValid j F →
        H (i + 1) (j + 1) ≤ tcost b j F := by
  intro N
  induction N using Nat.strong_induction_on with
  | _ N ih =>
    intro i j hN hi hj F hF hV
    have hlenF : F.length = i := by
      have := congrArg List.length hF
      simpa [List.length_take, Nat.min_eq_left hi] using this
    rcases Nat.eq_zero_or_pos i with h0 | hipos
    · subst h0
      have : F = [] := List.length_eq_zero.1 hlenF
      subst this
      rw [hs.row1 j hj]
      simp [tcost, tmatched, tmism, tinv]
    rcases Nat.eq_zero_or_pos j with h0 | hjpos
    · subst h0
      have ht : targets F = [] := by
        apply List.eq_nil_iff_forall_not_mem.2
        intro r hr
        have := hV.bound r hr
        omega
      have hm : tmatched F = 0 := by rw [tmatched_eq_length_targets, ht]; rfl
      rw [hs.col1 i hi]
      unfold tcost
      rw [hm, hlenF]
      push_cast
      omega
    obtain ⟨i', rfl⟩ : ∃ i', i = i' + 1 := ⟨i - 1, by omega⟩
    obtain ⟨j', rfl⟩ : ∃ j', j = j' + 1 := ⟨j - 1, by omega⟩
    rw [take_succ_getD a i' (by omega)] at hF
    obtain ⟨F', y, rfl, hF'⟩ := map_fst_snoc hF
    have hlenF' : F'.length = i' := by
      simp only [List.length_append, List.length_singleton] at hlenF
      omega
    have hR := hs.chain_rows i' (j' + 1) 1 (by omega) hj
    have hC := hs.chain_cols (i' + 1) j' 1 hi (by omega)
    have hcell := hs.cell (i' + 1) (j' + 1) (by omega) hi (by omega) hj
    unfold CellEq levBase at hcell
    simp only [Nat.add_sub_cancel] at hcell
    have hVl := hV.of_append_left
    cases y with
    | none =>
      have h1 := ih (i' + (j' + 1)) (by omega) i' (j' + 1) rfl (by omega) hj F' hF' hVl
      rw [tcost_snoc_none]
      push_cast at hR ⊢
      omega
    | some l =>
      have htl : targets (F' ++ [(a.getD i' 0, some l)]) = targets F' ++ [l] := by
        rw [targets_append]; rfl
      have hl : l < j' + 1 := hV.bound l (by rw [htl]; simp)
      have hnd := hV.nodup
      rw [htl] at hnd
      have hnot : l ∉ targets F' := by
        intro hmem
        have := (List.nodup_append.1 hnd).2.2
        exact this hmem (List.mem_singleton_self l)
      rw [tcost_snoc_some]
      by_cases hlj : l = j'
      · subst hlj
        have hV' : TValid l F' := hVl.shrink hnot
        have h1 := ih (i' + l) (by omega) i' l rfl (by omega) (by omega) F' hF' hV'
        have hz : F'.countP (tabove l) = 0 :=
          countP_tabove_eq_zero (fun r hr => by have := hV'.bound r hr; omega)
        rw [hz, tcost_succ]
        by_cases hm : a.getD i' 0 = b.getD l 0
        · rw [if_pos hm] at hcell
          rw [if_pos hm.symm]
          push_cast
          omega
        · rw [if_neg hm] at hcell
          rw [if_neg (Ne.symm hm)]
          push_cast
          omega
      · have hlt : l < j' := by omega
        by_cases hj' : j' ∈ targets F'
        · obtain ⟨ck, hck⟩ := mem_targets.1 hj'
          obtain ⟨F0, M, rfl⟩ := List.append_of_mem hck
          -- first option: drop the last element
          have hcP : (F0 ++ (ck, some j') :: M).countP (tabove l) =
              F0.countP (tabove l) + 1 + M.countP (tabove l) := by
            rw [List.countP_append, List.countP_cons]
            simp [tabove, hlt]
            omega
          rw [hcP]
          by_cases hPen : b.getD l 0 = a.getD i' 0 ∧ F0.countP (tabove l) = 0 ∧
              M.countP (tabove l) = 0
          · obtain ⟨hP1, hP2, hP3⟩ := hPen
            -- second option: unmatch the element matched to the last position
            have hVM : TValid (j' + 1) M := hVl.of_append_right.of_append_right (F := [(ck, some j')])
            have hVF0 : TValid (j' + 1) F0 := hVl.of_append_left
            have hndF' := hVl.nodup
            have htF' : targets (F0 ++ (ck, some j') :: M) = targets F0 ++ j' :: targets M := by
              rw [targets_append, targets_cons_some]
            rw [htF'] at hndF' hnot
            have hjM : j' ∉ targets M := by
              have := (List.nodup_append.1 hndF').2.1
              exact (List.nodup_cons.1 this).1
            have hjF0 : j' ∉ targets F0 := by
              intro hmem
              exact (List.nodup_append.1 hndF').2.2 hmem (List.mem_cons_self _ _)
            have hMlt : ∀ r ∈ targets M, r < j' := (hVM.shrink hjM).bound
            by_cases hPenQ : b.getD j' 0 = ck ∧ tmatched M = 0
            · obtain ⟨hQ1, hQ2⟩ := hPenQ
              -- the two crossing elements cross nothing else
              have h0 : ∀ r ∈ targets F0, r < l := by
                intro r hr
                have h1 := targets_le_of_countP_tabove hP2 r hr
                have h2 : r ≠ l := by
                  intro e
                  apply hnot
                  rw [← e]
                  exact List.mem_append_left _ hr
                omega
              have hk : F0.length + 1 + M.length = i' := by
                rw [← hlenF']
                simp only [List.length_append, List.length_cons]
                omega
              have hF0 : F0.map Prod.fst = a.take F0.length := map_fst_prefix hF'
              have hak : a.getD F0.length 0 = ck := map_fst_getD hF'
              have h1 := ih (F0.length + l) (by omega) F0.length l rfl (by omega) (by omega)
                F0 hF0 ⟨h0, hVF0.nodup⟩
              have hcost := tcost_cross b j' l hlt F0 M ck (a.getD i' 0) hQ2 h0 hQ1 hP1
              have e5 : F0 ++ (ck, some j') :: (M ++ [(a.getD i' 0, some l)])
                  = (F0 ++ (ck, some j') :: M) ++ [(a.getD i' 0, some l)] := by simp
              rw [e5, tcost_snoc_some, hcP] at hcost
              -- the transposition term of the table
              have hi1 := lastRow_le a (b.getD j' 0) i'
              have hj1 := lastRow_le b (a.getD i' 0) j'
              have hi1' := lastRow_ge a (b.getD j' 0) (F0.length + 1) (by omega)
                (by rw [Nat.add_sub_cancel, hak, hQ1]) i' (by omega)
              have hj1' := lastRow_ge b (a.getD i' 0) (l + 1) (by omega)
                (by rw [Nat.add_sub_cancel, hP1]) j' (by omega)
              unfold levTrans at hcell
              simp only [Nat.add_sub_cancel] at hcell
              generalize lastRow a (b.getD j' 0) i' = i1 at hcell hi1 hi1'
              generalize lastRow b (a.getD i' 0) j' = j1 at hcell hj1 hj1'
              obtain ⟨i2, rfl⟩ : ∃ i2, i1 = i2 + 1 := ⟨i1 - 1, by omega⟩
              obtain ⟨j2, rfl⟩ : ∃ j2, j1 = j2 + 1 := ⟨j1 - 1, by omega⟩
              have c1 := hs.chain_rows F0.length l (i2 - F0.length) (by omega) (by omega)
              have c2 := hs.chain_cols i2 l (j2 - l) (by omega) (by omega)
              have e1 : F0.length + (i2 - F0.length) + 1 = i2 + 1 := by omega
              have e2 : l + (j2 - l) + 1 = j2 + 1 := by omega
              rw [e1] at c1
              rw [e2] at c2
              have e3 : ((i2 - F0.length : Nat) : Int) = (i2 : Int) - (F0.length : Int) := by
                omega
              have e4 : ((j2 - l : Nat) : Int) = (j2 : Int) - (l : Int) := by omega
              rw [e3] at c1
              rw [e4] at c2
              have hk' : (M.length : Int) = (i' : Int) - (F0.length : Int) - 1 := by omega
              rw [hP2, hP3, if_pos hP1] at hcost ⊢
              push_cast at hcell hcost ⊢
              omega
            · have hV'' : TValid j' ((F0 ++ (ck, none) :: M) ++ [(a.getD i' 0, some l)]) := by
                refine ⟨?_, ?_⟩
                · intro r hr
                  rw [targets_append, targets_append, targets_cons_none] at hr
                  rcases List.mem_append.1 hr with hr | hr
                  · rcases List.mem_append.1 hr with hr | hr
                    · have := hVF0.bound r hr
                      have : r ≠ j' := fun e => hjF0 (e ▸ hr)
                      omega
                    · exact hMlt r hr
                  · have : r = l := by simpa [targets] using hr
                    omega
                · have : (targets ((F0 ++ (ck, none) :: M) ++ [(a.getD i' 0, some l)])).Sublist
                      (targets ((F0 ++ (ck, some j') :: M) ++ [(a.getD i' 0, some l)])) := by
                    simp only [targets_append, targets_cons_none, targets_cons_some]
                    exact (List.Sublist.append_left (List.sublist_cons_self _ _) _).append_right _
                  exact this.nodup hV.nodup
              have hF'' : ((F0 ++ (ck, none) :: M) ++ [(a.getD i' 0, some l)]).map Prod.fst
                  = a.take i' ++ [a.getD i' 0] := by
                rw [← hF']
                simp
              rw [← take_succ_getD a i' (by omega)] at hF''
              have h1 := ih (i' + 1 + j') (by omega) (i' + 1) j' rfl hi (by omega) _ hF'' hV''
              have hun := tcost_unmatch b j' F0 (M ++ [(a.getD i' 0, some l)]) ck
              rw [List.countP_append, countP_tbelow_eq_matched hMlt] at hun
              simp only [List.countP_cons, List.countP_nil, tbelow, hlt, decide_True,
                ↓reduceIte, Nat.zero_add] at hun
              have e5 : F0 ++ (ck, some j') :: (M ++ [(a.getD i' 0, some l)])
                  = (F0 ++ (ck, some j') :: M) ++ [(a.getD i' 0, some l)] := by simp
              have e6 : F0 ++ (ck, none) :: (M ++ [(a.getD i' 0, some l)])
                  = (F0 ++ (ck, none) :: M) ++ [(a.getD i' 0, some l)] := by simp
              rw [e5, e6, tcost_snoc_some, hcP] at hun
              have hpen : (1 : Int) ≤ (if b.getD j' 0 = ck then 0 else 1) + (tmatched M : Int) := by
                by_cases hq : b.getD j' 0 = ck
                · have : tmatched M ≠ 0 := fun e => hPenQ ⟨hq, e⟩
                  rw [if_pos hq]
                  omega
                · rw [if_neg hq]
                  omega
              push_cast at hun hC ⊢
              omega
          · have h1 := ih (i' + (j' + 1)) (by omega) i' (j' + 1) rfl (by omega) hj _ hF' hVl
            have hpen : (1 : Int) ≤ (if b.getD l 0 = a.getD i' 0 then 0 else 1)
                + ((F0.countP (tabove l) : Nat) : Int) + ((M.countP (tabove l) : Nat) : Int) := by
              by_cases hq : b.getD l 0 = a.getD i' 0
              · rw [if_pos hq]
                have : ¬ (F0.countP (tabove l) = 0 ∧ M.countP (tabove l) = 0) :=
                  fun e => hPen ⟨hq, e.1, e.2⟩
                omega
              · rw [if_neg hq]
                omega
            push_cast at hR ⊢
            omega
        · have hV' : TValid j' (F' ++ [(a.getD i' 0, some l)]) := by
            apply hV.shrink
            rw [htl]
            intro hmem
            rcases List.mem_append.1 hmem with h | h
            · exact hj' h
            · simp at h; omega
          have hF2 : (F' ++ [(a.getD i' 0, some l)]).map Prod.fst = a.take (i' + 1) := by
            rw [take_succ_getD a i' (by omega), ← hF']
            simp
          have h1 := ih (i' + 1 + j') (by omega) (i' + 1) j' rfl hi (by omega) _ hF2 hV'
          rw [tcost_snoc_some] at h1
          rw [tcost_succ]
          push_cast at hC ⊢
          omega

end Symspell

namespace Symspell

/-! ## Every edit moves the cheapest trace by at most one -/

theorem tcost_mid (b : List Rune) (j : Nat) (Fl X Fr : Trace) :
    tcost b j (Fl ++ (X ++ Fr)) =
      ((Fl.length + X.length + Fr.length : Nat) : Int) + (j : Int)
        - 2 * ((tmatched Fl + tmatched X + tmatched Fr : Nat) : Int)
        + ((tmism b Fl + tmism b X + tmism b Fr : Nat) : Int)
        + ((tinv Fl + tcross Fl X + tcross Fl Fr + tinv X + tcross X Fr + tinv Fr : Nat) : Int) := by
  unfold tcost
  simp only [List.length_append, tmatched_append, tmism_append, tinv_append,
    tcross_append_right]
  push_cast
  omega

theorem tcost_mid_nil (b : List Rune) (j : Nat) (Fl Fr : Trace) :
    tcost b j (Fl ++ Fr) =
      ((Fl.length + Fr.length : Nat) : Int) + (j : Int)
        - 2 * ((tmatched Fl + tmatched Fr : Nat) : Int)
        + ((tmism b Fl + tmism b Fr : Nat) : Int)
        + ((tinv Fl + tcross Fl Fr + tinv Fr : Nat) : Int) := by
  unfold tcost
  simp only [List.length_append, tmatched_append, tmism_append, tinv_append]

theorem tcross_single_left (p : Rune × Option Nat) (G : Trace) :
    tcross [p] G = tcrossOf p G := by
  simp [tcross]

theorem tcross_single_eq (F : Trace) (c d : Rune) (y : Option Nat) :
    tcross F [(c, y)] = tcross F [(d, y)] := by
  cases y with
  | none => rw [tcross_single_none, tcross_single_none]
  | some l => rw [tcross_single_some, tcross_single_some]

theorem tmism_single_le (b : List Rune) (p : Rune × Option Nat) : tmism b [p] ≤ tmatched [p] := by
  obtain ⟨c, y⟩ := p
  rw [tmism_single, tmatched_single]
  cases y with
  | none => simp [tmis]
  | some l => simp; split <;> omega

theorem tmatched_single_le (p : Rune × Option Nat) : tmatched [p] ≤ 1 := by
  obtain ⟨c, y⟩ := p
  rw [tmatched_single]
  split <;> omega

theorem tcrossOf_single_le (p q : Rune × Option Nat) : tcrossOf p [q] ≤ 1 := by
  unfold tcrossOf
  cases p.2 with
  | none => simp
  | some l =>
    simp only [List.countP_cons, List.countP_nil]
    split <;> omega

theorem map_fst_split {F : Trace} {l r : List Rune} (h : F.map Prod.fst = l ++ r) :
    ∃ Fl Fr, F = Fl ++ Fr ∧ Fl.map Prod.fst = l ∧ Fr.map Prod.fst = r :=
  List.map_eq_append_iff.1 h

theorem map_fst_cons {F : Trace} {c : Rune} {r : List Rune} (h : F.map Prod.fst = c :: r) :
    ∃ y Fr, F = (c, y) :: Fr ∧ Fr.map Prod.fst = r := by
  obtain ⟨p, Fr, rfl, h1, h2⟩ := List.map_eq_cons_iff.1 h
  obtain ⟨c', y⟩ := p
  simp only at h1
  subst h1
  exact ⟨y, Fr, rfl, h2⟩

theorem TValid.of_sublist {j : Nat} {F G : Trace} (h : TValid j G)
    (hs : (targets F).Sublist (targets G)) : TValid j F :=
  ⟨fun r hr => h.bound r (hs.subset hr), hs.nodup h.nodup⟩

theorem TValid.of_perm {j : Nat} {F G : Trace} (h : TValid j G)
    (hs : (targets F).Perm (targets G)) : TValid j F :=
  ⟨fun r hr => h.bound r (hs.mem_iff.1 hr), hs.nodup_iff.2 h.nodup⟩

/-- One edit of the first string changes the cost of the cheapest trace by at most one. -/
theorem trace_step {a a' : List Rune} (h : EditStep a a') (b : List Rune) (j : Nat)
    (F' : Trace) (hF' : F'.map Prod.fst = a') (hV : TValid j F') :
    ∃ F : Trace, F.map Prod.fst = a ∧ TValid j F ∧ tcost b j F ≤ tcost b j F' + 1 := by
  cases h with
  | ins l r c =>
    obtain ⟨Fl, G, rfl, h1, h2⟩ := map_fst_split hF'
    obtain ⟨y, Fr, rfl, h3⟩ := map_fst_cons h2
    refine ⟨Fl ++ Fr, by simp [h1, h3], hV.of_sublist ?_, ?_⟩
    · rw [targets_append, targets_append]
      apply List.Sublist.append_left
      cases y with
      | none => rw [targets_cons_none]
      | some k => rw [targets_cons_some]; exact List.sublist_cons_self _ _
    · have e : Fl ++ (c, y) :: Fr = Fl ++ ([(c, y)] ++ Fr) := rfl
      rw [e, tcost_mid, tcost_mid_nil]
      have := tmatched_single_le (c, y)
      have := tmism_single_le b (c, y)
      simp only [List.length_singleton]
      push_cast
      omega
  | del l r c =>
    obtain ⟨Fl, Fr, rfl, h1, h2⟩ := map_fst_split hF'
    refine ⟨Fl ++ (c, none) :: Fr, by simp [h1, h2], hV.of_sublist ?_, ?_⟩
    · rw [targets_append, targets_append, targets_cons_none]
    · have e : Fl ++ (c, none) :: Fr = Fl ++ ([(c, none)] ++ Fr) := rfl
      rw [e, tcost_mid, tcost_mid_nil, tcross_single_none, tinv_single, tcross_single_left,
        tcrossOf_none, tmatched_single, tmism_single]
      simp only [tmis, List.length_singleton, Option.isSome_none, Bool.false_eq_true,
        ↓reduceIte]
      push_cast
      omega
  | sub l r c d =>
    obtain ⟨Fl, G, rfl, h1, h2⟩ := map_fst_split hF'
    obtain ⟨y, Fr, rfl, h3⟩ := map_fst_cons h2
    refine ⟨Fl ++ (c, y) :: Fr, by simp [h1, h3], hV.of_sublist ?_, ?_⟩
    · rw [targets_append, targets_append]
      cases y with
      | none => rw [targets_cons_none, targets_cons_none]
      | some k => rw [targets_cons_some, targets_cons_some]
    · have e1 : Fl ++ (c, y) :: Fr = Fl ++ ([(c, y)] ++ Fr) := rfl
      have e2 : Fl ++ (d, y) :: Fr = Fl ++ ([(d, y)] ++ Fr) := rfl
      rw [e1, e2, tcost_mid, tcost_mid, tcross_single_eq Fl c d y, tinv_single, tinv_single,
        tcross_single_left, tcross_single_left]
      have h4 : tcrossOf (c, y) Fr = tcrossOf (d, y) Fr := rfl
      have h5 : tmatched [(c, y)] = tmatched [(d, y)] := by
        rw [tmatched_single, tmatched_single]
      have h6 := tmism_single_le b (c, y)
      have h7 := tmatched_single_le (c, y)
      rw [h4, h5] at *
      simp only [List.length_singleton]
      push_cast
      omega
  | swap l r c d =>
    obtain ⟨Fl, G, rfl, h1, h2⟩ := map_fst_split hF'
    obtain ⟨y1, G', rfl, h3⟩ := map_fst_cons h2
    obtain ⟨y2, Fr, rfl, h4⟩ := map_fst_cons h3
    refine ⟨Fl ++ (c, y2) :: (d, y1) :: Fr, by simp [h1, h4], hV.of_perm ?_, ?_⟩
    · rw [targets_append, targets_append]
      apply List.Perm.append_left
      have e1 : (c, y2) :: (d, y1) :: Fr = [(c, y2)] ++ ([(d, y1)] ++ Fr) := rfl
      have e2 : (d, y1) :: (c, y2) :: Fr = [(d, y1)] ++ ([(c, y2)] ++ Fr) := rfl
      rw [e1, e2, targets_append, targets_append, targets_append, targets_append,
        ← List.append_assoc, ← List.append_assoc]
      exact List.Perm.append_right _ List.perm_append_comm
    · have e1 : Fl ++ (c, y2) :: (d, y1) :: Fr = Fl ++ (([(c, y2)] ++ [(d, y1)]) ++ Fr) := rfl
      have e2 : Fl ++ (d, y1) :: (c, y2) :: Fr = Fl ++ (([(d, y1)] ++ [(c, y2)]) ++ Fr) := rfl
      rw [e1, e2, tcost_mid, tcost_mid]
      simp only [List.length_append, tmatched_append, tmism_append, tinv_append,
        tcross_append_right, tcross_append_left, tinv_single, tcross_single_left]
      have := tcrossOf_single_le (c, y2) (d, y1)
      push_cast
      omega

end Symspell

namespace Symspell

/-! ## Optimality: no edit path is shorter than the value of the table -/

theorem idTrace_map (k : Nat) (a : List Rune) : (idTrace k a).map Prod.fst = a := by
  induction a generalizing k with
  | nil => rfl
  | cons c r ih => simp [idTrace, ih]

theorem idTrace_length (k : Nat) (a : List Rune) : (idTrace k a).length = a.length := by
  rw [← List.length_map (idTrace k a) Prod.fst, idTrace_map]

theorem idTrace_targets (k : Nat) (a : List Rune) :
    targets (idTrace k a) = List.range' k a.length := by
  induction a generalizing k with
  | nil => rfl
  | cons c r ih =>
    rw [idTrace, targets_cons_some, ih]
    rfl

theorem idTrace_valid (k : Nat) (a : List Rune) : TValid (k + a.length) (idTrace k a) := by
  refine ⟨?_, ?_⟩
  · intro r hr
    rw [idTrace_targets, List.mem_range'_1] at hr
    exact hr.2
  · rw [idTrace_targets]
    exact List.nodup_range' k a.length

theorem idTrace_matched (k : Nat) (a : List Rune) : tmatched (idTrace k a) = a.length := by
  rw [tmatched_eq_length_targets, idTrace_targets, List.length_range']

theorem idTrace_inv (k : Nat) (a : List Rune) : tinv (idTrace k a) = 0 := by
  induction a generalizing k with
  | nil => rfl
  | cons c r ih =>
    rw [idTrace, tinv_cons, ih, tcrossOf_some, List.countP_eq_zero.2]
    rintro ⟨x, y⟩ hp
    cases y with
    | none => simp [tbelow]
    | some t =>
      have : t ∈ targets (idTrace (k + 1) r) := mem_targets.2 ⟨x, hp⟩
      rw [idTrace_targets, List.mem_range'_1] at this
      simp [tbelow]
      omega

theorem idTrace_mism (pre a : List Rune) : tmism (pre ++ a) (idTrace pre.length a) = 0 := by
  induction a generalizing pre with
  | nil => rfl
  | cons c r ih =>
    have e : pre ++ c :: r = (pre ++ [c]) ++ r := by simp
    have h1 := ih (pre ++ [c])
    rw [List.length_append, List.length_singleton, ← e] at h1
    unfold tmism at h1 ⊢
    rw [idTrace, List.countP_cons, h1]
    have : (pre ++ c :: r).getD pre.length 0 = c := by
      rw [List.getD_append_right _ _ _ _ (le_refl _)]
      simp
    have h2 : tmis (pre ++ c :: r) (c, some pre.length) = false := by
      unfold tmis
      simp only [this, ne_eq, not_true_eq_false, decide_False]
    rw [h2]
    rfl

/-- The identity trace costs nothing. -/
theorem idTrace_cost (a : List Rune) : tcost a a.length (idTrace 0 a) = 0 := by
  unfold tcost
  have h := idTrace_mism [] a
  simp only [List.nil_append, List.length_nil] at h
  rw [idTrace_length, idTrace_matched, idTrace_inv, h]
  push_cast
  omega

/-- An edit path of length `n` yields a trace of cost at most `n`. -/
theorem editPath_trace {n : Nat} {a c : List Rune} (h : EditPath n a c) :
    ∃ F : Trace, F.map Prod.fst = a ∧ TValid c.length F ∧ tcost c c.length F ≤ (n : Int) := by
  induction h with
  | refl a =>
    refine ⟨idTrace 0 a, idTrace_map 0 a, ?_, ?_⟩
    · have := idTrace_valid 0 a
      rwa [Nat.zero_add] at this
    · rw [idTrace_cost]
      rfl
  | step hstep _ ih =>
    obtain ⟨F', h1, h2, h3⟩ := ih
    rename_i n0 a0 b0 c0 _
    obtain ⟨F, g1, g2, g3⟩ := trace_step hstep c0 c0.length F' h1 h2
    refine ⟨F, g1, g2, ?_⟩
    push_cast
    omega

/-- No edit path between two strings is shorter than `LevDistance` says. -/
theorem levRunes_le_of_editPath {n : Nat} {a c : List Rune} (h : EditPath n a c) :
    levRunes a c ≤ n := by
  obtain ⟨F, h1, h2, h3⟩ := editPath_trace h
  have h4 := (levTable_spec a c).le_tcost _ a.length c.length rfl le_rfl le_rfl F
    (by rw [h1, List.take_length]) h2
  have h5 := levRunes_cast a c
  omega

end Symspell

namespace Symspell

/-! ## Soundness: the value of the table is the length of an edit path -/

theorem EditStep.step_append {a b : List Rune} (h : EditStep a b) (s : List Rune) :
    EditStep (a ++ s) (b ++ s) := by
  cases h with
  | ins l r c =>
    have := EditStep.ins l (r ++ s) c
    simpa using this
  | del l r c =>
    have := EditStep.del l (r ++ s) c
    simpa using this
  | sub l r c d =>
    have := EditStep.sub l (r ++ s) c d
    simpa using this
  | swap l r c d =>
    have := EditStep.swap l (r ++ s) c d
    simpa using this

theorem EditStep.step_prepend {a b : List Rune} (h : EditStep a b) (p : List Rune) :
    EditStep (p ++ a) (p ++ b) := by
  cases h with
  | ins l r c =>
    have := EditStep.ins (p ++ l) r c
    simpa using this
  | del l r c =>
    have := EditStep.del (p ++ l) r c
    simpa using this
  | sub l r c d =>
    have := EditStep.sub (p ++ l) r c d
    simpa using this
  | swap l r c d =>
    have := EditStep.swap (p ++ l) r c d
    simpa using this

theorem EditPath.cast {n m : Nat} {a b : List Rune} (h : EditPath n a b) (e : n = m) :
    EditPath m a b := e ▸ h

theorem EditPath.trans {n m : Nat} {a b c : List Rune} (h1 : EditPath n a b)
    (h2 : EditPath m b c) : EditPath (n + m) a c := by
  induction h1 with
  | refl a => exact h2.cast (by omega)
  | step hs _ ih => exact (EditPath.step hs (ih h2)).cast (by omega)

theorem EditPath.single {a b : List Rune} (h : EditStep a b) : EditPath 1 a b :=
  EditPath.step h (EditPath.refl b)

theorem EditPath.path_append {n : Nat} {a b : List Rune} (h : EditPath n a b)
    (s : List Rune) : EditPath n (a ++ s) (b ++ s) := by
  induction h with
  | refl a => exact EditPath.refl _
  | step hs _ ih => exact EditPath.step (hs.step_append s) ih

theorem EditPath.path_prepend {n : Nat} {a b : List Rune} (h : EditPath n a b)
    (p : List Rune) : EditPath n (p ++ a) (p ++ b) := by
  induction h with
  | refl a => exact EditPath.refl _
  | step hs _ ih => exact EditPath.step (hs.step_prepend p) ih

/-- Deleting a whole string. -/
theorem EditPath.delete_all (u : List Rune) : EditPath u.length u [] := by
  induction u with
  | nil => exact EditPath.refl _
  | cons c u ih =>
    exact EditPath.step (EditStep.del [] u c) ih

/-- Inserting a whole string. -/
theorem EditPath.insert_all (v : List Rune) : EditPath v.length [] v := by
  induction v with
  | nil => exact EditPath.refl _
  | cons c v ih =>
    have h1 : EditPath 1 [] [c] := EditPath.single (EditStep.ins [] [] c)
    have h2 : EditPath v.length ([c] ++ []) ([c] ++ v) := ih.path_prepend [c]
    exact (h1.trans h2).cast (by simp; omega)

/-- The path behind the transposition term: delete what lies between the two characters,
swap them, insert what lies between them in the target. -/
theorem EditPath.transpose (x y : Rune) (u v : List Rune) :
    EditPath (u.length + 1 + v.length) (y :: (u ++ [x])) (x :: (v ++ [y])) := by
  have h1 : EditPath u.length ([y] ++ u ++ [x]) ([y] ++ [] ++ [x]) :=
    ((EditPath.delete_all u).path_prepend [y]).path_append [x]
  have h2 : EditPath 1 ([y] ++ [] ++ [x]) [x, y] := EditPath.single (EditStep.swap [] [] y x)
  have h3 : EditPath v.length ([x] ++ [] ++ [y]) ([x] ++ v ++ [y]) :=
    ((EditPath.insert_all v).path_prepend [x]).path_append [y]
  have := (h1.trans h2).trans h3
  simpa using this

theorem take_split (a : List Rune) (k i : Nat) (hk : k < i) (hi : i ≤ a.length) :
    a.take i = a.take k ++ a.getD k 0 :: (a.take i).drop (k + 1) := by
  have hlen : k < (a.take i).length := by rw [List.length_take]; omega
  have h1 : (a.take i).take k = a.take k := by
    rw [List.take_take, Nat.min_eq_left (by omega)]
  have h2 : (a.take i)[k] = a.getD k 0 := by
    have h3 : (a.take i)[k]? = some (a.getD k 0) := by
      rw [List.getElem?_take, if_pos hk, List.getD_eq_getElem?_getD,
        List.getElem?_eq_getElem (by omega)]
      rfl
    rw [List.getElem?_eq_getElem hlen] at h3
    exact Option.some.inj h3
  conv_lhs => rw [← List.take_append_drop k (a.take i), h1, List.drop_eq_getElem_cons hlen, h2]

/-- Every cell of the table is reached by an edit path between the two prefixes that is no
longer than its value. -/
theorem LevSpec.path {a b : List Rune} {H : Table} (hs : LevSpec a b H) :
    ∀ N i j, i + j = N → i ≤ a.length → j ≤ b.length →
      ∃ k : Nat, (k : Int) ≤ H (i + 1) (j + 1) ∧ EditPath k (a.take i) (b.take j) := by
  intro N
  induction N using Nat.strong_induction_on with
  | _ N ih =>
    intro i j hN hi hj
    have hgen : ∃ k : Nat, (k : Int) ≤ (i : Int) + (j : Int) ∧
        EditPath k (a.take i) (b.take j) := by
      refine ⟨i + j, by push_cast; omega, ?_⟩
      have h1 := EditPath.delete_all (a.take i)
      have h2 := EditPath.insert_all (b.take j)
      rw [List.length_take, Nat.min_eq_left hi] at h1
      rw [List.length_take, Nat.min_eq_left hj] at h2
      exact h1.trans h2
    rcases Nat.eq_zero_or_pos i with h0 | hipos
    · subst h0
      obtain ⟨k, hk1, hk2⟩ := hgen
      exact ⟨k, by rw [hs.row1 j hj]; push_cast at hk1; omega, hk2⟩
    rcases Nat.eq_zero_or_pos j with h0 | hjpos
    · subst h0
      obtain ⟨k, hk1, hk2⟩ := hgen
      exact ⟨k, by rw [hs.col1 i hi]; push_cast at hk1; omega, hk2⟩
    obtain ⟨i', rfl⟩ : ∃ i', i = i' + 1 := ⟨i - 1, by omega⟩
    obtain ⟨j', rfl⟩ : ∃ j', j = j' + 1 := ⟨j - 1, by omega⟩
    have hcell := hs.cell (i' + 1) (j' + 1) hipos hi hjpos hj
    unfold CellEq levBase levTrans at hcell
    simp only [Nat.add_sub_cancel] at hcell
    have hi1 := lastRow_le a (b.getD j' 0) i'
    have hj1 := lastRow_le b (a.getD i' 0) j'
    have hg1 := lastRow_get a (b.getD j' 0) i'
    have hg2 := lastRow_get b (a.getD i' 0) j'
    generalize lastRow a (b.getD j' 0) i' = i1 at hcell hi1 hg1
    generalize lastRow b (a.getD i' 0) j' = j1 at hcell hj1 hg2
    have eA := take_succ_getD a i' (by omega)
    have eB := take_succ_getD b j' (by omega)
    obtain ⟨ka, ha1, ha2⟩ := ih (i' + j') (by omega) i' j' rfl (by omega) (by omega)
    obtain ⟨kb, hb1, hb2⟩ := ih (i' + 1 + j') (by omega) (i' + 1) j' rfl (by omega) (by omega)
    obtain ⟨kd, hd1, hd2⟩ := ih (i' + (j' + 1)) (by omega) i' (j' + 1) rfl (by omega) (by omega)
    -- the path of the transposition term
    have htrans : ∃ k : Nat, (k : Int) ≤
          H i1 j1 + (((i' + 1 : Nat) : Int) - (i1 : Int) - 1) + 1
            + (((j' + 1 : Nat) : Int) - (j1 : Int) - 1) ∧
        EditPath k (a.take (i' + 1)) (b.take (j' + 1)) := by
      by_cases h0 : i1 = 0 ∨ j1 = 0
      · obtain ⟨k, hk1, hk2⟩ := hgen
        refine ⟨k, ?_, hk2⟩
        rw [hs.border i1 j1 (by omega) (by omega) h0]
        push_cast at hk1 ⊢
        omega
      · obtain ⟨i2, rfl⟩ : ∃ i2, i1 = i2 + 1 := ⟨i1 - 1, by omega⟩
        obtain ⟨j2, rfl⟩ : ∃ j2, j1 = j2 + 1 := ⟨j1 - 1, by omega⟩
        simp only [Nat.add_sub_cancel, Nat.succ_pos, true_implies] at hg1 hg2
        obtain ⟨k0, hk1, hk2⟩ := ih (i2 + j2) (by omega) i2 j2 rfl (by omega) (by omega)
        have sA := take_split a i2 i' (by omega) (by omega)
        have sB := take_split b j2 j' (by omega) (by omega)
        have lu : ((a.take i').drop (i2 + 1)).length = i' - (i2 + 1) := by
          rw [List.length_drop, List.length_take, Nat.min_eq_left (by omega)]
        have lv : ((b.take j').drop (j2 + 1)).length = j' - (j2 + 1) := by
          rw [List.length_drop, List.length_take, Nat.min_eq_left (by omega)]
        generalize (a.take i').drop (i2 + 1) = u at sA lu
        generalize (b.take j').drop (j2 + 1) = v at sB lv
        have hp := EditPath.transpose (a.getD i' 0) (a.getD i2 0) u v
        have hp2 := hp.path_prepend (a.take i2)
        have hp3 := hk2.path_append (a.getD i' 0 :: (v ++ [a.getD i2 0]))
        have hp4 := hp2.trans hp3
        refine ⟨u.length + 1 + v.length + k0, ?_, ?_⟩
        · rw [lu, lv]
          push_cast
          omega
        · rw [eA, eB, sA, sB, hg2, ← hg1]
          simpa only [List.append_assoc, List.cons_append] using hp4
    obtain ⟨kt, ht1, ht2⟩ := htrans
    by_cases hm : a.getD i' 0 = b.getD j' 0
    · rw [if_pos hm] at hcell
      rcases le_total (H (i' + 1) (j' + 1)) (H i1 j1 + (((i' + 1 : Nat) : Int) - (i1 : Int) - 1)
          + 1 + (((j' + 1 : Nat) : Int) - (j1 : Int) - 1)) with hle | hle
      · refine ⟨ka, by omega, ?_⟩
        rw [eA, eB, hm]
        exact ha2.path_append _
      · exact ⟨kt, by omega, ht2⟩
    · rw [if_neg hm] at hcell
      rcases le_total (min (H (i' + 1) (j' + 1)) (min (H (i' + 1 + 1) (j' + 1))
          (H (i' + 1) (j' + 1 + 1))) + 1) (H i1 j1 + (((i' + 1 : Nat) : Int) - (i1 : Int) - 1)
          + 1 + (((j' + 1 : Nat) : Int) - (j1 : Int) - 1)) with hle | hle
      · by_cases h1 : H (i' + 1) (j' + 1) ≤ min (H (i' + 1 + 1) (j' + 1))
            (H (i' + 1) (j' + 1 + 1))
        · refine ⟨ka + 1, by push_cast; omega, ?_⟩
          rw [eA, eB]
          have s1 := ha2.path_append [a.getD i' 0]
          have s2 : EditPath 1 (b.take j' ++ [a.getD i' 0]) (b.take j' ++ [b.getD j' 0]) :=
            EditPath.single (EditStep.sub (b.take j') [] _ _)
          exact s1.trans s2
        · by_cases h2 : H (i' + 1 + 1) (j' + 1) ≤ H (i' + 1) (j' + 1 + 1)
          · refine ⟨kb + 1, by push_cast; omega, ?_⟩
            rw [eB]
            have s2 : EditPath 1 (b.take j' ++ []) (b.take j' ++ [b.getD j' 0]) :=
              EditPath.single (EditStep.ins (b.take j') [] _)
            rw [List.append_nil] at s2
            exact hb2.trans s2
          · refine ⟨1 + kd, by push_cast; omega, ?_⟩
            rw [eA]
            have s2 : EditPath 1 (a.take i' ++ [a.getD i' 0]) (a.take i' ++ []) :=
              EditPath.single (EditStep.del (a.take i') [] _)
            rw [List.append_nil] at s2
            exact s2.trans hd2
      · exact ⟨kt, by omega, ht2⟩

/-- Some edit path between two strings has exactly the length `LevDistance` computes. -/
theorem editPath_levRunes (a b : List Rune) : EditPath (levRunes a b) a b := by
  obtain ⟨k, hk1, hk2⟩ := (levTable_spec a b).path _ a.length b.length rfl le_rfl le_rfl
  rw [List.take_length, List.take_length] at hk2
  have h1 := levRunes_le_of_editPath hk2
  have h2 := levRunes_cast a b
  exact hk2.cast (by omega)

end Symspell

namespace Symspell

/-! ## Pure delete variants stay pure -/

theorem addSug1_Definitions (t : GoString) (o : Option DictItem) (n : Nat) :
    (addSug1 t o n).Definitions = (o.getD newDictItem).Definitions := by
  unfold addSug1
  cases o with
  | none => rfl
  | some e =>
    simp only [Option.getD_some]
    split <;> rfl

theorem addSug1_Suggestions_ne (t : GoString) (o : Option DictItem) (n : Nat) :
    (addSug1 t o n).Suggestions ≠ [] := by
  unfold addSug1
  cases o with
  | none => simp [GoMap.set]
  | some e =>
    simp only
    split
    · simp [GoMap.set]
    · rename_i h
      intro h0
      apply h
      rw [h0]
      rfl

theorem PureInv_empty : PureInv ([] : GoMap GoString DictItem) := by
  intro k e h
  simp [GoMap.get?] at h

theorem AddEntry_pure (s : SymSpell) (t : GoString) (defs : List GoString) (o : Oracle)
    (hp : PureInv s.Dictionary) : PureInv (AddEntry s t defs o).1.Dictionary := by
  by_cases ht : t = []
  · subst ht
    rw [AddEntry_empty]
    exact hp
  intro k e hk hT
  rw [AddEntry_get? s t defs o ht k] at hk
  by_cases hE : (entryAfter s t defs).Term = []
  · rw [if_pos hE] at hk
    by_cases hkt : k = t
    · rw [if_pos hkt] at hk
      have := Option.some.inj hk
      rw [← this] at hT
      exact absurd hT ht
    · rw [if_neg hkt] at hk
      cases hv : (Edits t 0 none true).get? k with
      | some n =>
        rw [hv] at hk
        have he := Option.some.inj hk
        subst he
        refine ⟨?_, addSug1_Suggestions_ne _ _ _⟩
        rw [addSug1_Definitions]
        rw [addSug1_Term] at hT
        cases ho : s.Dictionary.get? k with
        | none => rfl
        | some e0 =>
          rw [ho] at hT
          exact (hp k e0 ho hT).1
      | none =>
        rw [hv] at hk
        exact hp k e hk hT
  · rw [if_neg hE] at hk
    by_cases hkt : k = t
    · rw [if_pos hkt] at hk
      have := Option.some.inj hk
      rw [← this] at hT
      exact absurd hT hE
    · rw [if_neg hkt] at hk
      exact hp k e hk hT

theorem runCalls_pure (calls : List Call) : PureInv (runCalls calls).Dictionary := by
  induction calls using List.reverseRecOn with
  | nil => exact PureInv_empty
  | append_singleton cs c ih =>
    rw [runCalls_concat]
    exact AddEntry_pure _ _ _ _ ih

/-! ## Re-ingestion -/

theorem addDefinition_fold_Definitions (defs : List GoString) :
    ∀ (st : DefinitionOrdinals × DictItem) (h : Nat),
      (defs.foldl addDefinition st).2.Definitions.get? h =
        if h ∈ defs.map fnv64 then some true else st.2.Definitions.get? h := by
  induction defs with
  | nil => intro st h; simp
  | cons d ds ih =>
    intro st h
    rw [List.foldl_cons, ih]
    have e1 : (addDefinition st d).2.Definitions = st.2.Definitions.set (fnv64 d) true := rfl
    rw [e1, GoMap.get?_set]
    by_cases h1 : h ∈ ds.map fnv64
    · have h2 : h ∈ (d :: ds).map fnv64 := by
        rw [List.map_cons]; exact List.mem_cons_of_mem _ h1
      rw [if_pos h1, if_pos h2]
    · rw [if_neg h1]
      by_cases h3 : h = fnv64 d
      · have h2 : h ∈ (d :: ds).map fnv64 := by
          rw [List.map_cons, h3]; exact List.mem_cons_self _ _
        rw [if_pos h3, if_pos h2]
      · have h2 : h ∉ (d :: ds).map fnv64 := by
          rw [List.map_cons, List.mem_cons]
          rintro (h4 | h4)
          · exact h3 h4
          · exact h1 h4
        rw [if_neg h3, if_neg h2]

theorem entryAfter_Definitions (s : SymSpell) (t : GoString) (defs : List GoString) (h : Nat) :
    (entryAfter s t defs).Definitions.get? h =
      if h ∈ defs.map fnv64 then some true
      else ((s.Dictionary.get? t).getD newDictItem).Definitions.get? h := by
  unfold entryAfter
  rw [addDefinition_fold_Definitions]

/-- The outcome of `AddEntry` on a term that has a term entry already. -/
theorem AddEntry_again (s : SymSpell) (t : GoString) (defs : List GoString) (o : Oracle)
    (ht : t ≠ []) (e : DictItem) (he : s.Dictionary.get? t = some e) (hT : e.Term = t) :
    (AddEntry s t defs o).2 = (false, none) ∧
      ∀ k, (AddEntry s t defs o).1.Dictionary.get? k =
        if k = t then some (entryAfter s t defs) else s.Dictionary.get? k := by
  have hE : ¬ (entryAfter s t defs).Term = [] := by
    rw [entryAfter_Term, he, Option.getD_some, hT]
    exact ht
  constructor
  · unfold AddEntry
    rw [if_neg ht]
    have hE2 : ¬ (defs.foldl addDefinition (s.Ordinals,
        { (s.Dictionary.get? t).getD newDictItem with
          Count := ((s.Dictionary.get? t).getD newDictItem).Count + 1 })).2.Term = [] := hE
    simp only [hE2, if_false]
  · intro k
    rw [AddEntry_get? s t defs o ht k, if_neg hE]

/-! ## The loop of `Lookup`, iteration by iteration -/

/-- The loop of `Lookup` runs `lookupIter` until it ends. -/
theorem lookupLoop_iter (dict : GoMap GoString DictItem) (input : GoString) (fuel : Nat)
    (cands : GoMap GoString Nat) (sugg : GoMap GoString SuggestItem) (o : Oracle) :
    lookupLoop dict input (fuel + 1) cands sugg o =
      match lookupIter dict input (cands, sugg, o) with
      | LoopStep.done => some (sugg, o)
      | LoopStep.broke => some (sugg, (arbitraryKey cands o).2)
      | LoopStep.next st => lookupLoop dict input fuel st.1 st.2.1 st.2.2 := by
  rw [lookupLoop_succ]
  unfold lookupIter
  by_cases h1 : cands.length > 0
  · by_cases h2 : (cands.get? (arbitraryKey cands o).1).getD 0 > EDIT_DISTANCE
    · simp only [h1, h2, if_true]
    · simp only [h1, h2, if_true, if_false]
  · simp only [h1, if_false]

theorem lookupIter_next {dict : GoMap GoString DictItem} {input : GoString} {st st' : LoopState}
    (h : lookupIter dict input st = LoopStep.next st') :
    ∃ k n o1 o2, st.1.get? k = some n ∧
      st' = ((lookupExpand k n (st.1.del k) o2).1, (lookupEntry dict input k n st.2.1 o1).1,
        (lookupExpand k n (st.1.del k) o2).2) := by
  unfold lookupIter at h
  by_cases h1 : st.1.length > 0
  · obtain ⟨n, hn⟩ := arbitraryKey_get? st.1 st.2.2 h1
    rw [if_pos h1] at h
    simp only [hn, Option.getD_some] at h
    by_cases h2 : n > EDIT_DISTANCE
    · rw [if_pos h2] at h
      exact LoopStep.noConfusion h
    · rw [if_neg h2] at h
      exact ⟨_, n, _, _, hn, (LoopStep.next.inj h).symm⟩
  · rw [if_neg h1] at h
    exact LoopStep.noConfusion h

/-- Every state of the loop of `Lookup` holds labelled delete variants of the input. -/
theorem LoopReach_candInv {dict : GoMap GoString DictItem} {input : GoString} {o : Oracle}
    {st : LoopState} (h : LoopReach dict input o st) : CandInv input st.1 := by
  induction h with
  | init => exact CandInv_init input
  | step _ hn ih =>
    obtain ⟨k, n, o1, o2, hk, rfl⟩ := lookupIter_next hn
    exact CandInv_expand ih k n hk o2

theorem lookupIter_ne_broke {dict : GoMap GoString DictItem} {input : GoString} {st : LoopState}
    (h : CandInv input st.1) : lookupIter dict input st ≠ LoopStep.broke := by
  unfold lookupIter
  by_cases h1 : st.1.length > 0
  · obtain ⟨n, hn⟩ := arbitraryKey_get? st.1 st.2.2 h1
    have h2 : ¬ n > EDIT_DISTANCE := Nat.not_lt.2 (h _ _ hn).2.2
    rw [if_pos h1]
    simp only [hn, Option.getD_some, h2, if_false]
    exact fun h => LoopStep.noConfusion h
  · rw [if_neg h1]
    exact fun h => LoopStep.noConfusion h

theorem lookupIter_done {dict : GoMap GoString DictItem} {input : GoString} {st : LoopState}
    (h : CandInv input st.1) (hend : ∀ st', lookupIter dict input st ≠ LoopStep.next st') :
    st.1 = [] := by
  by_cases h1 : st.1.length > 0
  · exfalso
    obtain ⟨n, hn⟩ := arbitraryKey_get? st.1 st.2.2 h1
    have h2 : ¬ n > EDIT_DISTANCE := Nat.not_lt.2 (h _ _ hn).2.2
    have hnext : ∃ st', lookupIter dict input st = LoopStep.next st' := by
      unfold lookupIter
      rw [if_pos h1]
      simp only [hn, Option.getD_some, h2, if_false]
      exact ⟨_, rfl⟩
    obtain ⟨st', hst'⟩ := hnext
    exact hend st' hst'
  · exact List.length_eq_zero.1 (Nat.eq_zero_of_not_pos h1)

/-! ## What `Lookup` returns, whatever the order -/

/-- The candidate under which an item is recorded is a non-empty delete variant, by at
most two bytes, of the item's term. -/
theorem contrib_variant {dict : GoMap GoString DictItem} (hd : DictInv dict) {q k : GoString}
    {n : Nat} {x : GoString} {it : SuggestItem} (h : contrib dict q k n x = some it) :
    k ≠ [] ∧ k.Sublist x ∧ x.length - k.length ≤ 2 := by
  obtain ⟨value, hv, hc⟩ := contrib_cases h
  have hk : k ≠ [] := by
    rintro rfl
    rw [hd.no_empty] at hv
    exact Option.noConfusion hv
  refine ⟨hk, ?_⟩
  rcases hc with ⟨h1, h2, -⟩ | ⟨sd, v2, h1, -, -, -⟩
  · rcases hd.term_key k value hv with h3 | h3
    · exact absurd h3 h1
    · rw [h2, h3]
      exact ⟨List.Sublist.refl _, by omega⟩
  · have h4 := (hd.sugg_sound k value x sd hv h1).2
    obtain ⟨a1, -, a3, -, a5⟩ := (Edits_full_iff x k sd).1 h4
    exact ⟨a1, by omega⟩

/-- Every item `Lookup` returns is the entry of an ingested term at its verified distance,
found through a common delete variant. -/
theorem Lookup_sound_core (s : SymSpell) (hd : DictInv s.Dictionary) {q : GoString}
    (hq : isASCII q) (hterms : ∀ t e, s.Dictionary.get? t = some e → e.Term = t → isASCII t)
    (extra : Nat) (o : Oracle) :
    ∃ items, Lookup (lookupFuel q + extra) s q o = some items ∧
      ∀ it ∈ items, it.Distance = LevDistance it.Term q ∧ it.Distance ≤ EDIT_DISTANCE ∧
        (∃ e, s.Dictionary.get? it.Term = some e ∧ e.Term = it.Term ∧ it.Count = e.Count) ∧
        ∃ c0 : GoString, c0 ≠ [] ∧ c0.Sublist it.Term ∧ c0.Sublist q ∧
          it.Term.length - c0.length ≤ 2 ∧ q.length - c0.length ≤ 2 := by
  obtain ⟨r, hr, hB⟩ := Lookup_rule s q (BaseInv s.Dictionary q)
    (fun cands sugg k n o1 o2 hI hk => BaseInv_step _ hd q cands sugg k n o1 o2 hI hk)
    (BaseInv_init _ q) extra o
  refine ⟨_, hr, ?_⟩
  intro it hit
  obtain ⟨x, hx⟩ := (mem_items_iff hB.2.1 r.2 it).1 hit
  obtain ⟨k, n, a1, a2, a3, hc⟩ := hB.2.2 x it hx
  obtain ⟨b1, b2⟩ := contrib_key hd hc
  obtain ⟨c1, c2, c3⟩ := contrib_variant hd hc
  obtain ⟨d1, d2⟩ := contrib_dist hd hq hterms a1 a2 a3 hc
  rw [b1]
  unfold EDIT_DISTANCE at a3
  exact ⟨d1, d2, b2, k, c1, c2, a1, c3, by omega⟩

/-- Two runs of `Lookup` on the same engine and input: what the first returns, the second
returns too. -/
theorem Lookup_order_core (s : SymSpell) (hd : DictInv s.Dictionary) {q : GoString}
    (hq : isASCII q) (hterms : ∀ t e, s.Dictionary.get? t = some e → e.Term = t → isASCII t)
    (extra1 extra2 : Nat) (o1 o2 : Oracle) :
    ∃ items1 items2, Lookup (lookupFuel q + extra1) s q o1 = some items1 ∧
      Lookup (lookupFuel q + extra2) s q o2 = some items2 ∧
      ∀ it ∈ items1, ∃ it2 ∈ items2,
        it2.Term = it.Term ∧ it2.Count = it.Count ∧ it2.Distance = it.Distance := by
  obtain ⟨items1, h1, hs1⟩ := Lookup_sound_core s hd hq hterms extra1 o1
  obtain ⟨items2, h2, hs2⟩ := Lookup_sound_core s hd hq hterms extra2 o2
  refine ⟨items1, items2, h1, h2, ?_⟩
  intro it hit
  obtain ⟨a1, a2, ⟨e, a3, a4, a5⟩, c0, b1, b2, b3, b4, b5⟩ := hs1 it hit
  obtain ⟨items2', h2', it2, c1, c2, c3⟩ :=
    Lookup_recall_core s hd a3 a4 b1 b2 b3 b4 b5 (by rw [← a1]; exact a2) extra2 o2
  rw [h2] at h2'
  have hi := Option.some.inj h2'
  subst hi
  refine ⟨it2, c1, c2, by rw [c3, a5], ?_⟩
  rw [(hs2 it2 c1).1, c2, a1]

/-! ## Deleting characters one after the other -/

theorem Deletes.to_sublist {t v : GoString} {k : Nat} (h : Deletes t k v) :
    v.Sublist t ∧ v.length + k = t.length := by
  induction h with
  | zero => exact ⟨List.Sublist.refl _, rfl⟩
  | succ i _ hi ih =>
    refine ⟨(deleteAt_sublist _ i).trans ih.1, ?_⟩
    rw [deleteAt_length _ i hi]
    omega

theorem Deletes.first {t v : GoString} {k : Nat} {i : Nat} (hi : i < t.length)
    (h : Deletes (deleteAt t i) k v) : Deletes t (k + 1) v := by
  induction h with
  | zero => exact Deletes.succ i (Deletes.zero t) hi
  | succ j _ hj ih => exact Deletes.succ j ih hj

theorem Deletes.of_sublist_length : ∀ (k : Nat) {t v : GoString}, v.Sublist t →
    v.length + k = t.length → Deletes t k v := by
  intro k
  induction k with
  | zero =>
    intro t v h hl
    have := h.eq_of_length (by omega)
    subst this
    exact Deletes.zero _
  | succ k ih =>
    intro t v h hl
    obtain ⟨i, hi, hs⟩ := sublist_deleteAt h (by omega)
    rw [← deleteAt_eq_eraseIdx] at hs
    refine Deletes.first hi (ih hs ?_)
    rw [deleteAt_length _ i hi]
    omega

theorem deletes_iff {t v : GoString} {k : Nat} :
    Deletes t k v ↔ v.Sublist t ∧ v.length + k = t.length :=
  ⟨fun h => h.to_sublist, fun h => Deletes.of_sublist_length k h.1 h.2⟩

end Symspell

namespace Symspell

set_option maxRecDepth 1000000

/-! ## Claims about `Lookup` -/

/-- A common delete variant of two ASCII strings at distance at most 2, non-empty as soon
as one of them has more than two characters or they share a character. -/
theorem common_variant {t q : GoString} (ht : isASCII t) (hq : isASCII q)
    (hdist : LevDistance t q ≤ EDIT_DISTANCE)
    (hlen : 2 < t.length ∨ 2 < q.length ∨ ∃ x, x ∈ t ∧ x ∈ q) :
    ∃ c0 : GoString, c0 ≠ [] ∧ c0.Sublist t ∧ c0.Sublist q ∧
      t.length - c0.length ≤ 2 ∧ q.length - c0.length ≤ 2 := by
  obtain ⟨c, h1, h2, h3, h4⟩ := LevDistance_common ht hq
  unfold EDIT_DISTANCE at hdist
  by_cases hc : c = []
  · subst hc
    simp only [List.length_nil, Nat.sub_zero] at h3 h4
    rcases hlen with h | h | ⟨x, hx1, hx2⟩
    · omega
    · omega
    · refine ⟨[x], by simp, List.singleton_sublist.2 hx1, List.singleton_sublist.2 hx2, ?_, ?_⟩
      · simp only [List.length_singleton]; omega
      · simp only [List.length_singleton]; omega
  · exact ⟨c, hc, h1, h2, by omega, by omega⟩

/-- Claim C1, as stated, fails on a short term: with only "a" ingested, "b" is at distance
1 from it, yet `Lookup("b")` returns nothing. -/
theorem C1_recall_fails_short_term :
    (∃ c ∈ [Call.mk (str "a") [] []], c.term = str "a") ∧
      LevDistance (str "a") (str "b") ≤ EDIT_DISTANCE ∧
      Lookup 10 (runCalls [Call.mk (str "a") [] []]) (str "b") [] = some [] := by
  decide

/-- Claim C1, amended: in every engine state reached by `AddEntry` calls, for every
ingested ASCII term `t` and every ASCII input `q` at distance at most `EDIT_DISTANCE` such
that `t` or `q` has more than two characters or they share a character, every run of
`Lookup(q)` ends and returns an item whose term is `t`. -/
theorem C1_recall_amended (calls : List Call) (t q : GoString)
    (hin : ∃ c ∈ calls, c.term = t) (ht : isASCII t) (hq : isASCII q)
    (hdist : LevDistance t q ≤ EDIT_DISTANCE)
    (hlen : 2 < t.length ∨ 2 < q.length ∨ ∃ x, x ∈ t ∧ x ∈ q) (extra : Nat) (o : Oracle) :
    ∃ items, Lookup (lookupFuel q + extra) (runCalls calls) q o = some items ∧
      ∃ it ∈ items, it.Term = t := by
  obtain ⟨c0, h1, h2, h3, h4, h5⟩ := common_variant ht hq hdist hlen
  have htne : t ≠ [] := by
    rintro rfl
    exact h1 (List.sublist_nil.1 h2)
  obtain ⟨et, he1, he2, -⟩ := runCalls_term calls t htne hin
  obtain ⟨items, hi1, it, hi2, hi3, -⟩ :=
    Lookup_recall_core (runCalls calls) (runCalls_inv calls) he1 he2 h1 h2 h3 h4 h5 hdist extra o
  exact ⟨items, hi1, it, hi2, hi3⟩

/-- Witness for claim C1, amended: "hello" ingested, looked up through "zllo". -/
theorem C1_recall_amended_witness :
    (∃ c ∈ [Call.mk (str "hello") [str "a greeting"] []], c.term = str "hello") ∧
      isASCII (str "hello") ∧ isASCII (str "zllo") ∧
      LevDistance (str "hello") (str "zllo") ≤ EDIT_DISTANCE ∧
      ∃ items, Lookup (lookupFuel (str "zllo") + 0)
          (runCalls [Call.mk (str "hello") [str "a greeting"] []]) (str "zllo") [] = some items ∧
        ∃ it ∈ items, it.Term = str "hello" :=
  ⟨by decide, by decide, by decide, by decide,
    C1_recall_amended [Call.mk (str "hello") [str "a greeting"] []] (str "hello") (str "zllo")
      (by decide) (by decide) (by decide) (by decide) (Or.inl (by decide)) 0 []⟩

/-- Claim C2: in every engine state reached by `AddEntry` calls, for every ingested ASCII
term `t` of more than `EDIT_DISTANCE` characters and every ASCII input `q` with
`LevDistance(t, q) <= EDIT_DISTANCE`, every run of `Lookup(q)`, whatever candidate is drawn
at each step, ends and returns an item whose term is `t`. -/
theorem C2_recall_ascii (calls : List Call) (t q : GoString)
    (hin : ∃ c ∈ calls, c.term = t) (ht : isASCII t) (hlen : EDIT_DISTANCE < t.length)
    (hq : isASCII q) (hdist : LevDistance t q ≤ EDIT_DISTANCE) (extra : Nat) (o : Oracle) :
    ∃ items, Lookup (lookupFuel q + extra) (runCalls calls) q o = some items ∧
      ∃ it ∈ items, it.Term = t := by
  obtain ⟨c0, h1, h2, h3, h4, h5⟩ := common_variant ht hq hdist (Or.inl hlen)
  have htne : t ≠ [] := by
    rintro rfl
    exact h1 (List.sublist_nil.1 h2)
  obtain ⟨et, he1, he2, -⟩ := runCalls_term calls t htne hin
  obtain ⟨items, hi1, it, hi2, hi3, -⟩ :=
    Lookup_recall_core (runCalls calls) (runCalls_inv calls) he1 he2 h1 h2 h3 h4 h5 hdist extra o
  exact ⟨items, hi1, it, hi2, hi3⟩

/-- Witness for claim C2: "hello" and "something" ingested, "hello" looked up through
"hllo" under a non-trivial iteration order. -/
theorem C2_recall_ascii_witness :
    (∃ c ∈ [Call.mk (str "hello") [str "a greeting"] [],
        Call.mk (str "something") [str "An item that exists"] [3, 1, 4]], c.term = str "hello") ∧
      isASCII (str "hello") ∧ EDIT_DISTANCE < (str "hello").length ∧ isASCII (str "hllo") ∧
      LevDistance (str "hello") (str "hllo") ≤ EDIT_DISTANCE ∧
      ∃ items, Lookup (lookupFuel (str "hllo") + 0)
          (runCalls [Call.mk (str "hello") [str "a greeting"] [],
            Call.mk (str "something") [str "An item that exists"] [3, 1, 4]])
          (str "hllo") [2, 7, 1] = some items ∧
        ∃ it ∈ items, it.Term = str "hello" :=
  ⟨by decide, by decide, by decide, by decide, by decide,
    C2_recall_ascii [Call.mk (str "hello") [str "a greeting"] [],
        Call.mk (str "something") [str "An item that exists"] [3, 1, 4]]
      (str "hello") (str "hllo") (by decide) (by decide) (by decide) (by decide) (by decide) 0
      [2, 7, 1]⟩

/-- Claim C3: in every engine state reached by `AddEntry` calls on ASCII terms and for
every ASCII input `q`, every run of `Lookup(q)` ends and every item it returns satisfies
`LevDistance(item.Term, q) <= EDIT_DISTANCE`; in particular a term `t2` with
`LevDistance(q, t2) > EDIT_DISTANCE` is not among the returned items. -/
theorem C3_no_false_positives (calls : List Call) (hcalls : ∀ c ∈ calls, isASCII c.term)
    (q : GoString) (hq : isASCII q) (extra : Nat) (o : Oracle) :
    ∃ items, Lookup (lookupFuel q + extra) (runCalls calls) q o = some items ∧
      (∀ it ∈ items, LevDistance it.Term q ≤ EDIT_DISTANCE) ∧
      (∀ t2, EDIT_DISTANCE < LevDistance q t2 → ∀ it ∈ items, it.Term ≠ t2) := by
  obtain ⟨items, h1, h2⟩ := Lookup_dist_core (runCalls calls) (runCalls_inv calls) hq
    (runCalls_terms_ascii calls hcalls) extra o
  refine ⟨items, h1, ?_, ?_⟩
  · intro it hit
    obtain ⟨a1, a2⟩ := h2 it hit
    omega
  · intro t2 ht2 it hit hT
    obtain ⟨a1, a2⟩ := h2 it hit
    rw [hT, LevDistance_comm'] at a1
    omega

/-- Witness for claim C3: with "hello" and "something" ingested, `Lookup("hllo")` does not
return "something". -/
theorem C3_no_false_positives_witness :
    (∀ c ∈ [Call.mk (str "hello") [str "a greeting"] [],
        Call.mk (str "something") [str "An item that exists"] []], isASCII c.term) ∧
      isASCII (str "hllo") ∧
      ∃ items, Lookup (lookupFuel (str "hllo") + 0)
          (runCalls [Call.mk (str "hello") [str "a greeting"] [],
            Call.mk (str "something") [str "An item that exists"] []]) (str "hllo") [] =
            some items ∧
        (∀ it ∈ items, LevDistance it.Term (str "hllo") ≤ EDIT_DISTANCE) ∧
        (∀ t2, EDIT_DISTANCE < LevDistance (str "hllo") t2 → ∀ it ∈ items, it.Term ≠ t2) :=
  ⟨by decide, by decide,
    C3_no_false_positives [Call.mk (str "hello") [str "a greeting"] [],
        Call.mk (str "something") [str "An item that exists"] []] (by decide) (str "hllo")
      (by decide) 0 []⟩

/-- Claim C4 fails on a non-ASCII term: with "éa" (bytes C3 A9 61) ingested, `Lookup("a")`
returns it at distance 2, the number of bytes deleted, while `LevDistance("éa", "a")` is 1. -/
theorem C4_distance_not_verified_non_ascii :
    Lookup 10 (runCalls [Call.mk [0xC3, 0xA9, 0x61] [] []]) (str "a") [] =
        some [{ Term := [0xC3, 0xA9, 0x61], Distance := 2, Count := 1, Definitions := [] }] ∧
      LevDistance [0xC3, 0xA9, 0x61] (str "a") = 1 := by
  decide

/-- Claim C6: in every engine state reached by `AddEntry` calls, for every ingested
non-empty term `t`, every run of `Lookup(t)` ends and returns exactly one item with term
`t`; that item has distance 0 and the number of times `t` was ingested as count. -/
theorem C6_exact_match (calls : List Call) (t : GoString) (ht : t ≠ [])
    (hin : ∃ c ∈ calls, c.term = t) (extra : Nat) (o : Oracle) :
    ∃ items it0, Lookup (lookupFuel t + extra) (runCalls calls) t o = some items ∧
      items.filter (fun it => decide (it.Term = t)) = [it0] ∧
      it0.Distance = 0 ∧ it0.Count = calls.countP (fun c => decide (c.term = t)) := by
  obtain ⟨et, he1, he2, he3⟩ := runCalls_term calls t ht hin
  obtain ⟨items, it0, h1, h2, h3, h4⟩ :=
    Lookup_exact_core (runCalls calls) (runCalls_inv calls) he1 he2 extra o
  exact ⟨items, it0, h1, h2, h3, h4.trans he3⟩

/-- Witness for claim C6: the non-ASCII term "éa" ingested twice, "a" once. -/
theorem C6_exact_match_witness :
    ([0xC3, 0xA9, 0x61] : GoString) ≠ [] ∧
      (∃ c ∈ [Call.mk [0xC3, 0xA9, 0x61] [] [], Call.mk (str "a") [] [],
          Call.mk [0xC3, 0xA9, 0x61] [str "again"] [1]], c.term = [0xC3, 0xA9, 0x61]) ∧
      ∃ items it0, Lookup (lookupFuel [0xC3, 0xA9, 0x61] + 0)
          (runCalls [Call.mk [0xC3, 0xA9, 0x61] [] [], Call.mk (str "a") [] [],
            Call.mk [0xC3, 0xA9, 0x61] [str "again"] [1]]) [0xC3, 0xA9, 0x61] [5] =
            some items ∧
        items.filter (fun it => decide (it.Term = [0xC3, 0xA9, 0x61])) = [it0] ∧
        it0.Distance = 0 ∧
        it0.Count = [Call.mk [0xC3, 0xA9, 0x61] [] [], Call.mk (str "a") [] [],
          Call.mk [0xC3, 0xA9, 0x61] [str "again"] [1]].countP
            (fun c => decide (c.term = [0xC3, 0xA9, 0x61])) :=
  ⟨by decide, by decide,
    C6_exact_match [Call.mk [0xC3, 0xA9, 0x61] [] [], Call.mk (str "a") [] [],
        Call.mk [0xC3, 0xA9, 0x61] [str "again"] [1]] [0xC3, 0xA9, 0x61] (by decide) (by decide)
      0 [5]⟩

/-! ## Claims about `LevDistance` and `AddEntry` -/

/-- Claim C5: for all strings `a` and `b`, the empty ones included, `LevDistance(a, b)` is
the least number of unit-cost insertions, deletions, substitutions and transpositions of two
adjacent code points that turns the code points of `a` into those of `b`, a substring being
free to be edited more than once; so `LevDistance("ca", "abc")` is 2, and the distances
from "hello" in the test are as the test says. -/
theorem C5_LevDistance_is_damerau_levenshtein (a b : GoString) :
    IsLeast {n : Nat | EditPath n (runes a) (runes b)} (LevDistance a b) ∧
      LevDistance (str "ca") (str "abc") = 2 ∧
      LevDistance (str "hello") (str "elo") = 2 ∧
      LevDistance (str "hello") (str "ello") = 1 ∧
      LevDistance (str "hello") (str "hll") = 2 ∧
      LevDistance (str "hello") (str "helo") = 1 ∧
      LevDistance (str "hello") (str "heo") = 2 ∧
      LevDistance (str "hello") (str "hel") = 2 ∧
      LevDistance (str "hello") (str "zello") = 1 ∧
      LevDistance (str "hello") (str "ell") = 2 ∧
      LevDistance (str "hello") (str "hllo") = 1 ∧
      LevDistance (str "hello") (str "hlo") = 2 ∧
      LevDistance (str "hello") (str "hell") = 1 ∧
      LevDistance (str "hello") (str "hello") = 0 ∧
      LevDistance (str "hello") (str "hello!") = 1 ∧
      LevDistance (str "hello") (str "hello WORLD!") = 7 := by
  refine ⟨⟨?_, ?_⟩, by decide, by decide, by decide, by decide, by decide, by decide,
    by decide, by decide, by decide, by decide, by decide, by decide, by decide, by decide,
    by decide⟩
  · exact editPath_levRunes (runes a) (runes b)
  · intro n hn
    exact levRunes_le_of_editPath hn

/-- Claim C7: `LevDistance(a, b) == LevDistance(b, a)` for all strings `a` and `b`. -/
theorem C7_LevDistance_symm (a b : GoString) : LevDistance a b = LevDistance b a := by
  rw [LevDistance_eq, LevDistance_eq, levRunes_comm]

/-- Claim C8: `LevDistance(a, c) <= LevDistance(a, b) + LevDistance(b, c)` for all strings
`a`, `b` and `c`. -/
theorem C8_LevDistance_triangle (a b c : GoString) :
    LevDistance a c ≤ LevDistance a b + LevDistance b c :=
  levRunes_le_of_editPath
    ((editPath_levRunes (runes a) (runes b)).trans (editPath_levRunes (runes b) (runes c)))

/-- Claim C9: `LevDistance(a, a) == 0` for every string `a`, the empty string included;
the test's `LevDistance("hello", "hello")` is 0. -/
theorem C9_LevDistance_self (a : GoString) :
    LevDistance a a = 0 ∧ LevDistance [] [] = 0 ∧ LevDistance (str "hello") (str "hello") = 0 := by
  refine ⟨?_, by decide, by decide⟩
  rw [LevDistance_eq, levRunes_self]

/-- Claim C10: `AddEntry(term, definitions)` returns an error exactly when `term` is the
empty string, and then it returns `false` and leaves the engine, dictionary and definition
store, as it was. -/
theorem C10_AddEntry_empty_term (s : SymSpell) (term : GoString) (definitions : List GoString)
    (o : Oracle) :
    ((AddEntry s term definitions o).2.2 ≠ none ↔ term = []) ∧
      (AddEntry s [] definitions o).1 = s ∧
      (AddEntry s [] definitions o).2.1 = false ∧
      (AddEntry s [] definitions o).1.Dictionary = s.Dictionary ∧
      (AddEntry s [] definitions o).1.Ordinals = s.Ordinals := by
  refine ⟨?_, by rw [AddEntry_empty], by rw [AddEntry_empty], by rw [AddEntry_empty],
    by rw [AddEntry_empty]⟩
  by_cases ht : term = []
  · subst ht
    rw [AddEntry_empty]
    simp
  · unfold AddEntry
    rw [if_neg ht]
    simp only [ht, iff_false, ne_eq, not_not]
    split <;> rfl

end Symspell

namespace Symspell

set_option maxRecDepth 1000000

/-! ## Claims about the dictionary built by `AddEntry` -/

/-- Claim C11: after any sequence of `AddEntry` calls on a fresh engine, the count stored
under every key `k` of the dictionary is the number of calls whose term was exactly `k`;
it is at most the number of calls, so that the `uint` counter of the source does not wrap
in a run of fewer than 2^64 calls. -/
theorem C11_count_growth (calls : List Call) (k : GoString) (e : DictItem)
    (hk : (runCalls calls).Dictionary.get? k = some e) :
    e.Count = calls.countP (fun c => decide (c.term = k)) ∧ e.Count ≤ calls.length := by
  have hne : k ≠ [] := by
    rintro rfl
    rw [(runCalls_inv calls).no_empty] at hk
    exact Option.noConfusion hk
  have h := runCalls_count calls k hne
  rw [hk, Option.getD_some] at h
  exact ⟨h, h ▸ List.countP_le_length _⟩

/-- Witness for claim C11: "ab" enters the dictionary as a delete variant of "abc" and is
then ingested twice, with different definitions; its count is 2. -/
theorem C11_count_growth_witness :
    (runCalls [Call.mk (str "abc") [] [], Call.mk (str "ab") [] [],
        Call.mk (str "ab") [str "x"] [1]]).Dictionary.get? (str "ab") =
        some { Term := str "ab", Count := 2, Suggestions := [(str "abc", 1)],
               Definitions := [(12638153115695167399, true)] } ∧
      (2 = [Call.mk (str "abc") [] [], Call.mk (str "ab") [] [],
          Call.mk (str "ab") [str "x"] [1]].countP (fun c => decide (c.term = str "ab")) ∧
        2 ≤ [Call.mk (str "abc") [] [], Call.mk (str "ab") [] [],
          Call.mk (str "ab") [str "x"] [1]].length) :=
  ⟨by decide,
    C11_count_growth [Call.mk (str "abc") [] [], Call.mk (str "ab") [] [],
        Call.mk (str "ab") [str "x"] [1]] (str "ab")
      { Term := str "ab", Count := 2, Suggestions := [(str "abc", 1)],
        Definitions := [(12638153115695167399, true)] } (by decide)⟩

/-- Claim C12: when `term` has a term entry already (`Dictionary[term].Term == term`; the
term is then non-empty, which in an engine built by `AddEntry` calls goes without saying),
`AddEntry(term, definitions)` returns `(false, nil)`; the entry of `term` keeps its term and
suggestions, its count grows by one and its definitions gain the identifiers of
`definitions` and lose none; every other entry is left as it was, and the dictionary has
the same keys. -/
theorem C12_reingestion_frame (s : SymSpell) (term : GoString) (definitions : List GoString)
    (o : Oracle) (e : DictItem) (he : s.Dictionary.get? term = some e) (hT : e.Term = term)
    (hne : term ≠ [] ∨ ∃ calls, s = runCalls calls) :
    (AddEntry s term definitions o).2 = (false, none) ∧
      (∃ e', (AddEntry s term definitions o).1.Dictionary.get? term = some e' ∧
        e'.Term = e.Term ∧ e'.Count = e.Count + 1 ∧ e'.Suggestions = e.Suggestions ∧
        ∀ h, e'.Definitions.get? h =
          if h ∈ definitions.map fnv64 then some true else e.Definitions.get? h) ∧
      (∀ k, k ≠ term →
        (AddEntry s term definitions o).1.Dictionary.get? k = s.Dictionary.get? k) ∧
      (∀ k, ((AddEntry s term definitions o).1.Dictionary.get? k).isSome =
        (s.Dictionary.get? k).isSome) := by
  have ht : term ≠ [] := by
    rcases hne with h | ⟨calls, rfl⟩
    · exact h
    · rintro rfl
      rw [(runCalls_inv calls).no_empty] at he
      exact Option.noConfusion he
  obtain ⟨h1, h2⟩ := AddEntry_again s term definitions o ht e he hT
  refine ⟨h1, ⟨entryAfter s term definitions, ?_, ?_, ?_, ?_, ?_⟩, ?_, ?_⟩
  · rw [h2, if_pos rfl]
  · rw [entryAfter_Term, he, Option.getD_some]
  · rw [entryAfter_Count, he, Option.getD_some]
  · rw [entryAfter_Suggestions, he, Option.getD_some]
  · intro h
    rw [entryAfter_Definitions, he, Option.getD_some]
  · intro k hk
    rw [h2, if_neg hk]
  · intro k
    rw [h2]
    by_cases hk : k = term
    · rw [if_pos hk, hk, he]
      rfl
    · rw [if_neg hk]

/-- Witness for claim C12: "ab" is ingested, then ingested again with a definition. -/
theorem C12_reingestion_frame_witness :
    (runCalls [Call.mk (str "ab") [] []]).Dictionary.get? (str "ab") =
        some { Term := str "ab", Count := 1, Suggestions := [], Definitions := [] } ∧
      (AddEntry (runCalls [Call.mk (str "ab") [] []]) (str "ab") [str "x"] [1]).2 =
        (false, none) ∧
      (∃ e', (AddEntry (runCalls [Call.mk (str "ab") [] []]) (str "ab") [str "x"]
            [1]).1.Dictionary.get? (str "ab") = some e' ∧
        e'.Term = str "ab" ∧ e'.Count = 1 + 1 ∧ e'.Suggestions = [] ∧
        ∀ h, e'.Definitions.get? h =
          if h ∈ [str "x"].map fnv64 then some true
          else GoMap.get? ([] : GoMap Nat Bool) h) ∧
      (∀ k, k ≠ str "ab" →
        (AddEntry (runCalls [Call.mk (str "ab") [] []]) (str "ab") [str "x"]
            [1]).1.Dictionary.get? k =
          (runCalls [Call.mk (str "ab") [] []]).Dictionary.get? k) ∧
      (∀ k, ((AddEntry (runCalls [Call.mk (str "ab") [] []]) (str "ab") [str "x"]
            [1]).1.Dictionary.get? k).isSome =
          ((runCalls [Call.mk (str "ab") [] []]).Dictionary.get? k).isSome) :=
  ⟨by decide,
    C12_reingestion_frame (runCalls [Call.mk (str "ab") [] []]) (str "ab") [str "x"] [1]
      { Term := str "ab", Count := 1, Suggestions := [], Definitions := [] }
      (by decide) (by decide) (Or.inl (by decide))⟩

/-! ## Claims about `Edits` -/

/-- Claim C13 fails on a multi-byte character: "é" (bytes C3 A9) is a single code point,
yet `Edits("é", 0, nil, false)` is not empty; it maps the two strings left by deleting one
byte to 1.  On "éa" (two code points) it maps three strings, and "a", which is "éa" without
its first code point, is not among them. -/
theorem C13_Edits_deletes_bytes :
    runes [0xC3, 0xA9] = [0xE9] ∧
      Edits [0xC3, 0xA9] 0 none false = [([0xC3], 1), ([0xA9], 1)] ∧
      runes [0xC3, 0xA9, 0x61] = [0xE9, 0x61] ∧
      Edits [0xC3, 0xA9, 0x61] 0 none false =
        [([0xC3, 0xA9], 1), ([0xC3, 0x61], 1), ([0xA9, 0x61], 1)] ∧
      (Edits [0xC3, 0xA9, 0x61] 0 none false).get? (str "a") = none := by
  decide

/-- Claim C14: for every string `term`, `Edits(term, 0, nil, true)` maps `v` to `n` exactly
when `v` is a non-empty string obtained from `term` by deleting `n` of its bytes, with `n`
between 1 and `EDIT_DISTANCE`; so its keys are exactly these strings, none is lost, each is
mapped to its length difference from `term`, and no key occurs twice. -/
theorem C14_full_delete_expansion (term v : GoString) (n : Nat) :
    ((Edits term 0 none true).get? v = some n ↔
        v ≠ [] ∧ 1 ≤ n ∧ n ≤ EDIT_DISTANCE ∧ Deletes term n v) ∧
      ((Edits term 0 none true).get? v = some n → n = term.length - v.length) ∧
      ((Edits term 0 none true).map Prod.fst).Nodup := by
  have key : (Edits term 0 none true).get? v = some n ↔
      v ≠ [] ∧ 1 ≤ n ∧ n ≤ EDIT_DISTANCE ∧ Deletes term n v := by
    rw [Edits_full_iff, deletes_iff]
    unfold EDIT_DISTANCE
    constructor
    · rintro ⟨h1, h2, h3, h4, h5⟩
      exact ⟨h2, h4, h5, h1, h3⟩
    · rintro ⟨h2, h4, h5, h1, h3⟩
      exact ⟨h1, h2, h3, h4, h5⟩
  refine ⟨key, ?_, Edits_nodup term 0 true⟩
  intro h
  have := (key.1 h).2.2.2.to_sublist.2
  omega

/-! ## Claims about the states of the dictionary -/

/-- Claim C15: in every engine state reached by `AddEntry` calls, the entry `e` stored
under a key `k` is a term entry (`e.Term == k`, `k` non-empty, `e.Count >= 1`) or a pure
delete variant (`e.Term == ""`, `e.Count == 0`, no definitions, at least one suggestion),
and never both. -/
theorem C15_two_state_entries (calls : List Call) (k : GoString) (e : DictItem)
    (hk : (runCalls calls).Dictionary.get? k = some e) :
    ((e.Term = k ∧ k ≠ [] ∧ 1 ≤ e.Count) ∨
        (e.Term = [] ∧ e.Count = 0 ∧ e.Definitions = [] ∧ e.Suggestions ≠ [])) ∧
      ¬ ((e.Term = k ∧ k ≠ [] ∧ 1 ≤ e.Count) ∧
        (e.Term = [] ∧ e.Count = 0 ∧ e.Definitions = [] ∧ e.Suggestions ≠ [])) := by
  have hd := runCalls_inv calls
  have hne : k ≠ [] := by
    rintro rfl
    rw [hd.no_empty] at hk
    exact Option.noConfusion hk
  constructor
  · by_cases hT : e.Term = k
    · exact Or.inl ⟨hT, hne, (hd.term_count k e hk).1 hT⟩
    · have h0 : e.Term = [] := (hd.term_key k e hk).resolve_right hT
      have hc : ¬ 0 < e.Count := fun h => hT ((hd.term_count k e hk).2 h)
      obtain ⟨h1, h2⟩ := runCalls_pure calls k e hk h0
      exact Or.inr ⟨h0, by omega, h1, h2⟩
  · rintro ⟨⟨-, -, h1⟩, -, h2, -⟩
    omega

/-- Witness for claim C15: with "abc" ingested, the entry under "ab" is a pure delete
variant. -/
theorem C15_two_state_entries_witness :
    (runCalls [Call.mk (str "abc") [str "x"] []]).Dictionary.get? (str "ab") =
        some { Term := [], Count := 0, Suggestions := [(str "abc", 1)], Definitions := [] } ∧
      ((([] : GoString) = str "ab" ∧ str "ab" ≠ [] ∧ 1 ≤ 0) ∨
        (([] : GoString) = [] ∧ 0 = 0 ∧ ([] : GoMap Nat Bool) = [] ∧
          [(str "abc", 1)] ≠ ([] : GoMap GoString Nat))) ∧
      ¬ ((([] : GoString) = str "ab" ∧ str "ab" ≠ [] ∧ 1 ≤ 0) ∧
        (([] : GoString) = [] ∧ 0 = 0 ∧ ([] : GoMap Nat Bool) = [] ∧
          [(str "abc", 1)] ≠ ([] : GoMap GoString Nat))) :=
  ⟨by decide,
    C15_two_state_entries [Call.mk (str "abc") [str "x"] []] (str "ab")
      { Term := [], Count := 0, Suggestions := [(str "abc", 1)], Definitions := [] }
      (by decide)⟩

/-- Claim C16: in every engine state reached by `AddEntry` calls, `Dictionary[v]` exists
with `Suggestions[s] == n` exactly when `s` has a term entry and `Edits(s, 0, nil, true)`
maps `v` to `n`; the keys of the dictionary are exactly the strings with a term entry
together with their delete variants; and the strings with a term entry are exactly the
non-empty terms of the calls. -/
theorem C16_delete_index (calls : List Call) (v s : GoString) (n : Nat) :
    ((∃ e, (runCalls calls).Dictionary.get? v = some e ∧ e.Suggestions.get? s = some n) ↔
        ((∃ es, (runCalls calls).Dictionary.get? s = some es ∧ es.Term = s) ∧
          (Edits s 0 none true).get? v = some n)) ∧
      (((runCalls calls).Dictionary.get? v).isSome = true ↔
        ((∃ e, (runCalls calls).Dictionary.get? v = some e ∧ e.Term = v) ∨
          ∃ t et, (runCalls calls).Dictionary.get? t = some et ∧ et.Term = t ∧
            ((Edits t 0 none true).get? v).isSome = true)) ∧
      ((∃ es, (runCalls calls).Dictionary.get? s = some es ∧ es.Term = s) ↔
        (s ≠ [] ∧ ∃ c ∈ calls, c.term = s)) := by
  have hd := runCalls_inv calls
  refine ⟨⟨?_, ?_⟩, ⟨?_, ?_⟩, ⟨?_, ?_⟩⟩
  · rintro ⟨e, h1, h2⟩
    exact hd.sugg_sound v e s n h1 h2
  · rintro ⟨⟨es, h1, h2⟩, h3⟩
    exact hd.sugg_complete s es h1 h2 v n h3
  · intro h
    obtain ⟨e, he⟩ := Option.isSome_iff_exists.1 h
    by_cases hT : e.Term = v
    · exact Or.inl ⟨e, he, hT⟩
    · have h0 : e.Term = [] := (hd.term_key v e he).resolve_right hT
      obtain ⟨-, h2⟩ := runCalls_pure calls v e he h0
      cases hs : e.Suggestions with
      | nil => exact absurd hs h2
      | cons p rest =>
        have hg : e.Suggestions.get? p.1 = some p.2 := by
          rw [hs, GoMap.get?_cons, if_pos rfl]
        obtain ⟨⟨es, a1, a2⟩, a3⟩ := hd.sugg_sound v e p.1 p.2 he hg
        exact Or.inr ⟨p.1, es, a1, a2, by rw [a3]; rfl⟩
  · rintro (⟨e, h1, -⟩ | ⟨t, et, h1, h2, h3⟩)
    · rw [h1]; rfl
    · obtain ⟨m, hm⟩ := Option.isSome_iff_exists.1 h3
      obtain ⟨e, a1, -⟩ := hd.sugg_complete t et h1 h2 v m hm
      rw [a1]; rfl
  · rintro ⟨es, h1, h2⟩
    refine ⟨?_, runCalls_term_ingested calls s es h1 h2⟩
    rintro rfl
    rw [hd.no_empty] at h1
    exact Option.noConfusion h1
  · rintro ⟨h1, h2⟩
    obtain ⟨e, a1, a2, -⟩ := runCalls_term calls s h1 h2
    exact ⟨e, a1, a2⟩

/-! ## Claims about the distance verifier and the loop of `Lookup` -/

/-- Claim C17: for ASCII strings `suggest` and `input` (a string obtained from them by
deleting characters is then ASCII too), when `candidate` is obtained from `suggest` by
deleting exactly `sDistance` characters and from `input` by deleting exactly `cDistance`
characters, `TrueDistance(suggest, sDistance, candidate, cDistance, input)` is
`LevDistance(suggest, input)`; and a string with `k` characters deleted is at distance
exactly `k`. -/
theorem C17_TrueDistance_shortcuts (suggest candidate input : GoString)
    (sDistance cDistance : Nat) (hs : isASCII suggest) (hi : isASCII input)
    (h1 : Deletes suggest sDistance candidate) (h2 : Deletes input cDistance candidate) :
    TrueDistance suggest sDistance candidate cDistance input = LevDistance suggest input ∧
      LevDistance suggest candidate = sDistance ∧ LevDistance input candidate = cDistance := by
  obtain ⟨a1, a2⟩ := h1.to_sublist
  obtain ⟨b1, b2⟩ := h2.to_sublist
  have e1 : LevDistance suggest candidate = sDistance := by
    rw [LevDistance_of_sublist hs a1]; omega
  have e2 : LevDistance input candidate = cDistance := by
    rw [LevDistance_of_sublist hi b1]; omega
  refine ⟨?_, e1, e2⟩
  unfold TrueDistance
  by_cases c1 : suggest = input
  · rw [if_pos c1, c1, LevDistance_self']
  · rw [if_neg c1]
    by_cases c2 : sDistance = 0
    · rw [if_pos c2]
      have : candidate = suggest := a1.eq_of_length (by omega)
      rw [← this, LevDistance_comm', e2]
    · rw [if_neg c2]
      by_cases c3 : cDistance = 0
      · rw [if_pos c3]
        have : candidate = input := b1.eq_of_length (by omega)
        rw [← this, e1]
      · rw [if_neg c3]

/-- Witness for claim C17: "hello" and "zello" meet in "ello", one deletion away from
each. -/
theorem C17_TrueDistance_shortcuts_witness :
    isASCII (str "hello") ∧ isASCII (str "zello") ∧
      Deletes (str "hello") (0 + 1) (deleteAt (str "hello") 0) ∧
      Deletes (str "zello") (0 + 1) (deleteAt (str "hello") 0) ∧
      (TrueDistance (str "hello") (0 + 1) (deleteAt (str "hello") 0) (0 + 1) (str "zello") =
          LevDistance (str "hello") (str "zello") ∧
        LevDistance (str "hello") (deleteAt (str "hello") 0) = 0 + 1 ∧
        LevDistance (str "zello") (deleteAt (str "hello") 0) = 0 + 1) :=
  ⟨by decide, by decide, Deletes.succ 0 (Deletes.zero _) (by decide),
    Deletes.succ (u := str "zello") 0 (Deletes.zero _) (by decide),
    C17_TrueDistance_shortcuts (str "hello") (deleteAt (str "hello") 0) (str "zello") (0 + 1)
      (0 + 1) (by decide) (by decide) (Deletes.succ 0 (Deletes.zero _) (by decide))
      (Deletes.succ (u := str "zello") 0 (Deletes.zero _) (by decide))⟩

/-- Claim C18: for every dictionary, every input and every choice `arbitraryKey` and the
map iterations make, the loop of `Lookup` ends, within `len(input)^2 + 2` iterations, and
`Lookup` returns. -/
theorem C18_Lookup_terminates (s : SymSpell) (input : GoString) (o : Oracle) (extra : Nat) :
    (lookupLoop s.Dictionary input (lookupFuel input + extra)
        (GoMap.set ([] : GoMap GoString Nat) input 0) [] o).isSome = true ∧
      (Lookup (lookupFuel input + extra) s input o).isSome = true := by
  have hstep : ∀ (cands : GoMap GoString Nat) (sugg : GoMap GoString SuggestItem)
      (k : GoString) (n : Nat) (o1 o2 : Oracle), CandInv input cands → cands.get? k = some n →
      n ≤ EDIT_DISTANCE ∧ CandInv input (lookupExpand k n (cands.del k) o2).1 :=
    fun cands _ k n _ o2 hI hk => ⟨(hI k n hk).2.2, CandInv_expand hI k n hk o2⟩
  constructor
  · obtain ⟨r, hr, -⟩ := lookupLoop_rule s.Dictionary input (fun cands _ => CandInv input cands)
      hstep (lookupFuel input + extra) (GoMap.set ([] : GoMap GoString Nat) input 0) [] o
      (Nat.le_trans (candWeight_init input) (Nat.le_add_right _ _)) (CandInv_init input)
    rw [hr]; rfl
  · obtain ⟨r, hr, -⟩ := Lookup_rule s input (fun cands _ => CandInv input cands) hstep
      (CandInv_init input) extra o
    rw [hr]; rfl

/-- Claim C19: for every dictionary, every input and every order in which candidates are
drawn, in every state the loop of `Lookup` passes through each candidate on the worklist is
a delete variant of the input labelled with `len(input) - len(candidate)`, at most
`EDIT_DISTANCE`; so the iteration started in that state does not take the `break`, and the
loop ends there only if the worklist is empty. -/
theorem C19_early_exit_unreachable (dict : GoMap GoString DictItem) (input : GoString)
    (o : Oracle) (st : LoopState) (h : LoopReach dict input o st) :
    (∀ c n, st.1.get? c = some n →
        c.Sublist input ∧ n = input.length - c.length ∧ n ≤ EDIT_DISTANCE) ∧
      lookupIter dict input st ≠ LoopStep.broke ∧
      ((∀ st', lookupIter dict input st ≠ LoopStep.next st') → st.1 = []) := by
  have hI := LoopReach_candInv h
  refine ⟨?_, lookupIter_ne_broke hI, lookupIter_done hI⟩
  intro c n hc
  obtain ⟨a1, a2, a3⟩ := hI c n hc
  exact ⟨a1, by omega, a3⟩

/-- Witness for claim C19: the state after the first iteration of `Lookup("hllo")` on the
dictionary of "hello". -/
theorem C19_early_exit_unreachable_witness :
    ∃ st, lookupIter (runCalls [Call.mk (str "hello") [] []]).Dictionary (str "hllo")
        (lookupInit (str "hllo") [2]) = LoopStep.next st ∧
      (∀ c n, st.1.get? c = some n →
        c.Sublist (str "hllo") ∧ n = (str "hllo").length - c.length ∧ n ≤ EDIT_DISTANCE) ∧
      lookupIter (runCalls [Call.mk (str "hello") [] []]).Dictionary (str "hllo") st ≠
        LoopStep.broke ∧
      ((∀ st', lookupIter (runCalls [Call.mk (str "hello") [] []]).Dictionary (str "hllo") st ≠
        LoopStep.next st') → st.1 = []) :=
  ⟨_, rfl, C19_early_exit_unreachable _ _ [2] _ (LoopReach.step LoopReach.init rfl)⟩

/-- Claim C20: in every engine state reached by `AddEntry` calls on ASCII terms and for
every ASCII input `q`, two runs of `Lookup(q)`, whatever candidates `arbitraryKey` draws and
whatever order the maps are iterated in, both end and return the same set of
(Term, Count, Distance) items. -/
theorem C20_order_independent (calls : List Call) (hcalls : ∀ c ∈ calls, isASCII c.term)
    (q : GoString) (hq : isASCII q) (extra1 extra2 : Nat) (o1 o2 : Oracle) :
    ∃ items1 items2, Lookup (lookupFuel q + extra1) (runCalls calls) q o1 = some items1 ∧
      Lookup (lookupFuel q + extra2) (runCalls calls) q o2 = some items2 ∧
      ∀ t c d, (∃ it ∈ items1, it.Term = t ∧ it.Count = c ∧ it.Distance = d) ↔
        (∃ it ∈ items2, it.Term = t ∧ it.Count = c ∧ it.Distance = d) := by
  have hd := runCalls_inv calls
  have hterms := runCalls_terms_ascii calls hcalls
  obtain ⟨items1, items2, h1, h2, h12⟩ :=
    Lookup_order_core (runCalls calls) hd hq hterms extra1 extra2 o1 o2
  obtain ⟨items2', items1', h2', h1', h21⟩ :=
    Lookup_order_core (runCalls calls) hd hq hterms extra2 extra1 o2 o1
  rw [h1] at h1'
  rw [h2] at h2'
  have e1 := Option.some.inj h1'
  have e2 := Option.some.inj h2'
  subst e1
  subst e2
  refine ⟨items1, items2, h1, h2, ?_⟩
  intro t c d
  constructor
  · rintro ⟨it, hit, a1, a2, a3⟩
    obtain ⟨it2, b0, b1, b2, b3⟩ := h12 it hit
    exact ⟨it2, b0, b1.trans a1, b2.trans a2, b3.trans a3⟩
  · rintro ⟨it, hit, a1, a2, a3⟩
    obtain ⟨it2, b0, b1, b2, b3⟩ := h21 it hit
    exact ⟨it2, b0, b1.trans a1, b2.trans a2, b3.trans a3⟩

/-- Witness for claim C20: "hello", "help" and "hell" ingested, "helo" looked up under two
iteration orders. -/
theorem C20_order_independent_witness :
    (∀ c ∈ [Call.mk (str "hello") [] [], Call.mk (str "help") [] [1, 2],
        Call.mk (str "hell") [] []], isASCII c.term) ∧
      isASCII (str "helo") ∧
      ∃ items1 items2,
        Lookup (lookupFuel (str "helo") + 0)
          (runCalls [Call.mk (str "hello") [] [], Call.mk (str "help") [] [1, 2],
            Call.mk (str "hell") [] []]) (str "helo") [] = some items1 ∧
        Lookup (lookupFuel (str "helo") + 3)
          (runCalls [Call.mk (str "hello") [] [], Call.mk (str "help") [] [1, 2],
            Call.mk (str "hell") [] []]) (str "helo") [3, 1, 4, 1, 5, 9, 2, 6] = some items2 ∧
        ∀ t c d, (∃ it ∈ items1, it.Term = t ∧ it.Count = c ∧ it.Distance = d) ↔
          (∃ it ∈ items2, it.Term = t ∧ it.Count = c ∧ it.Distance = d) :=
  ⟨by decide, by decide,
    C20_order_independent [Call.mk (str "hello") [] [], Call.mk (str "help") [] [1, 2],
        Call.mk (str "hell") [] []] (by decide) (str "helo") (by decide) 0 3 []
      [3, 1, 4, 1, 5, 9, 2, 6]⟩

end Symspell
